import Mathlib

/-!
# Teleporter calibration search (`misc/teleporter.go`) and grid puzzle (`misc/maze.go`)

A shallow embedding of the memoized evaluator `memoAck`, of the worker `rangeMemoAck` and
of `main` of `misc/teleporter.go`, and of `findPath` of `misc/maze.go`, together with
theorems about them.

Go's `int` is modelled by `Int`. In `misc/teleporter.go`, for arguments and table values
in `[0, 32768)` every value that occurs lies in `[0, 32768]` (`memoAckI_range`), far
below the 64-bit limit, and the statements are about that domain. In `misc/maze.go` the
arithmetic on the accumulated value wraps around at 64 bits (`Maze.wrap64`). Go's `%` is
the truncating remainder `Int.tmod`, and Go's `map[string]int` a function from keys to
optional values.
-/

namespace Teleporter

/-! ## Constants -/

/-- Source: `const MOD = 32768`. -/
def MOD : Int := 32768

/-- Source: `const GOROUTINES_NUM = 8`. -/
def GOROUTINES_NUM : Int := 8

/-! ## The memo table -/

/-- Source: `func toKey(a, b int) string { return fmt.Sprintf("%d:%d", a, b) }`. -/
def toKey (a b : Int) : String :=
  toString a ++ ":" ++ toString b

/-- A Go `map[string]int`, seen as a finite function from keys to values. -/
abbrev Memo := String → Option Int

/-- Source: `make(map[string]int)`. -/
def Memo.empty : Memo := fun _ => none

/-- Source: `(*memo)[k] = v`. -/
def Memo.set (m : Memo) (k : String) (v : Int) : Memo :=
  fun k' => if k' = k then some v else m k'

/-! ## Termination measure -/

/-- The number of times `x ↦ (x-1) % MOD` can be applied to `x` before it reaches `0`
(an upper bound, for every Go integer `x`, negative ones included). -/
def rank (x : Int) : Nat :=
  if 0 ≤ x then x.toNat else if -MOD < x then (MOD + x).toNat else MOD.toNat

/-! ## The evaluator -/

/-- Source: `func memoAck(r0, r1, r7 int, memo *map[string]int) int`.
The map behind the pointer is threaded through: the function returns the result
together with the table as the call leaves it. -/
def memoAck (r0 r1 r7 : Int) (memo : Memo) : Int × Memo :=
  match memo (toKey r0 r1) with
  | some res => (res, memo)
  | none =>
    if h0 : r0 = 0 then
      let res := (r1 + 1).tmod MOD
      (res, memo.set (toKey r0 r1) res)
    else if h1 : r1 = 0 then
      let p := memoAck ((r0 - 1).tmod MOD) r7 r7 memo
      (p.1, p.2.set (toKey ((r0 - 1).tmod MOD) r7) p.1)
    else
      let p := memoAck r0 ((r1 - 1).tmod MOD) r7 memo
      let m1 := p.2.set (toKey r0 ((r1 - 1).tmod MOD)) p.1
      let q := memoAck ((r0 - 1).tmod MOD) p.1 r7 m1
      (q.1, q.2.set (toKey ((r0 - 1).tmod MOD) p.1) q.1)
termination_by (rank r0, rank r1)
decreasing_by
  all_goals
    have dec : ∀ x : Int, x ≠ 0 → rank ((x - 1).tmod MOD) < rank x := by
      intro x hx
      have e := Int.tmod_def (x - 1) 32768
      have l1 := @Int.tdiv_nonneg (x - 1) 32768
      have l2 := @Int.tdiv_nonpos (x - 1) 32768
      have l3 := @Int.tmod_nonneg (x - 1) 32768
      have l4 := Int.tmod_lt_of_pos (x - 1) (show (0 : Int) < 32768 by decide)
      have e5 := Int.tmod_def (1 - x) 32768
      have l5 := @Int.tmod_nonneg (1 - x) 32768
      have l6 := Int.tmod_lt_of_pos (1 - x) (show (0 : Int) < 32768 by decide)
      have e6 : (1 - x).tdiv 32768 = -((x - 1).tdiv 32768) := by
        rw [← Int.neg_tdiv]; congr 1; omega
      rw [e6] at e5
      unfold rank MOD
      split_ifs <;> omega
  · exact Prod.Lex.left _ _ (dec r0 h0)
  · exact Prod.Lex.right _ (dec r1 h1)
  · exact Prod.Lex.left _ _ (dec r0 h0)

/-! ## The evaluator with call-count instrumentation -/

/-- What an instrumented run of `memoAck` records, in program order. -/
inductive Event where
  /-- An activation of `memoAck(r0, r1, ...)`, the outermost one included. -/
  | call (r0 r1 : Int)
  /-- An evaluation of the decrement `(x-1) % MOD`. -/
  | dec (x : Int)
  /-- An assignment `(*memo)[toKey(a, b)] = v`. -/
  | store (a b v : Int)
  deriving DecidableEq

/-- The outcome of an instrumented run: the returned value, the table the call
leaves behind and the recorded events. -/
structure Run where
  res : Int
  memo : Memo
  log : List Event

/-- Source: `func memoAck`, statement for statement as in `memoAck` above, recording in
addition every activation, every decrement and every assignment to the table. -/
def memoAckI (r0 r1 r7 : Int) (memo : Memo) : Run :=
  match memo (toKey r0 r1) with
  | some res => ⟨res, memo, [Event.call r0 r1]⟩
  | none =>
    if h0 : r0 = 0 then
      let res := (r1 + 1).tmod MOD
      ⟨res, memo.set (toKey r0 r1) res, [Event.call r0 r1, Event.store r0 r1 res]⟩
    else if h1 : r1 = 0 then
      let p := memoAckI ((r0 - 1).tmod MOD) r7 r7 memo
      ⟨p.res, p.memo.set (toKey ((r0 - 1).tmod MOD) r7) p.res,
        [Event.call r0 r1, Event.dec r0] ++ p.log ++
          [Event.dec r0, Event.store ((r0 - 1).tmod MOD) r7 p.res]⟩
    else
      let p := memoAckI r0 ((r1 - 1).tmod MOD) r7 memo
      let m1 := p.memo.set (toKey r0 ((r1 - 1).tmod MOD)) p.res
      let q := memoAckI ((r0 - 1).tmod MOD) p.res r7 m1
      ⟨q.res, q.memo.set (toKey ((r0 - 1).tmod MOD) p.res) q.res,
        [Event.call r0 r1, Event.dec r1] ++ p.log ++
          [Event.dec r1, Event.store r0 ((r1 - 1).tmod MOD) p.res, Event.dec r0] ++ q.log ++
          [Event.dec r0, Event.store ((r0 - 1).tmod MOD) p.res q.res]⟩
termination_by (rank r0, rank r1)
decreasing_by
  all_goals
    have dec : ∀ x : Int, x ≠ 0 → rank ((x - 1).tmod MOD) < rank x := by
      intro x hx
      have e := Int.tmod_def (x - 1) 32768
      have l1 := @Int.tdiv_nonneg (x - 1) 32768
      have l2 := @Int.tdiv_nonpos (x - 1) 32768
      have l3 := @Int.tmod_nonneg (x - 1) 32768
      have l4 := Int.tmod_lt_of_pos (x - 1) (show (0 : Int) < 32768 by decide)
      have e5 := Int.tmod_def (1 - x) 32768
      have l5 := @Int.tmod_nonneg (1 - x) 32768
      have l6 := Int.tmod_lt_of_pos (1 - x) (show (0 : Int) < 32768 by decide)
      have e6 : (1 - x).tdiv 32768 = -((x - 1).tdiv 32768) := by
        rw [← Int.neg_tdiv]; congr 1; omega
      rw [e6] at e5
      unfold rank MOD
      split_ifs <;> omega
  · exact Prod.Lex.left _ _ (dec r0 h0)
  · exact Prod.Lex.right _ (dec r1 h1)
  · exact Prod.Lex.left _ _ (dec r0 h0)

/-- The number of activations of `memoAck` in a log (the instrumented call count). -/
def callCount (log : List Event) : Nat :=
  (log.filter (fun e => match e with
    | Event.call _ _ => true
    | _ => false)).length

/-! ## The unmemoized reference recurrence -/

/-- The recurrence the evaluator memoizes, as the specification words it (and as the
unmemoized first try `Ack` in the source computes it):
`A(0, r1) = (r1 + 1) mod 32768`, `A(r0, 0) = A(r0 - 1, r7)` and
`A(r0, r1) = A(r0 - 1, A(r0, r1 - 1))`. -/
def ackRef (r7 : Nat) : Nat → Nat → Nat
  | 0, r1 => (r1 + 1) % 32768
  | r0 + 1, 0 => ackRef r7 r0 r7
  | r0 + 1, r1 + 1 => ackRef r7 r0 (ackRef r7 (r0 + 1) r1)
termination_by r0 r1 => (r0, r1)

/-! ## Predicates used in the statements -/

/-- A value of the modular domain `[0, MOD)`. -/
def InRange (x : Int) : Prop := 0 ≤ x ∧ x < MOD

instance (x : Int) : Decidable (InRange x) :=
  inferInstanceAs (Decidable (0 ≤ x ∧ x < MOD))

/-- Every value held by the table lies in the modular domain. -/
def ValuesInRange (memo : Memo) : Prop := ∀ k v, memo k = some v → InRange v

/-- Every entry of the table under the key of a pair of the domain holds the reference
value of that pair for the calibration constant `r7`. -/
def Sound (r7 : Nat) (memo : Memo) : Prop :=
  ∀ (a b : Nat) (v : Int), memo (toKey a b) = some v → v = (ackRef r7 a b : Int)

/-- The pairs whose entry a call `memoAck(r0, r1, ...)` may assign: those of the calls
below it in the recursion, and its own pair in the base case. -/
def Below (a b r0 r1 : Int) : Prop :=
  rank a < rank r0 ∨ (a = r0 ∧ rank b < rank r1) ∨ (a = r0 ∧ b = r1 ∧ r0 = 0)

/-- What the recorded events of a run on the modular domain satisfy: arguments, key
components and stored values lie in `[0, MOD)`, and a decrement is taken of a positive
value only, so that it yields no negative value. -/
def Event.ok : Event → Prop
  | Event.call r0 r1 => InRange r0 ∧ InRange r1
  | Event.dec x => x ≠ 0 ∧ 0 ≤ (x - 1).tmod MOD
  | Event.store a b v => InRange a ∧ InRange b ∧ InRange v

/-! ## The search -/

/-- Source: `memo := make(map[string]int); res := memoAck(4, 1, r7, &memo)` in
`rangeMemoAck`: one trial of a candidate, on a fresh table. -/
def trial (r7 : Int) : Int := (memoAck 4 1 r7 Memo.empty).1

/-- Source: `start, end := MOD/GOROUTINES_NUM*i, MOD/GOROUTINES_NUM*(i+1)` in `main`. -/
def workerRange (i : Int) : Int × Int :=
  (MOD.tdiv GOROUTINES_NUM * i, MOD.tdiv GOROUTINES_NUM * (i + 1))

/-! ## Decimal rendering of keys -/

/-- The value of a decimal digit character. -/
def digVal (c : Char) : Nat := c.toNat - 48

/-- The number a list of decimal digit characters denotes. -/
def decode (l : List Char) : Nat := l.foldl (fun acc c => 10 * acc + digVal c) 0

/-- A character is a decimal digit. -/
def isDig (c : Char) : Prop := 48 ≤ c.toNat ∧ c.toNat ≤ 57

/-! ## Fast evaluation of the reference recurrence at `r0 = 4` -/

/-- The `k`-fold iterate of `y ↦ (a*y + b) mod 32768` at `x`, by repeated squaring of
the affine map; `fuel` bounds the number of binary digits of `k`. -/
def affIter : Nat → Nat → Nat → Nat → Nat → Nat
  | 0, _, _, _, x => x
  | fuel + 1, a, b, k, x =>
    if k = 0 then x
    else affIter fuel (a * a % 32768) ((a * b + b) % 32768) (k / 2)
      (if k % 2 = 1 then (a * x + b) % 32768 else x)

/-- The reference value `A(3, n)` in closed form. -/
def ack3 (r7 n : Nat) : Nat := affIter 16 (r7 + 1) (2 * r7 + 1) (n + 1) r7

/-- The reference value `A(4, 1)` in closed form. -/
def ack41 (r7 : Nat) : Nat := ack3 r7 (ack3 r7 r7)

/-! ## The partition of the candidates -/

/-- Source: `start, end := MOD/GOROUTINES_NUM*i, MOD/GOROUTINES_NUM*(i+1)` in `main`, with
the two constants as parameters: the range of worker `i` among `K` workers on `[0, M)`. -/
def rangeOf (M K i : Int) : Int × Int :=
  (M.tdiv K * i, M.tdiv K * (i + 1))

/-- The candidate `v` belongs to the range of worker `i`. -/
def Assigned (M K i v : Int) : Prop :=
  (rangeOf M K i).1 ≤ v ∧ v < (rangeOf M K i).2

/-! ## A worker -/

/-- What a worker does that is visible to the specification, in program order. -/
inductive WEvent where
  /-- The trial of the candidate `r7` on a fresh table, with its result `res`. -/
  | eval (r7 res : Int)
  /-- The send `resCh <- r7`. -/
  | report (r7 : Int)
  deriving DecidableEq

/-- Source: `func rangeMemoAck(id, start, end int, resCh chan int, stopCh chan struct{})`,
as the trace of the loop from the candidate `r7` on (`r7 = start` for the whole run).
`stop r7` tells whether the worker finds `stopCh` closed when it polls it at the top of
the iteration for `r7`. A send is taken to be received: a send that is never received
blocks the worker at that point. The `id` is used for printing only. -/
def rangeMemoAck (stop : Int → Bool) (r7 end_ : Int) : List WEvent :=
  if h : r7 < end_ then
    if stop r7 then []
    else
      let res := (memoAck 4 1 r7 Memo.empty).1
      if res = 6 then
        WEvent.eval r7 res :: WEvent.report r7 :: rangeMemoAck stop (r7 + 1) end_
      else
        WEvent.eval r7 res :: rangeMemoAck stop (r7 + 1) end_
  else []
termination_by (end_ - r7).toNat
decreasing_by
  all_goals omega

/-- The candidates a trace evaluates, in order. -/
def evals : List WEvent → List Int
  | [] => []
  | WEvent.eval r7 _ :: t => r7 :: evals t
  | WEvent.report _ :: t => evals t

/-- The values a trace reports, in order. -/
def reports : List WEvent → List Int
  | [] => []
  | WEvent.eval _ _ :: t => reports t
  | WEvent.report r7 :: t => r7 :: reports t

/-- The candidate an event is about. -/
def WEvent.cand : WEvent → Int
  | WEvent.eval r7 _ => r7
  | WEvent.report r7 => r7

/-- The candidates of the range `[start, end_)`, in increasing order. -/
def candidates (start end_ : Int) : List Int :=
  (List.range (end_ - start).toNat).map (fun (i : Nat) => start + (i : Int))

/-! ## The coordinator and its workers as a transition system -/

/-- Where a worker stands: at the top of its loop with the candidate `r7`, blocked in the
send `resCh <- r7`, or returned. -/
inductive Worker where
  | atTop (r7 end_ : Int)
  | sending (r7 end_ : Int)
  | returned
  deriving DecidableEq

/-- Where `main` stands: blocked in `select { case res := <-resCh: ... }`, having received
`res` (and about to close `stopCh`), or returned after closing `stopCh`. -/
inductive Coord where
  | waiting
  | received (res : Int)
  | exited (res : Int)
  deriving DecidableEq

/-- The state of the program: `main`, whether `stopCh` is closed, and the workers. -/
structure Sys where
  main : Coord
  stopped : Bool
  workers : Nat → Worker

/-- One iteration of the loop of `rangeMemoAck`, from the top of the loop up to the send
or to the next iteration. -/
def Worker.next (stopped : Bool) : Worker → Worker
  | Worker.atTop r7 end_ =>
    if r7 < end_ then
      if stopped then Worker.returned
      else if (memoAck 4 1 r7 Memo.empty).1 = 6 then Worker.sending r7 end_
      else Worker.atTop (r7 + 1) end_
    else Worker.returned
  | w => w

/-- The steps of the program. A worker at the top of its loop runs one iteration; a
worker blocked in its send and `main` blocked in its receive meet; `main`, having
received, closes `stopCh` and returns, which ends the program. -/
inductive Step : Sys → Sys → Prop where
  | work (s : Sys) (i : Nat) (r7 end_ : Int) :
      (∀ res, s.main ≠ Coord.exited res) → s.workers i = Worker.atTop r7 end_ →
      Step s ⟨s.main, s.stopped,
        Function.update s.workers i (Worker.next s.stopped (Worker.atTop r7 end_))⟩
  | recv (s : Sys) (i : Nat) (r7 end_ : Int) :
      s.main = Coord.waiting → s.workers i = Worker.sending r7 end_ →
      Step s ⟨Coord.received r7, s.stopped,
        Function.update s.workers i (Worker.atTop (r7 + 1) end_)⟩
  | close (s : Sys) (res : Int) :
      s.main = Coord.received res → Step s ⟨Coord.exited res, true, s.workers⟩

/-- Source: `main`, after the `go` statements: `K` workers at the start of their ranges,
`stopCh` open, `main` about to receive. In `main`, `K` is `GOROUTINES_NUM` and the ranges
are `workerRange`. -/
def Sys.init (K : Nat) (ranges : Nat → Int × Int) : Sys :=
  ⟨Coord.waiting, false,
    fun i => if i < K then Worker.atTop (ranges i).1 (ranges i).2 else Worker.returned⟩

/-- The states the program can reach from `s`. -/
def Reachable (s t : Sys) : Prop := Relation.ReflTransGen Step s t

/-- Source: `main`, after its `go` statements: `GOROUTINES_NUM` workers on the ranges
`workerRange`, `stopCh` open, `main` about to receive. -/
def mainSys : Sys := Sys.init GOROUTINES_NUM.toNat (fun i => workerRange (i : Int))

/-- A bound on the steps a worker can still take: two for each candidate left. -/
def Worker.left : Worker → Nat
  | Worker.atTop r7 end_ => 2 * (end_ - r7).toNat + 1
  | Worker.sending r7 end_ => 2 * (end_ - r7 - 1).toNat + 2
  | Worker.returned => 0

/-- A bound on the steps `main` can still take. -/
def Coord.left : Coord → Nat
  | Coord.waiting => 2
  | Coord.received _ => 1
  | Coord.exited _ => 0

/-- A bound on the steps the program with `K` workers can still take. -/
def Sys.left (K : Nat) (s : Sys) : Nat :=
  s.main.left + ∑ i in Finset.range K, (s.workers i).left

/-! ## The reference recurrence at `r0 = 4`, by powers -/

/-- The reference value `A(3, n)` as a geometric sum: the `(n+1)`-fold iterate of
`y ↦ (r7+1)*y + (2*r7+1)` at `r7`, reduced modulo `32768`. -/
def ack3c (r7 n : Nat) : Nat :=
  if r7 = 0 then (n + 1) % 32768
  else ((r7 + 1) ^ (n + 1) * r7 + (2 * r7 + 1) * (((r7 + 1) ^ (n + 1) - 1) / r7)) % 32768

/-- The power `a ^ k` modulo `W`, with the exponent split at `256` so that no large number
arises. -/
def powMod (a k W : Nat) : Nat :=
  ((a ^ 256 % W) ^ (k / 256) % W * (a ^ (k % 256) % W)) % W

/-- The value of `ack3c`, computed with powers modulo `32768 * r7`. -/
def ack3m (r7 n : Nat) : Nat :=
  if r7 = 0 then (n + 1) % 32768
  else
    ((powMod (r7 + 1) (n + 1) (32768 * r7)) * r7 +
      (2 * r7 + 1) *
        (((powMod (r7 + 1) (n + 1) (32768 * r7) + 32768 * r7 - 1) % (32768 * r7)) / r7))
      % 32768

/-- The reference value `A(4, 1)`, by `ack3m`. -/
def ack41c (r7 : Nat) : Nat := ack3m r7 (ack3m r7 r7)

/-- No candidate of `[lo, lo + len)` has `A(4, 1) = 6`; the interval is halved `d` times
at most. -/
def noHit : Nat → Nat → Nat → Bool
  | 0, lo, len => decide (len = 0) || (decide (len = 1) && decide (ack41c lo ≠ 6))
  | d + 1, lo, len =>
    if len ≤ 1 then decide (len = 0) || decide (ack41c lo ≠ 6)
    else noHit d lo (len / 2) && noHit d (lo + len / 2) (len - len / 2)

/-! ## The evaluator with a bound on the depth of the recursion -/

/-- Source: `func memoAck`, with a bound `fuel` on the depth of the recursion: `none` when
the bound is reached before the call returns. -/
def memoAckF : Nat → Int → Int → Int → Memo → Option (Int × Memo)
  | 0, _, _, _, _ => none
  | fuel + 1, r0, r1, r7, memo =>
    match memo (toKey r0 r1) with
    | some res => some (res, memo)
    | none =>
      if r0 = 0 then
        let res := (r1 + 1).tmod MOD
        some (res, memo.set (toKey r0 r1) res)
      else if r1 = 0 then
        match memoAckF fuel ((r0 - 1).tmod MOD) r7 r7 memo with
        | none => none
        | some p => some (p.1, p.2.set (toKey ((r0 - 1).tmod MOD) r7) p.1)
      else
        match memoAckF fuel r0 ((r1 - 1).tmod MOD) r7 memo with
        | none => none
        | some p =>
          match memoAckF fuel ((r0 - 1).tmod MOD) p.1 r7
              (p.2.set (toKey r0 ((r1 - 1).tmod MOD)) p.1) with
          | none => none
          | some q => some (q.1, q.2.set (toKey ((r0 - 1).tmod MOD) p.1) q.1)

end Teleporter

/-! # The grid puzzle (`misc/maze.go`)

A shallow embedding of `findPath`. Go's `int` is taken at its width of 64 bits: the
arithmetic on `value` (`+=`, `-=`, `*=`) wraps around, as `wrap64` does, and a wrapped
value decides like any other whether a step meets the goal and whether it is expanded.
The coordinates, the levels and the size of the queue are kept as they are computed: the
invariant `Inv` of the loop shows that every queued step stands on a tile of the grid,
has a level between `0` and `1000` and a value of 64 bits, so that no `+ 1` or `- 1` on
them wraps. A slice is a list, a panic is `none`. `strconv.Atoi` is a parameter `atoi`,
with `none` for its error. -/

namespace Maze

/-- Source: `const THRESHOLD = 80`. -/
def THRESHOLD : Int := 80

/-- Source: `type Queue[T any] struct { q []T; size int }`. -/
structure Queue (T : Type) where
  q : List T
  size : Int

/-- Source: `func NewQueue[T any]() *Queue[T]`. -/
def NewQueue {T : Type} : Queue T := ⟨[], 0⟩

/-- Source: `func (q *Queue[T]) Enqueue(el T)`. -/
def Queue.Enqueue {T : Type} (q : Queue T) (el : T) : Queue T :=
  ⟨q.q ++ [el], q.size + 1⟩

/-- Source: `func (q *Queue[T]) Dequeue() T`: the element `q.q[0]` and the queue the
deferred function leaves; `none` is the panic of `q.q[0]` on an empty slice. -/
def Queue.Dequeue {T : Type} (q : Queue T) : Option (T × Queue T) :=
  match q.q with
  | [] => none
  | el :: rest => some (el, ⟨rest, q.size - 1⟩)

/-- Source: `func (q *Queue[T]) IsEmpty() bool`. -/
def Queue.IsEmpty {T : Type} (q : Queue T) : Bool :=
  decide (q.size = 0)

/-- Source: `type Step struct { value, x, y int; prevOp string; path []string; lvl int }`. -/
structure Step where
  value : Int
  x : Int
  y : Int
  prevOp : String
  path : List String
  lvl : Int
  deriving DecidableEq

/-- Source: `func isValid(x, y int) bool`. -/
def isValid (x y : Int) : Bool :=
  decide (x ≥ 0) && decide (x ≤ 3) && decide (y ≥ 0) && decide (y ≤ 3)

/-- Source: `func isOperand(s string) bool`. -/
def isOperand (s : String) : Bool :=
  s == "+" || s == "-" || s == "*"

/-- Source: the index expression `maze[y][x]`; `none` is the panic of an index out of
range. -/
def tileAt (maze : List (List String)) (x y : Int) : Option String :=
  if 0 ≤ y ∧ 0 ≤ x then
    match maze[y.toNat]? with
    | none => none
    | some row => row[x.toNat]?
  else none

/-- Source: `fmt.Sprintf("<dir> (%d,%d) [%s] {%d}", x, y, tile, value)`. -/
def fmtStep (dir : String) (x y : Int) (tile : String) (value : Int) : String :=
  dir ++ " (" ++ toString x ++ "," ++ toString y ++ ") [" ++ tile ++ "] \x7b" ++
    toString value ++ "\x7d"

/-- The variables of `findPath` that the loop changes: the queue, `minLvl`, `hitStart`
and the result `paths`. -/
structure St where
  q : Queue Step
  minLvl : Int
  hitStart : Bool
  paths : List (List String)

/-- The values of a Go `int` of 64 bits. -/
def InInt64 (x : Int) : Prop := -9223372036854775808 ≤ x ∧ x ≤ 9223372036854775807

instance (x : Int) : Decidable (InInt64 x) :=
  inferInstanceAs (Decidable (-9223372036854775808 ≤ x ∧ x ≤ 9223372036854775807))

/-- The value a Go `int` of 64 bits holds after an operation whose exact result is `x`:
the representative of `x` modulo `2^64` in `[-2^63, 2^63)`. -/
def wrap64 (x : Int) : Int :=
  (x + 9223372036854775808) % 18446744073709551616 - 9223372036854775808

/-- Source: lines 95 to 112 of `findPath`: the pair `(nextValue, nextOp)` for the dequeued
step; `none` is a panic (index out of range, `atoi`, or "Operation not known"). -/
def evalTile (atoi : String → Option Int) (maze : List (List String)) (curr : Step) :
    Option (Int × String) :=
  match tileAt maze curr.x curr.y with
  | none => none
  | some t =>
    if isOperand t then some (curr.value, t)
    else
      match atoi t with
      | none => none
      | some this =>
        if curr.prevOp = "+" then some (wrap64 (curr.value + this), "")
        else if curr.prevOp = "-" then some (wrap64 (curr.value - this), "")
        else if curr.prevOp = "*" then some (wrap64 (curr.value * this), "")
        else none

/-- Source: one of the four blocks "try to walk east / west / south / north" of
`findPath`, for the neighbour `(nx, ny)`: the queue after the block. -/
def walk (maze : List (List String)) (curr : Step) (nextValue : Int) (nextOp : String)
    (dir : String) (nx ny : Int) (q : Queue Step) : Option (Queue Step) :=
  if isValid nx ny then
    match tileAt maze nx ny with
    | none => none
    | some t =>
      some (q.Enqueue
        ⟨nextValue, nx, ny, nextOp, curr.path ++ [fmtStep dir nx ny t nextValue],
          curr.lvl + 1⟩)
  else some q

/-- Source: the body of the loop `for !q.IsEmpty()` of `findPath`; `none` is a panic. -/
def body (atoi : String → Option Int) (maze : List (List String)) (goal : Int) (st : St) :
    Option St :=
  match st.q.Dequeue with
  | none => none
  | some (curr, q) =>
    match evalTile atoi maze curr with
    | none => none
    | some (nextValue, nextOp) =>
      if curr.x = 3 ∧ curr.y = 0 then
        if nextValue = goal ∧ curr.lvl ≤ st.minLvl then
          some ⟨q, curr.lvl, st.hitStart, st.paths ++ [curr.path]⟩
        else some ⟨q, st.minLvl, st.hitStart, st.paths⟩
      else if curr.lvl > st.minLvl then some ⟨q, st.minLvl, st.hitStart, st.paths⟩
      else if curr.value > THRESHOLD ∨ curr.value < 0 then
        some ⟨q, st.minLvl, st.hitStart, st.paths⟩
      else if st.hitStart = true ∧ curr.x = 0 ∧ curr.y = 3 then
        some ⟨q, st.minLvl, st.hitStart, st.paths⟩
      else
        match walk maze curr nextValue nextOp "east" (curr.x + 1) curr.y q with
        | none => none
        | some q1 =>
          match walk maze curr nextValue nextOp "west" (curr.x - 1) curr.y q1 with
          | none => none
          | some q2 =>
            match walk maze curr nextValue nextOp "south" curr.x (curr.y + 1) q2 with
            | none => none
            | some q3 =>
              match walk maze curr nextValue nextOp "north" curr.x (curr.y - 1) q3 with
              | none => none
              | some q4 => some ⟨q4, st.minLvl, true, st.paths⟩

/-- Source: the loop `for !q.IsEmpty() { ... }` of `findPath` and its `return`, run for
`fuel` iterations at most; `none` is a panic or the end of the fuel. -/
def loop (atoi : String → Option Int) (maze : List (List String)) (goal : Int) :
    Nat → St → Option (List (List String))
  | 0, _ => none
  | fuel + 1, st =>
    if st.q.IsEmpty then some st.paths
    else
      match body atoi maze goal st with
      | none => none
      | some st' => loop atoi maze goal fuel st'

/-- The state of `findPath` when it enters its loop. -/
def start : St :=
  ⟨NewQueue.Enqueue ⟨0, 0, 3, "+", ["take orb (0,3) [22]"], 0⟩, 999, false, []⟩

/-- Source: `func findPath(maze [][]string, goal int) (paths [][]string)`. -/
def findPath (atoi : String → Option Int) (fuel : Nat) (maze : List (List String))
    (goal : Int) : Option (List (List String)) :=
  loop atoi maze goal fuel start

/-- The dequeued step stands on the end tile `(3,0)` with `nextValue` equal to `goal`. -/
def isHit (atoi : String → Option Int) (maze : List (List String)) (goal : Int)
    (curr : Step) : Bool :=
  match evalTile atoi maze curr with
  | none => false
  | some (nextValue, _) => decide (curr.x = 3 ∧ curr.y = 0 ∧ nextValue = goal)

/-- The step the next iteration dequeues, when it stands on the end tile with the goal
value. -/
def hitOf (atoi : String → Option Int) (maze : List (List String)) (goal : Int)
    (st : St) : List Step :=
  match st.q.q with
  | [] => []
  | curr :: _ => if isHit atoi maze goal curr then [curr] else []

/-- The loop of `findPath`, recording in addition the dequeued steps that stand on the end
tile with the goal value, in the order in which they are dequeued. -/
def loopI (atoi : String → Option Int) (maze : List (List String)) (goal : Int) :
    Nat → St → List Step → Option (List (List String) × List Step)
  | 0, _, _ => none
  | fuel + 1, st, hits =>
    if st.q.IsEmpty then some (st.paths, hits)
    else
      match body atoi maze goal st with
      | none => none
      | some st' => loopI atoi maze goal fuel st' (hits ++ hitOf atoi maze goal st)

/-- Source: `func findPath`, with the record of `loopI`. -/
def findPathI (atoi : String → Option Int) (fuel : Nat) (maze : List (List String))
    (goal : Int) : Option (List (List String) × List Step) :=
  loopI atoi maze goal fuel start []

/-- Source: the `maze` of `main`. -/
def mainMaze : List (List String) :=
  [["*", "8", "-", "1"],
   ["4", "*", "11", "*"],
   ["+", "4", "-", "18"],
   ["22", "-", "9", "*"]]

/-- What holds of the variables of `findPath` and of the record of `loopI` at the top of
every iteration. -/
structure Inv (atoi : String → Option Int) (maze : List (List String)) (goal : Int)
    (st : St) (hits : List Step) : Prop where
  size : st.q.size = st.q.q.length
  sorted : st.q.q.Pairwise (fun a b => a.lvl ≤ b.lvl ∧ b.lvl ≤ a.lvl + 1)
  plen : ∀ s ∈ st.q.q, (s.path.length : Int) = s.lvl + 1
  order : ∀ h ∈ hits, ∀ s ∈ st.q.q, h.lvl ≤ s.lvl
  hord : hits.Pairwise (fun a b => a.lvl ≤ b.lvl)
  hlen : ∀ h ∈ hits, (h.path.length : Int) = h.lvl + 1
  hmin : ∀ h ∈ hits, st.minLvl ≤ h.lvl
  ret : ∀ p ∈ st.paths, ∃ h ∈ hits, h.path = p ∧ h.lvl = st.minLvl
  ishit : ∀ h ∈ hits, isHit atoi maze goal h = true
  minb : st.minLvl ≤ 999
  lvlb : ∀ s ∈ st.q.q, 0 ≤ s.lvl ∧ s.lvl ≤ 1000
  pos : ∀ s ∈ st.q.q, isValid s.x s.y = true
  valb : ∀ s ∈ st.q.q, InInt64 s.value

/-- The number a list of decimal digits denotes, after the digits read so far (`acc`). -/
def readDigits : List Char → Nat → Option Nat
  | [], acc => some acc
  | c :: cs, acc => if c.isDigit then readDigits cs (10 * acc + (c.toNat - 48)) else none

/-- The number a decimal numeral denotes: an optional sign and at least one digit. -/
def readInt (s : String) : Option Int :=
  match s.data with
  | [] => none
  | '-' :: cs => if cs = [] then none else (readDigits cs 0).map (fun n => -(n : Int))
  | '+' :: cs => if cs = [] then none else (readDigits cs 0).map (fun n => (n : Int))
  | cs => (readDigits cs 0).map (fun n => (n : Int))

/-- A reading of decimal numerals in the manner of `strconv.Atoi`, to run `findPath` on
concrete mazes: an optional sign and at least one digit, and an error for a number that
an `int` of 64 bits does not hold. -/
def atoiDec (s : String) : Option Int :=
  match readInt s with
  | none => none
  | some n => if InInt64 n then some n else none

/-- A maze on which `findPath` ends after few iterations: only the tiles along the bottom
row and the right column keep the value within the threshold. -/
def smallMaze : List (List String) :=
  [["+", "99", "+", "1"],
   ["99", "+", "99", "+"],
   ["+", "99", "+", "1"],
   ["1", "+", "1", "+"]]

/-- A maze on which `findPath` ends after few iterations and the value wraps around on
the end tile: `2 * 9223372036854775807` is `-2` in an `int` of 64 bits. -/
def wrapMaze : List (List String) :=
  [["*", "99", "*", "9223372036854775807"],
   ["99", "*", "99", "*"],
   ["*", "99", "*", "1"],
   ["2", "*", "1", "*"]]

end Maze

namespace Teleporter

/-! # Theorems -/

/-! ## Arithmetic of the decrement -/

theorem rank_dec (x : Int) (hx : x ≠ 0) : rank ((x - 1).tmod MOD) < rank x := by
  have e := Int.tmod_def (x - 1) 32768
  have l1 := @Int.tdiv_nonneg (x - 1) 32768
  have l2 := @Int.tdiv_nonpos (x - 1) 32768
  have l3 := @Int.tmod_nonneg (x - 1) 32768
  have l4 := Int.tmod_lt_of_pos (x - 1) (show (0 : Int) < 32768 by decide)
  have e5 := Int.tmod_def (1 - x) 32768
  have l5 := @Int.tmod_nonneg (1 - x) 32768
  have l6 := Int.tmod_lt_of_pos (1 - x) (show (0 : Int) < 32768 by decide)
  have e6 : (1 - x).tdiv 32768 = -((x - 1).tdiv 32768) := by
    rw [← Int.neg_tdiv]; congr 1; omega
  rw [e6] at e5
  unfold rank MOD
  split_ifs <;> omega

theorem dec_eq (x : Int) (h0 : 0 < x) (h1 : x ≤ MOD) : (x - 1).tmod MOD = x - 1 := by
  unfold MOD at *
  exact Int.tmod_eq_of_lt (by omega) (by omega)

theorem succ_tmod (x : Int) (h0 : 0 ≤ x) : (x + 1).tmod MOD = (x + 1) % 32768 := by
  unfold MOD
  exact Int.tmod_eq_emod (by omega) (by decide)

/-! ## Keys are injective -/

theorem digitChar_spec (k : Nat) (hk : k < 10) :
    digVal (Nat.digitChar k) = k ∧ isDig (Nat.digitChar k) := by
  unfold isDig
  interval_cases k <;> decide

theorem decode_append_single (l : List Char) (c : Char) :
    decode (l ++ [c]) = 10 * decode l + digVal c := by
  simp [decode, List.foldl_append]

theorem toDigitsCore_spec (fuel : Nat) : ∀ (n : Nat) (ds : List Char), n < fuel →
    ∃ l, Nat.toDigitsCore 10 fuel n ds = l ++ ds ∧ decode l = n ∧ (∀ c ∈ l, isDig c) ∧ l ≠ [] := by
  induction fuel with
  | zero => intro n ds h; omega
  | succ fuel ih =>
    intro n ds h
    have hd := digitChar_spec (n % 10) (Nat.mod_lt _ (by decide))
    simp only [Nat.toDigitsCore]
    split_ifs with h0
    · refine ⟨[Nat.digitChar (n % 10)], rfl, ?_, ?_, by simp⟩
      · simp only [decode, List.foldl_cons, List.foldl_nil, hd.1]; omega
      · intro c hc; simp only [List.mem_singleton] at hc; rw [hc]; exact hd.2
    · obtain ⟨l, hl, hv, hdig, _⟩ := ih (n / 10) (Nat.digitChar (n % 10) :: ds) (by omega)
      refine ⟨l ++ [Nat.digitChar (n % 10)], ?_, ?_, ?_, by simp⟩
      · rw [hl]; simp
      · rw [decode_append_single, hv, hd.1]; omega
      · intro c hc
        rcases List.mem_append.1 hc with h1 | h1
        · exact hdig c h1
        · simp only [List.mem_singleton] at h1; rw [h1]; exact hd.2

theorem natRepr_spec (n : Nat) :
    decode (toString n).data = n ∧ (∀ c ∈ (toString n).data, isDig c) ∧ (toString n).data ≠ [] := by
  obtain ⟨l, hl, hv, hdig, hne⟩ := toDigitsCore_spec (n + 1) n [] (by omega)
  have e : (toString n).data = l := by
    show (Nat.repr n).data = l
    simp [Nat.repr, Nat.toDigits, hl, List.asString]
  rw [e]; exact ⟨hv, hdig, hne⟩

/-- The characters of the decimal rendering of a Go integer: a list of digits,
preceded by `-` for a negative number. -/
theorem intRepr_data (a : Int) :
    (0 ≤ a ∧ (toString a).data = (toString a.toNat).data) ∨
    (a < 0 ∧ (toString a).data = '-' :: (toString (-a).toNat).data) := by
  cases a with
  | ofNat m => left; exact ⟨Int.ofNat_nonneg m, rfl⟩
  | negSucc m =>
    right
    refine ⟨Int.negSucc_lt_zero m, ?_⟩
    show ("-" ++ toString (m + 1)).data = _
    rfl


theorem isDig_ne_colon {c : Char} (h : isDig c) : c ≠ ':' := by
  rintro rfl; revert h; unfold isDig; decide

theorem isDig_ne_minus {c : Char} (h : isDig c) : c ≠ '-' := by
  rintro rfl; revert h; unfold isDig; decide

theorem colon_not_mem_intRepr (a : Int) : ':' ∉ (toString a).data := by
  intro hmem
  rcases intRepr_data a with ⟨_, e⟩ | ⟨_, e⟩
  · rw [e] at hmem
    exact isDig_ne_colon ((natRepr_spec _).2.1 _ hmem) rfl
  · rw [e] at hmem
    rcases List.mem_cons.1 hmem with h | h
    · exact absurd h (by decide)
    · exact isDig_ne_colon ((natRepr_spec _).2.1 _ h) rfl

theorem intRepr_inj {a b : Int} (h : (toString a).data = (toString b).data) : a = b := by
  have key : ∀ n m : Nat, (toString n).data = (toString m).data → n = m := by
    intro n m e
    rw [← (natRepr_spec n).1, ← (natRepr_spec m).1, e]
  have mixed : ∀ n m : Nat, (toString n).data ≠ '-' :: (toString m).data := by
    intro n m e
    have hn := natRepr_spec n
    cases hl : (toString n).data with
    | nil => exact hn.2.2 hl
    | cons c t =>
      rw [hl] at e
      have hc : isDig c := hn.2.1 c (by rw [hl]; exact List.mem_cons_self _ _)
      exact isDig_ne_minus hc (List.cons.inj e).1
  rcases intRepr_data a with ⟨ha, ea⟩ | ⟨ha, ea⟩ <;>
    rcases intRepr_data b with ⟨hb, eb⟩ | ⟨hb, eb⟩
  · have := key a.toNat b.toNat (ea.symm.trans (h.trans eb)); omega
  · exact absurd (ea.symm.trans (h.trans eb)) (mixed a.toNat (-b).toNat)
  · exact absurd (eb.symm.trans (h.symm.trans ea)) (mixed b.toNat (-a).toNat)
  · have := key (-a).toNat (-b).toNat (by
      have := ea.symm.trans (h.trans eb)
      exact (List.cons.inj this).2)
    omega

theorem split_at_sep {α : Type} (s : α) : ∀ (l1 l2 l3 l4 : List α), s ∉ l1 → s ∉ l3 →
    l1 ++ s :: l2 = l3 ++ s :: l4 → l1 = l3 ∧ l2 = l4 := by
  intro l1
  induction l1 with
  | nil =>
    intro l2 l3 l4 _ h3 e
    cases l3 with
    | nil => exact ⟨rfl, (List.cons.inj e).2⟩
    | cons c t =>
      exact absurd (List.mem_cons.2 (Or.inl (List.cons.inj e).1)) h3
  | cons c t ih =>
    intro l2 l3 l4 h1 h3 e
    cases l3 with
    | nil =>
      exact absurd (List.mem_cons.2 (Or.inl (List.cons.inj e).1.symm)) h1
    | cons d u =>
      have e1 := List.cons.inj e
      obtain ⟨r1, r2⟩ := ih l2 u l4 (fun h => h1 (List.mem_cons_of_mem _ h))
        (fun h => h3 (List.mem_cons_of_mem _ h)) e1.2
      exact ⟨by rw [e1.1, r1], r2⟩

theorem toKey_data (a b : Int) :
    (toKey a b).data = (toString a).data ++ ':' :: (toString b).data := by
  simp [toKey, String.data_append]

/-- `toKey` never maps two different pairs to the same key. -/
theorem toKey_inj {a b c d : Int} (h : toKey a b = toKey c d) : a = c ∧ b = d := by
  have hd : (toKey a b).data = (toKey c d).data := by rw [h]
  rw [toKey_data, toKey_data] at hd
  obtain ⟨h1, h2⟩ := split_at_sep ':' _ _ _ _ (colon_not_mem_intRepr a)
    (colon_not_mem_intRepr c) hd
  exact ⟨intRepr_inj h1, intRepr_inj h2⟩

theorem toKey_ne {a b c d : Int} (h : a ≠ c ∨ b ≠ d) : toKey a b ≠ toKey c d := by
  intro e
  obtain ⟨h1, h2⟩ := toKey_inj e
  rcases h with h | h
  · exact h h1
  · exact h h2

/-! ## The table -/

theorem Memo.set_self (m : Memo) (k : String) (v : Int) : m.set k v k = some v := by
  simp [Memo.set]

theorem Memo.set_other (m : Memo) (k k' : String) (v : Int) (h : k' ≠ k) :
    m.set k v k' = m k' := by
  simp [Memo.set, h]

theorem Memo.set_same (m : Memo) (k : String) (v : Int) (h : m k = some v) :
    m.set k v = m := by
  funext k'
  by_cases e : k' = k
  · rw [e, Memo.set_self, h]
  · rw [Memo.set_other _ _ _ _ e]

/-! ## Unfolding the evaluator -/

theorem memoAck_hit (r0 r1 r7 : Int) (memo : Memo) (v : Int)
    (h : memo (toKey r0 r1) = some v) : memoAck r0 r1 r7 memo = (v, memo) := by
  rw [memoAck, h]

theorem memoAck_base (r1 r7 : Int) (memo : Memo) (h : memo (toKey 0 r1) = none) :
    memoAck 0 r1 r7 memo = ((r1 + 1).tmod MOD, memo.set (toKey 0 r1) ((r1 + 1).tmod MOD)) := by
  rw [memoAck, h]; simp

theorem memoAck_left (r0 r7 : Int) (memo : Memo) (h : memo (toKey r0 0) = none)
    (h0 : r0 ≠ 0) (p : Int × Memo) (hp : p = memoAck ((r0 - 1).tmod MOD) r7 r7 memo) :
    memoAck r0 0 r7 memo = (p.1, p.2.set (toKey ((r0 - 1).tmod MOD) r7) p.1) := by
  subst hp
  rw [memoAck, h]; simp [h0]

theorem memoAck_both (r0 r1 r7 : Int) (memo : Memo) (h : memo (toKey r0 r1) = none)
    (h0 : r0 ≠ 0) (h1 : r1 ≠ 0) (p q : Int × Memo)
    (hp : p = memoAck r0 ((r1 - 1).tmod MOD) r7 memo)
    (hq : q = memoAck ((r0 - 1).tmod MOD) p.1 r7
      (p.2.set (toKey r0 ((r1 - 1).tmod MOD)) p.1)) :
    memoAck r0 r1 r7 memo = (q.1, q.2.set (toKey ((r0 - 1).tmod MOD) p.1) q.1) := by
  subst hq; subst hp
  rw [memoAck, h]; simp [h0, h1]

theorem memoAckI_hit (r0 r1 r7 : Int) (memo : Memo) (v : Int)
    (h : memo (toKey r0 r1) = some v) :
    memoAckI r0 r1 r7 memo = ⟨v, memo, [Event.call r0 r1]⟩ := by
  rw [memoAckI, h]

theorem memoAckI_base (r1 r7 : Int) (memo : Memo) (h : memo (toKey 0 r1) = none) :
    memoAckI 0 r1 r7 memo =
      ⟨(r1 + 1).tmod MOD, memo.set (toKey 0 r1) ((r1 + 1).tmod MOD),
        [Event.call 0 r1, Event.store 0 r1 ((r1 + 1).tmod MOD)]⟩ := by
  rw [memoAckI, h]; simp

theorem memoAckI_left (r0 r7 : Int) (memo : Memo) (h : memo (toKey r0 0) = none)
    (h0 : r0 ≠ 0) (p : Run) (hp : p = memoAckI ((r0 - 1).tmod MOD) r7 r7 memo) :
    memoAckI r0 0 r7 memo =
      ⟨p.res, p.memo.set (toKey ((r0 - 1).tmod MOD) r7) p.res,
        [Event.call r0 0, Event.dec r0] ++ p.log ++
          [Event.dec r0, Event.store ((r0 - 1).tmod MOD) r7 p.res]⟩ := by
  subst hp
  rw [memoAckI, h]; simp [h0]

theorem memoAckI_both (r0 r1 r7 : Int) (memo : Memo) (h : memo (toKey r0 r1) = none)
    (h0 : r0 ≠ 0) (h1 : r1 ≠ 0) (p q : Run)
    (hp : p = memoAckI r0 ((r1 - 1).tmod MOD) r7 memo)
    (hq : q = memoAckI ((r0 - 1).tmod MOD) p.res r7
      (p.memo.set (toKey r0 ((r1 - 1).tmod MOD)) p.res)) :
    memoAckI r0 r1 r7 memo =
      ⟨q.res, q.memo.set (toKey ((r0 - 1).tmod MOD) p.res) q.res,
        [Event.call r0 r1, Event.dec r1] ++ p.log ++
          [Event.dec r1, Event.store r0 ((r1 - 1).tmod MOD) p.res, Event.dec r0] ++ q.log ++
          [Event.dec r0, Event.store ((r0 - 1).tmod MOD) p.res q.res]⟩ := by
  subst hq; subst hp
  rw [memoAckI, h]; simp [h0, h1]

/-- The instrumentation does not change what the evaluator computes. -/
theorem memoAckI_erase (r0 r1 r7 : Int) (memo : Memo) :
    (memoAckI r0 r1 r7 memo).res = (memoAck r0 r1 r7 memo).1 ∧
    (memoAckI r0 r1 r7 memo).memo = (memoAck r0 r1 r7 memo).2 := by
  induction r0, r1, r7, memo using memoAck.induct with
  | case1 r0 r1 r7 memo res h =>
    rw [memoAckI_hit _ _ _ _ _ h, memoAck_hit _ _ _ _ _ h]
    exact ⟨rfl, rfl⟩
  | case2 r1 r7 memo h =>
    rw [memoAckI_base _ _ _ h, memoAck_base _ _ _ h]
    exact ⟨rfl, rfl⟩
  | case3 r0 r7 memo h0 h ih =>
    rw [memoAckI_left _ _ _ h h0 _ rfl, memoAck_left _ _ _ h h0 _ rfl]
    simp only [ih.1, ih.2, and_self]
  | case4 r0 r1 r7 memo h h0 h1 p m1 ihp ihq =>
    rw [memoAckI_both _ _ _ _ h h0 h1 _ _ rfl rfl, memoAck_both _ _ _ _ h h0 h1 _ _ rfl rfl]
    simp only [ihp.1, ihp.2]
    simp only [p, m1] at ihq
    simp only [ihq.1, ihq.2, and_self]

/-! ## Which entries a call assigns -/

theorem Below.of_left {a b r0 x y : Int} (h0 : r0 ≠ 0)
    (h : Below a b ((r0 - 1).tmod MOD) x) : Below a b r0 y := by
  have hr := rank_dec r0 h0
  rcases h with h | ⟨h, _⟩ | ⟨h, _, _⟩
  · exact Or.inl (lt_trans h hr)
  · exact Or.inl (by rw [h]; exact hr)
  · exact Or.inl (by rw [h]; exact hr)

theorem Below.of_right {a b r0 r1 : Int} (h0 : r0 ≠ 0) (h1 : r1 ≠ 0)
    (h : Below a b r0 ((r1 - 1).tmod MOD)) : Below a b r0 r1 := by
  have hr := rank_dec r1 h1
  rcases h with h | ⟨h, h'⟩ | ⟨_, _, h⟩
  · exact Or.inl h
  · exact Or.inr (Or.inl ⟨h, lt_trans h' hr⟩)
  · exact absurd h h0

theorem Below.irrefl {r0 r1 : Int} (h0 : r0 ≠ 0) : ¬ Below r0 r1 r0 r1 := by
  rintro (h | ⟨_, h⟩ | ⟨_, _, h⟩)
  · exact lt_irrefl _ h
  · exact lt_irrefl _ h
  · exact h0 h

/-- A call of `memoAck(r0, r1, ...)` leaves every entry as it was, except those of the
pairs below `(r0, r1)`. -/
theorem memoAck_local (r0 r1 r7 : Int) (memo : Memo) :
    ∀ k, (∀ a b, Below a b r0 r1 → k ≠ toKey a b) →
      (memoAck r0 r1 r7 memo).2 k = memo k := by
  induction r0, r1, r7, memo using memoAck.induct with
  | case1 r0 r1 r7 memo res h =>
    intro k _
    rw [memoAck_hit _ _ _ _ _ h]
  | case2 r1 r7 memo h =>
    intro k hk
    rw [memoAck_base _ _ _ h]
    exact Memo.set_other _ _ _ _ (hk 0 r1 (Or.inr (Or.inr ⟨rfl, rfl, rfl⟩)))
  | case3 r0 r7 memo h0 h ih =>
    intro k hk
    rw [memoAck_left _ _ _ h h0 _ rfl]
    show Memo.set _ _ _ k = memo k
    rw [Memo.set_other _ _ _ _ (hk _ _ (Or.inl (rank_dec r0 h0)))]
    exact ih k (fun a b hab => hk a b (hab.of_left h0))
  | case4 r0 r1 r7 memo h h0 h1 p m1 ihp ihq =>
    intro k hk
    rw [memoAck_both _ _ _ _ h h0 h1 _ _ rfl rfl]
    show Memo.set _ _ _ k = memo k
    rw [Memo.set_other _ _ _ _ (hk _ _ (Or.inl (rank_dec r0 h0)))]
    rw [ihq k (fun a b hab => hk a b (hab.of_left h0))]
    show Memo.set _ _ _ k = memo k
    rw [Memo.set_other _ _ _ _ (hk _ _ (Or.inr (Or.inl ⟨rfl, rank_dec r1 h1⟩)))]
    exact ihp k (fun a b hab => hk a b (hab.of_right h0 h1))

/-- A call that computes its result with `r0 ≠ 0` leaves no entry for its own pair. -/
theorem memoAck_own_absent (r0 r1 r7 : Int) (memo : Memo) (h0 : r0 ≠ 0)
    (h : memo (toKey r0 r1) = none) : (memoAck r0 r1 r7 memo).2 (toKey r0 r1) = none := by
  rw [memoAck_local r0 r1 r7 memo (toKey r0 r1), h]
  intro a b hab e
  obtain ⟨e1, e2⟩ := toKey_inj e
  subst e1; subst e2
  exact Below.irrefl h0 hab

/-- The entry a call in the recursive branch makes for `(r0, r1 - 1)` is still there
when the call returns. -/
theorem memoAck_keeps (r0 r1' x r7 v : Int) (m : Memo) (h0 : r0 ≠ 0)
    (h : m (toKey r0 r1') = some v) :
    ((memoAck ((r0 - 1).tmod MOD) x r7 m).2.set (toKey ((r0 - 1).tmod MOD) x)
      (memoAck ((r0 - 1).tmod MOD) x r7 m).1) (toKey r0 r1') = some v := by
  have hr := rank_dec r0 h0
  have hne : (r0 - 1).tmod MOD ≠ r0 := fun e => by rw [e] at hr; exact lt_irrefl _ hr
  rw [Memo.set_other _ _ _ _ (toKey_ne (Or.inl (Ne.symm hne)))]
  rw [memoAck_local _ _ _ _ (toKey r0 r1'), h]
  intro a b hab e
  obtain ⟨e1, _⟩ := toKey_inj e
  subst e1
  rcases hab with h | ⟨h, _⟩ | ⟨h, _, _⟩
  · exact absurd (lt_trans h hr) (lt_irrefl _)
  · exact hne h.symm
  · exact hne h.symm

/-! ## Calling again on the table a call left behind -/

/-- Second call, when the first call was answered from the table or was a base case:
the pair is in the table, so the call is the only activation. -/
theorem memoAckI_again_hit (r0 r1 r7 : Int) (memo : Memo)
    (h : memo (toKey r0 r1) ≠ none ∨ r0 = 0) :
    memoAckI r0 r1 r7 (memoAck r0 r1 r7 memo).2 =
      ⟨(memoAck r0 r1 r7 memo).1, (memoAck r0 r1 r7 memo).2, [Event.call r0 r1]⟩ := by
  cases hm : memo (toKey r0 r1) with
  | some v =>
    rw [memoAck_hit _ _ _ _ _ hm]
    exact memoAckI_hit _ _ _ _ _ hm
  | none =>
    rcases h with h | h
    · exact absurd hm h
    · subst h
      rw [memoAck_base _ _ _ hm]
      exact memoAckI_hit _ _ _ _ _ (Memo.set_self _ _ _)

/-- Second call, when the first call took the branch `r0 ≠ 0`, `r1 = 0`: the pair itself
is not in the table, the call recurses once and that call is answered from the table. -/
theorem memoAckI_again_left (r0 r7 : Int) (memo : Memo)
    (h : memo (toKey r0 0) = none) (h0 : r0 ≠ 0) :
    memoAckI r0 0 r7 (memoAck r0 0 r7 memo).2 =
      ⟨(memoAck r0 0 r7 memo).1, (memoAck r0 0 r7 memo).2,
        [Event.call r0 0, Event.dec r0, Event.call ((r0 - 1).tmod MOD) r7, Event.dec r0,
          Event.store ((r0 - 1).tmod MOD) r7 (memoAck r0 0 r7 memo).1]⟩ := by
  have habs := memoAck_own_absent r0 0 r7 memo h0 h
  have e := memoAck_left r0 r7 memo h h0 _ rfl
  have hk : (memoAck r0 0 r7 memo).2 (toKey ((r0 - 1).tmod MOD) r7) =
      some (memoAck r0 0 r7 memo).1 := by
    rw [e]; exact Memo.set_self _ _ _
  rw [memoAckI_left _ _ _ habs h0 _ rfl, memoAckI_hit _ _ _ _ _ hk]
  simp only [Memo.set_same _ _ _ hk, List.cons_append, List.nil_append]

/-- Second call, when the first call took the branch `r0 ≠ 0`, `r1 ≠ 0`: the pair itself
is not in the table, the call recurses twice and both calls are answered from the table. -/
theorem memoAckI_again_both (r0 r1 r7 : Int) (memo : Memo)
    (h : memo (toKey r0 r1) = none) (h0 : r0 ≠ 0) (h1 : r1 ≠ 0) :
    memoAckI r0 r1 r7 (memoAck r0 r1 r7 memo).2 =
      ⟨(memoAck r0 r1 r7 memo).1, (memoAck r0 r1 r7 memo).2,
        [Event.call r0 r1, Event.dec r1, Event.call r0 ((r1 - 1).tmod MOD), Event.dec r1,
          Event.store r0 ((r1 - 1).tmod MOD) (memoAck r0 ((r1 - 1).tmod MOD) r7 memo).1,
          Event.dec r0,
          Event.call ((r0 - 1).tmod MOD) (memoAck r0 ((r1 - 1).tmod MOD) r7 memo).1,
          Event.dec r0,
          Event.store ((r0 - 1).tmod MOD) (memoAck r0 ((r1 - 1).tmod MOD) r7 memo).1
            (memoAck r0 r1 r7 memo).1]⟩ := by
  have habs := memoAck_own_absent r0 r1 r7 memo h0 h
  have e := memoAck_both r0 r1 r7 memo h h0 h1 _ _ rfl rfl
  have hq : (memoAck r0 r1 r7 memo).2
      (toKey ((r0 - 1).tmod MOD) (memoAck r0 ((r1 - 1).tmod MOD) r7 memo).1) =
      some (memoAck r0 r1 r7 memo).1 := by
    rw [e]; exact Memo.set_self _ _ _
  have hp : (memoAck r0 r1 r7 memo).2 (toKey r0 ((r1 - 1).tmod MOD)) =
      some (memoAck r0 ((r1 - 1).tmod MOD) r7 memo).1 := by
    rw [e]
    exact memoAck_keeps _ _ _ _ _ _ h0 (Memo.set_self _ _ _)
  rw [memoAckI_both _ _ _ _ habs h0 h1 _ _ rfl rfl]
  simp only [memoAckI_hit _ _ _ _ _ hp, Memo.set_same _ _ _ hp,
    memoAckI_hit _ _ _ _ _ hq, Memo.set_same _ _ _ hq, List.cons_append, List.nil_append]

/-- Calling again on the table a call left behind gives the same value and the same
table. -/
theorem memoAck_again (r0 r1 r7 : Int) (memo : Memo) :
    memoAck r0 r1 r7 (memoAck r0 r1 r7 memo).2 =
      ((memoAck r0 r1 r7 memo).1, (memoAck r0 r1 r7 memo).2) := by
  have er := memoAckI_erase r0 r1 r7 (memoAck r0 r1 r7 memo).2
  have key : (memoAckI r0 r1 r7 (memoAck r0 r1 r7 memo).2).res = (memoAck r0 r1 r7 memo).1 ∧
      (memoAckI r0 r1 r7 (memoAck r0 r1 r7 memo).2).memo = (memoAck r0 r1 r7 memo).2 := by
    by_cases h : memo (toKey r0 r1) ≠ none ∨ r0 = 0
    · rw [memoAckI_again_hit _ _ _ _ h]; exact ⟨rfl, rfl⟩
    · have hm : memo (toKey r0 r1) = none := by
        by_contra hc; exact h (Or.inl hc)
      have h0 : r0 ≠ 0 := fun hc => h (Or.inr hc)
      by_cases h1 : r1 = 0
      · subst h1
        rw [memoAckI_again_left _ _ _ hm h0]; exact ⟨rfl, rfl⟩
      · rw [memoAckI_again_both _ _ _ _ hm h0 h1]; exact ⟨rfl, rfl⟩
  exact Prod.ext (er.1.symm.trans key.1) (er.2.symm.trans key.2)

/-- The call count of a call on the table an identical call left behind. -/
theorem callCount_again (r0 r1 r7 : Int) (memo : Memo) :
    callCount (memoAckI r0 r1 r7 (memoAck r0 r1 r7 memo).2).log =
      if memo (toKey r0 r1) ≠ none ∨ r0 = 0 then 1 else if r1 = 0 then 2 else 3 := by
  by_cases h : memo (toKey r0 r1) ≠ none ∨ r0 = 0
  · rw [memoAckI_again_hit _ _ _ _ h, if_pos h]; rfl
  · have hm : memo (toKey r0 r1) = none := by
      by_contra hc; exact h (Or.inl hc)
    have h0 : r0 ≠ 0 := fun hc => h (Or.inr hc)
    rw [if_neg h]
    by_cases h1 : r1 = 0
    · subst h1
      rw [memoAckI_again_left _ _ _ hm h0, if_pos rfl]; rfl
    · rw [memoAckI_again_both _ _ _ _ hm h0 h1, if_neg h1]; rfl

/-! ## The reference recurrence in closed form -/

/-- The reference recurrence satisfies the three equations that define it. -/
theorem ackRef_equations (r7 : Nat) :
    (∀ r1, ackRef r7 0 r1 = (r1 + 1) % 32768) ∧
    (∀ r0, ackRef r7 (r0 + 1) 0 = ackRef r7 r0 r7) ∧
    (∀ r0 r1, ackRef r7 (r0 + 1) (r1 + 1) = ackRef r7 r0 (ackRef r7 (r0 + 1) r1)) :=
  ⟨fun r1 => by rw [ackRef], fun r0 => by rw [ackRef], fun r0 r1 => by rw [ackRef]⟩

theorem ackRef_lt (r7 : Nat) : ∀ r0 r1, ackRef r7 r0 r1 < 32768 := by
  intro r0 r1
  induction r0, r1 using ackRef.induct r7 with
  | case1 r1 => rw [ackRef]; exact Nat.mod_lt _ (by decide)
  | case2 r0 ih => rw [ackRef]; exact ih
  | case3 r0 r1 _ ih => rw [ackRef]; exact ih

theorem ackRef_one (r7 : Nat) : ∀ n, ackRef r7 1 n = (n + r7 + 1) % 32768 := by
  intro n
  induction n with
  | zero => rw [ackRef, ackRef]; simp
  | succ n ih => rw [ackRef, ih, ackRef]; omega

theorem ackRef_two (r7 : Nat) : ∀ n, ackRef r7 2 n = ((r7 + 1) * n + (2 * r7 + 1)) % 32768 := by
  intro n
  induction n with
  | zero => rw [ackRef, ackRef_one]; simp; congr 1; omega
  | succ n ih =>
    rw [ackRef, ih, ackRef_one]
    have e : (r7 + 1) * (n + 1) + (2 * r7 + 1) = ((r7 + 1) * n + (2 * r7 + 1)) + r7 + 1 := by
      ring
    rw [e]; omega

theorem ackRef_three (r7 : Nat) : ∀ n,
    ackRef r7 3 n = (fun y => ((r7 + 1) * y + (2 * r7 + 1)) % 32768)^[n + 1] r7 := by
  intro n
  induction n with
  | zero => rw [ackRef, ackRef_two]; rfl
  | succ n ih =>
    rw [ackRef, ih, ackRef_two, Function.iterate_succ_apply' _ (n + 1)]

theorem affine_comp (a b y : Nat) :
    ((a * a % 32768) * y + (a * b + b) % 32768) % 32768 =
      (a * ((a * y + b) % 32768) + b) % 32768 := by
  apply (ZMod.natCast_eq_natCast_iff' _ _ 32768).1
  push_cast
  simp only [ZMod.natCast_mod]
  push_cast
  ring

theorem affIter_spec : ∀ (fuel a b k x : Nat), k < 2 ^ fuel →
    affIter fuel a b k x = (fun y => (a * y + b) % 32768)^[k] x := by
  intro fuel
  induction fuel with
  | zero =>
    intro a b k x hk
    have : k = 0 := by simpa using hk
    subst this
    rfl
  | succ fuel ih =>
    intro a b k x hk
    rw [affIter]
    split_ifs with h0 h2
    · subst h0; rfl
    · rw [ih _ _ _ _ (by omega)]
      have hk2 : k = (k / 2 * 2).succ := by omega
      have hg : (fun y => ((a * a % 32768) * y + (a * b + b) % 32768) % 32768) =
          (fun y => (a * y + b) % 32768)^[2] := by
        funext y; exact affine_comp a b y
      rw [hg, ← Function.iterate_mul, mul_comm 2]
      conv_rhs => rw [hk2, Function.iterate_succ_apply]
    · rw [ih _ _ _ _ (by omega)]
      have hk2 : k = k / 2 * 2 := by omega
      have hg : (fun y => ((a * a % 32768) * y + (a * b + b) % 32768) % 32768) =
          (fun y => (a * y + b) % 32768)^[2] := by
        funext y; exact affine_comp a b y
      rw [hg, ← Function.iterate_mul, mul_comm 2]
      conv_rhs => rw [hk2]

theorem ack3_eq (r7 n : Nat) (hn : n < 32768) : ackRef r7 3 n = ack3 r7 n := by
  rw [ackRef_three, ack3, affIter_spec _ _ _ _ _ (by omega)]

theorem ack41_eq (r7 : Nat) (h : r7 < 32768) : ackRef r7 4 1 = ack41 r7 := by
  have e0 : ackRef r7 4 0 = ack3 r7 r7 := by rw [ackRef, ack3_eq r7 r7 h]
  rw [ackRef, e0, ack41, ack3_eq _ _ (by rw [← e0]; exact ackRef_lt _ _ _)]

theorem ack41_25734 : ack41 25734 = 6 := by decide

/-! ## The table stays sound and the result is the reference value -/

theorem Sound.at_empty (r7 : Nat) : Sound r7 Memo.empty := by
  intro a b v h
  simp [Memo.empty] at h

theorem Sound.after_set {r7 : Nat} {m : Memo} (hm : Sound r7 m) (a b : Nat) :
    Sound r7 (m.set (toKey a b) (ackRef r7 a b)) := by
  intro a' b' v h
  by_cases e : toKey a' b' = toKey a b
  · rw [e, Memo.set_self] at h
    obtain ⟨e1, e2⟩ := toKey_inj e
    have e1' : a' = a := by exact_mod_cast e1
    have e2' : b' = b := by exact_mod_cast e2
    rw [e1', e2']
    exact (Option.some.inj h).symm
  · rw [Memo.set_other _ _ _ _ e] at h
    exact hm a' b' v h

theorem cast_pred (a : Nat) (h : a + 1 < 32768) :
    (((a + 1 : Nat) : Int) - 1).tmod MOD = (a : Int) := by
  rw [dec_eq _ (by omega) (by unfold MOD; omega)]
  push_cast; omega

/-- On a sound table, a call on a pair of the domain returns the reference value and
leaves a sound table. -/
theorem memoAck_sound (r7 : Nat) (hr7 : r7 < 32768) :
    ∀ (a b : Nat) (memo : Memo), a < 32768 → b < 32768 → Sound r7 memo →
      (memoAck a b r7 memo).1 = (ackRef r7 a b : Int) ∧ Sound r7 (memoAck a b r7 memo).2 := by
  intro a
  induction a with
  | zero =>
    intro b memo _ hb hs
    cases hm : memo (toKey ((0 : Nat) : Int) b) with
    | some v =>
      rw [memoAck_hit _ _ _ _ _ hm]
      exact ⟨hs 0 b v hm, hs⟩
    | none =>
      have hv : ((b : Int) + 1).tmod MOD = (ackRef r7 0 b : Int) := by
        rw [succ_tmod _ (by omega), ackRef]; push_cast; rfl
      have e := memoAck_base (b : Int) r7 memo hm
      simp only [Nat.cast_zero] at e ⊢
      rw [e, hv]
      exact ⟨rfl, by simpa using hs.after_set 0 b⟩
  | succ a iha =>
    intro b
    induction b with
    | zero =>
      intro memo ha _ hs
      cases hm : memo (toKey ((a + 1 : Nat) : Int) ((0 : Nat) : Int)) with
      | some v =>
        rw [memoAck_hit _ _ _ _ _ hm]
        exact ⟨hs _ _ v hm, hs⟩
      | none =>
        have h0 : ((a + 1 : Nat) : Int) ≠ 0 := by push_cast; omega
        have e := memoAck_left _ (r7 : Int) memo hm h0 _ rfl
        rw [cast_pred a ha] at e
        obtain ⟨i1, i2⟩ := iha r7 memo (by omega) hr7 hs
        simp only [Nat.cast_zero] at e ⊢
        rw [e, i1, ackRef]
        exact ⟨rfl, i2.after_set a r7⟩
    | succ b ihb =>
      intro memo ha hb hs
      cases hm : memo (toKey ((a + 1 : Nat) : Int) ((b + 1 : Nat) : Int)) with
      | some v =>
        rw [memoAck_hit _ _ _ _ _ hm]
        exact ⟨hs _ _ v hm, hs⟩
      | none =>
        have h0 : ((a + 1 : Nat) : Int) ≠ 0 := by push_cast; omega
        have h1 : ((b + 1 : Nat) : Int) ≠ 0 := by push_cast; omega
        have e := memoAck_both _ _ (r7 : Int) memo hm h0 h1 _ _ rfl rfl
        rw [cast_pred a ha, cast_pred b hb] at e
        obtain ⟨i1, i2⟩ := ihb memo ha (by omega) hs
        rw [i1] at e
        obtain ⟨j1, j2⟩ := iha (ackRef r7 (a + 1) b) _ (by omega) (ackRef_lt _ _ _)
          (i2.after_set (a + 1) b)
        rw [j1] at e
        rw [e, ackRef]
        exact ⟨rfl, j2.after_set a _⟩

/-- On an empty table the evaluator returns the reference value. -/
theorem memoAck_empty_eq (r7 a b : Nat) (hr7 : r7 < 32768) (ha : a < 32768)
    (hb : b < 32768) : (memoAck a b r7 Memo.empty).1 = (ackRef r7 a b : Int) :=
  (memoAck_sound r7 hr7 a b Memo.empty ha hb (Sound.at_empty r7)).1

theorem memoAck_four_one (r7 : Nat) (hr7 : r7 < 32768) :
    (memoAck 4 1 r7 Memo.empty).1 = (ack41 r7 : Int) := by
  have := memoAck_empty_eq r7 4 1 hr7 (by decide) (by decide)
  rw [ack41_eq r7 hr7] at this
  exact_mod_cast this

/-! ## Everything stays in the modular domain -/

theorem ValuesInRange.of_empty : ValuesInRange Memo.empty := by
  intro k v h
  simp [Memo.empty] at h

theorem ValuesInRange.of_set {m : Memo} (hm : ValuesInRange m) (k : String) {v : Int}
    (hv : InRange v) : ValuesInRange (m.set k v) := by
  intro k' v' h
  by_cases e : k' = k
  · rw [e, Memo.set_self] at h
    rw [← Option.some.inj h]; exact hv
  · rw [Memo.set_other _ _ _ _ e] at h
    exact hm k' v' h

theorem InRange.pred {x : Int} (hx : InRange x) (h0 : x ≠ 0) :
    InRange ((x - 1).tmod MOD) := by
  unfold InRange at *
  rw [dec_eq x (by omega) (by omega)]
  omega

theorem InRange.succ {x : Int} (hx : InRange x) : InRange ((x + 1).tmod MOD) := by
  unfold InRange MOD at *
  rw [Int.tmod_eq_emod (by omega) (by decide)]
  omega

/-- On a table whose values lie in the modular domain, an instrumented call on a pair
of the domain returns a value of the domain, leaves such a table and records only
events of the domain. -/
theorem memoAckI_range (r0 r1 r7 : Int) (memo : Memo) :
    InRange r0 → InRange r1 → InRange r7 → ValuesInRange memo →
      InRange (memoAckI r0 r1 r7 memo).res ∧ ValuesInRange (memoAckI r0 r1 r7 memo).memo ∧
        ∀ e ∈ (memoAckI r0 r1 r7 memo).log, e.ok := by
  induction r0, r1, r7, memo using memoAckI.induct with
  | case1 r0 r1 r7 memo res h =>
    intro hr0 hr1 _ hm
    rw [memoAckI_hit _ _ _ _ _ h]
    refine ⟨hm _ _ h, hm, ?_⟩
    intro e he
    simp only [List.mem_singleton] at he
    rw [he]; exact ⟨hr0, hr1⟩
  | case2 r1 r7 memo h =>
    intro hr0 hr1 _ hm
    rw [memoAckI_base _ _ _ h]
    refine ⟨hr1.succ, hm.of_set _ hr1.succ, ?_⟩
    intro e he
    simp only [List.mem_cons, List.mem_singleton, List.not_mem_nil, or_false] at he
    rcases he with he | he
    · rw [he]; exact ⟨hr0, hr1⟩
    · rw [he]; exact ⟨hr0, hr1, hr1.succ⟩
  | case3 r0 r7 memo h0 h ih =>
    intro hr0 hr1 hr7 hm
    rw [memoAckI_left _ _ _ h h0 _ rfl]
    obtain ⟨i1, i2, i3⟩ := ih (hr0.pred h0) hr7 hr7 hm
    have hd : (Event.dec r0).ok := ⟨h0, (hr0.pred h0).1⟩
    refine ⟨i1, i2.of_set _ i1, ?_⟩
    intro e he
    simp only [List.mem_append, List.mem_cons, List.mem_singleton, List.not_mem_nil,
      or_false] at he
    rcases he with (he | he) | he | he
    · rcases he with he | he
      · rw [he]; exact ⟨hr0, hr1⟩
      · rw [he]; exact hd
    · exact i3 e he
    · rw [he]; exact hd
    · rw [he]; exact ⟨hr0.pred h0, hr7, i1⟩
  | case4 r0 r1 r7 memo h h0 h1 p m1 ihp ihq =>
    intro hr0 hr1 hr7 hm
    rw [memoAckI_both _ _ _ _ h h0 h1 _ _ rfl rfl]
    obtain ⟨i1, i2, i3⟩ := ihp hr0 (hr1.pred h1) hr7 hm
    obtain ⟨j1, j2, j3⟩ := ihq (hr0.pred h0) i1 hr7 (i2.of_set _ i1)
    have hd0 : (Event.dec r0).ok := ⟨h0, (hr0.pred h0).1⟩
    have hd1 : (Event.dec r1).ok := ⟨h1, (hr1.pred h1).1⟩
    refine ⟨j1, j2.of_set _ j1, ?_⟩
    intro e he
    simp only [List.mem_append, List.mem_cons, List.mem_singleton, List.not_mem_nil,
      or_false] at he
    rcases he with (((he | he) | he) | he) | he
    · rcases he with he | he
      · rw [he]; exact ⟨hr0, hr1⟩
      · rw [he]; exact hd1
    · exact i3 e he
    · rcases he with he | he | he
      · rw [he]; exact hd1
      · rw [he]; exact ⟨hr0, hr1.pred h1, i1⟩
      · rw [he]; exact hd0
    · exact j3 e he
    · rcases he with he | he
      · rw [he]; exact hd0
      · rw [he]; exact ⟨hr0.pred h0, i1, j1⟩

/-! ## One trial of the search -/

/-- On an empty table the evaluator returns the reference value (integer arguments). -/
theorem memoAck_empty_int (r0 r1 r7 : Int) (h0 : InRange r0) (h1 : InRange r1)
    (h7 : InRange r7) :
    (memoAck r0 r1 r7 Memo.empty).1 = (ackRef r7.toNat r0.toNat r1.toNat : Int) := by
  unfold InRange MOD at *
  have := memoAck_empty_eq r7.toNat r0.toNat r1.toNat (by omega) (by omega) (by omega)
  rwa [Int.toNat_of_nonneg h0.1, Int.toNat_of_nonneg h1.1, Int.toNat_of_nonneg h7.1] at this

/-- The trial of a candidate of the domain yields the closed form `ack41`. -/
theorem trial_eq_ack41 (r7 : Int) (h : InRange r7) : trial r7 = (ack41 r7.toNat : Int) := by
  have e := memoAck_four_one r7.toNat (by unfold InRange MOD at h; omega)
  rw [Int.toNat_of_nonneg h.1] at e
  rw [trial]
  exact e

/-! ## Concrete runs -/

/-- The run `memoAck(1, 0, 0, {})`: it returns `1` and leaves the table `{"0:0": 1}`. -/
theorem run_1_0_0 : memoAck 1 0 0 Memo.empty = (1, Memo.empty.set (toKey 0 0) 1) := by
  have e0 : memoAck 0 0 0 Memo.empty = (1, Memo.empty.set (toKey 0 0) 1) := by
    rw [memoAck_base _ _ _ rfl]; rfl
  rw [memoAck_left 1 0 Memo.empty rfl (by decide) (1, Memo.empty.set (toKey 0 0) 1)
    (by rw [← e0]; rfl)]
  simp [Memo.set_same, Memo.set_self]

/-- The run `memoAck(1, 1, 0, {})`: it returns `2` and leaves the table
`{"0:0": 1, "1:0": 1, "0:1": 2}`. -/
theorem run_1_1_0 : memoAck 1 1 0 Memo.empty =
    (2, ((Memo.empty.set (toKey 0 0) 1).set (toKey 1 0) 1).set (toKey 0 1) 2) := by
  have hk : ((Memo.empty.set (toKey 0 0) 1).set (toKey 1 0) 1) (toKey 0 1) = none := by
    rw [Memo.set_other _ _ _ _ (by decide), Memo.set_other _ _ _ _ (by decide)]; rfl
  have e2 : memoAck 0 1 0 ((Memo.empty.set (toKey 0 0) 1).set (toKey 1 0) 1) =
      (2, ((Memo.empty.set (toKey 0 0) 1).set (toKey 1 0) 1).set (toKey 0 1) 2) := by
    rw [memoAck_base _ _ _ hk]; rfl
  rw [memoAck_both 1 1 0 Memo.empty rfl (by decide) (by decide)
    (1, Memo.empty.set (toKey 0 0) 1)
    (2, ((Memo.empty.set (toKey 0 0) 1).set (toKey 1 0) 1).set (toKey 0 1) 2)
    (by rw [← run_1_0_0]; rfl) (by rw [← e2]; rfl)]
  simp [Memo.set_same, Memo.set_self]

/-- The run `memoAck(1, 1, 1, memo)` on the table that `memoAck(1, 1, 0, {})` left:
it returns `2`, taking the stale entry of `(1, 0)` for the value of `memoAck(1, 0)`. -/
theorem run_1_1_1_stale :
    (memoAck 1 1 1 (memoAck 1 1 0 Memo.empty).2).1 = 2 := by
  rw [run_1_1_0]
  have h11 : (((Memo.empty.set (toKey 0 0) 1).set (toKey 1 0) 1).set (toKey 0 1) 2)
      (toKey 1 1) = none := by
    rw [Memo.set_other _ _ _ _ (by decide), Memo.set_other _ _ _ _ (by decide),
      Memo.set_other _ _ _ _ (by decide)]; rfl
  have h10 : (((Memo.empty.set (toKey 0 0) 1).set (toKey 1 0) 1).set (toKey 0 1) 2)
      (toKey 1 0) = some 1 := by
    rw [Memo.set_other _ _ _ _ (by decide), Memo.set_self]
  have h01 : (((Memo.empty.set (toKey 0 0) 1).set (toKey 1 0) 1).set (toKey 0 1) 2)
      (toKey 0 1) = some 2 := Memo.set_self _ _ _
  rw [memoAck_both 1 1 1 _ h11 (by decide) (by decide)
    (1, ((Memo.empty.set (toKey 0 0) 1).set (toKey 1 0) 1).set (toKey 0 1) 2)
    (2, ((Memo.empty.set (toKey 0 0) 1).set (toKey 1 0) 1).set (toKey 0 1) 2)
    (by
      show _ = memoAck 1 0 1 _
      rw [memoAck_hit _ _ _ _ _ h10])
    (by
      show _ = memoAck 0 1 1 (Memo.set _ (toKey 1 0) 1)
      rw [Memo.set_same _ _ _ h10, memoAck_hit _ _ _ _ _ h01])]

/-! # Properties of the specification -/

/-- C1. On an empty memo table and for `r0`, `r1`, `r7` in `[0, 32768)`, `memoAck`
returns the value of the unmemoized reference recurrence `ackRef`. -/
theorem memoAck_refines_ackRef (r0 r1 r7 : Int) (h0 : InRange r0) (h1 : InRange r1)
    (h7 : InRange r7) :
    (memoAck r0 r1 r7 Memo.empty).1 = (ackRef r7.toNat r0.toNat r1.toNat : Int) :=
  memoAck_empty_int r0 r1 r7 h0 h1 h7

theorem memoAck_refines_ackRef_witness :
    InRange 2 ∧ InRange 3 ∧ InRange 5 ∧
      (memoAck 2 3 5 Memo.empty).1 = (ackRef (5 : Int).toNat (2 : Int).toNat (3 : Int).toNat : Int) :=
  ⟨by decide, by decide, by decide,
    memoAck_refines_ackRef 2 3 5 (by decide) (by decide) (by decide)⟩

/-- C3. With `r0 = 0` and an empty table, `memoAck` returns `(r1 + 1) mod 32768`; for
`r1 = 32767` that is `0`. -/
theorem memoAck_zero_row (r1 r7 : Int) (h1 : InRange r1) (_h7 : InRange r7) :
    (memoAck 0 r1 r7 Memo.empty).1 = (r1 + 1) % 32768 ∧
      (r1 = 32767 → (memoAck 0 r1 r7 Memo.empty).1 = 0) := by
  have e : (memoAck 0 r1 r7 Memo.empty).1 = (r1 + 1) % 32768 := by
    rw [memoAck_base _ _ _ rfl]
    exact succ_tmod r1 h1.1
  refine ⟨e, fun h => ?_⟩
  rw [e, h]; rfl

theorem memoAck_zero_row_witness :
    InRange 32767 ∧ InRange 9 ∧
      ((memoAck 0 32767 9 Memo.empty).1 = (32767 + 1) % 32768 ∧
        ((32767 : Int) = 32767 → (memoAck 0 32767 9 Memo.empty).1 = 0)) :=
  ⟨by decide, by decide, memoAck_zero_row 32767 9 (by decide) (by decide)⟩

/-- C4. With `r1 = 0`, `r0` in `(0, 32768)` and an empty table, `memoAck(r0, 0, r7, ..)`
returns what `memoAck(r0 - 1, r7, r7, ..)` returns on an empty table. -/
theorem memoAck_zero_column (r0 r7 : Int) (h0 : 0 < r0) (h0' : r0 < MOD)
    (_h7 : InRange r7) :
    (memoAck r0 0 r7 Memo.empty).1 = (memoAck (r0 - 1) r7 r7 Memo.empty).1 := by
  rw [memoAck_left r0 r7 Memo.empty rfl (by omega) _ rfl, dec_eq r0 h0 (by omega)]

theorem memoAck_zero_column_witness :
    (0 : Int) < 3 ∧ (3 : Int) < MOD ∧ InRange 7 ∧
      (memoAck 3 0 7 Memo.empty).1 = (memoAck (3 - 1) 7 7 Memo.empty).1 :=
  ⟨by decide, by decide, by decide,
    memoAck_zero_column 3 7 (by decide) (by decide) (by decide)⟩

/-- C5. When the table already holds an entry for the pair `(r0, r1)`, `memoAck` returns
the cached value, leaves the table unchanged and makes no recursive call: the only
activation recorded is the call itself, with no decrement and no assignment. -/
theorem memoAck_cached (r0 r1 r7 : Int) (memo : Memo) (v : Int)
    (h : memo (toKey r0 r1) = some v) :
    memoAck r0 r1 r7 memo = (v, memo) ∧
      (memoAckI r0 r1 r7 memo).res = v ∧ (memoAckI r0 r1 r7 memo).memo = memo ∧
      (memoAckI r0 r1 r7 memo).log = [Event.call r0 r1] ∧
      callCount (memoAckI r0 r1 r7 memo).log = 1 := by
  rw [memoAck_hit _ _ _ _ _ h, memoAckI_hit _ _ _ _ _ h]
  exact ⟨rfl, rfl, rfl, rfl, rfl⟩

theorem memoAck_cached_witness :
    (Memo.empty.set (toKey 4 1) 6) (toKey 4 1) = some 6 ∧
      (memoAck 4 1 9 (Memo.empty.set (toKey 4 1) 6) = (6, Memo.empty.set (toKey 4 1) 6) ∧
      (memoAckI 4 1 9 (Memo.empty.set (toKey 4 1) 6)).res = 6 ∧
      (memoAckI 4 1 9 (Memo.empty.set (toKey 4 1) 6)).memo = Memo.empty.set (toKey 4 1) 6 ∧
      (memoAckI 4 1 9 (Memo.empty.set (toKey 4 1) 6)).log = [Event.call 4 1] ∧
      callCount (memoAckI 4 1 9 (Memo.empty.set (toKey 4 1) 6)).log = 1) :=
  ⟨Memo.set_self _ _ _, memoAck_cached 4 1 9 _ 6 (Memo.set_self _ _ _)⟩

/-- C6, as stated, fails: `memoAck(1, 0, 0, {})` computes its result (the table has no
entry for `(1, 0)`), returns `1`, and the table it leaves has no entry for `(1, 0)`. -/
theorem own_pair_not_stored :
    InRange 1 ∧ InRange 0 ∧ Memo.empty (toKey 1 0) = none ∧
      (memoAck 1 0 0 Memo.empty).1 = 1 ∧
      (memoAck 1 0 0 Memo.empty).2 (toKey 1 0) = none ∧
      ¬ ((memoAck 1 0 0 Memo.empty).2 (toKey 1 0) = some (memoAck 1 0 0 Memo.empty).1) := by
  have habs := memoAck_own_absent 1 0 0 Memo.empty (by decide) rfl
  refine ⟨by decide, by decide, rfl, ?_, habs, ?_⟩
  · rw [run_1_0_0]
  · rw [habs]; exact fun h => Option.noConfusion h

/-- C6, amended. A call on `r0`, `r1`, `r7` in `[0, 32768)` that computes its result `v`
(the table has no entry for `(r0, r1)`) leaves `v` in the table under the key of
`(r0, r1)` when `r0 = 0`. When `r0 ≠ 0` it leaves no entry for `(r0, r1)`: it leaves `v`
under the key of the pair of its last recursive call, `(r0 - 1, r7)` when `r1 = 0` and
`(r0 - 1, inner)` when `r1 ≠ 0`, where `inner` is the result of the first recursive call,
left under the key of `(r0, r1 - 1)`. -/
theorem computed_result_entry (r0 r1 r7 : Int) (memo : Memo) (h0 : InRange r0) (h1 : InRange r1)
    (_h7 : InRange r7) (hc : memo (toKey r0 r1) = none) :
    (r0 = 0 → (memoAck r0 r1 r7 memo).2 (toKey r0 r1) = some (memoAck r0 r1 r7 memo).1) ∧
    (r0 ≠ 0 → (memoAck r0 r1 r7 memo).2 (toKey r0 r1) = none) ∧
    (r0 ≠ 0 → r1 = 0 →
      (memoAck r0 r1 r7 memo).2 (toKey (r0 - 1) r7) = some (memoAck r0 r1 r7 memo).1) ∧
    (r0 ≠ 0 → r1 ≠ 0 →
      (memoAck r0 r1 r7 memo).2 (toKey r0 (r1 - 1)) = some (memoAck r0 (r1 - 1) r7 memo).1 ∧
      (memoAck r0 r1 r7 memo).2 (toKey (r0 - 1) (memoAck r0 (r1 - 1) r7 memo).1) =
        some (memoAck r0 r1 r7 memo).1) := by
  refine ⟨?_, fun n0 => memoAck_own_absent r0 r1 r7 memo n0 hc, ?_, ?_⟩
  · intro e0
    subst e0
    rw [memoAck_base _ _ _ hc]
    exact Memo.set_self _ _ _
  · intro n0 e1
    subst e1
    have d0 : (r0 - 1).tmod MOD = r0 - 1 :=
      dec_eq r0 (lt_of_le_of_ne h0.1 (Ne.symm n0)) (le_of_lt h0.2)
    have e := memoAck_left r0 r7 memo hc n0 _ rfl
    rw [d0] at e
    rw [e]
    exact Memo.set_self _ _ _
  · intro n0 n1
    have d0 : (r0 - 1).tmod MOD = r0 - 1 :=
      dec_eq r0 (lt_of_le_of_ne h0.1 (Ne.symm n0)) (le_of_lt h0.2)
    have d1 : (r1 - 1).tmod MOD = r1 - 1 :=
      dec_eq r1 (lt_of_le_of_ne h1.1 (Ne.symm n1)) (le_of_lt h1.2)
    have e := memoAck_both r0 r1 r7 memo hc n0 n1 _ _ rfl rfl
    have k := memoAck_keeps r0 ((r1 - 1).tmod MOD) (memoAck r0 ((r1 - 1).tmod MOD) r7 memo).1
      r7 (memoAck r0 ((r1 - 1).tmod MOD) r7 memo).1
      ((memoAck r0 ((r1 - 1).tmod MOD) r7 memo).2.set (toKey r0 ((r1 - 1).tmod MOD))
        (memoAck r0 ((r1 - 1).tmod MOD) r7 memo).1) n0 (Memo.set_self _ _ _)
    rw [d0, d1] at e k
    rw [e]
    exact ⟨k, Memo.set_self _ _ _⟩

theorem computed_result_entry_witness :
    InRange 2 ∧ InRange 1 ∧ InRange 5 ∧ Memo.empty (toKey 2 1) = none ∧
    (((2 : Int) = 0 →
        (memoAck 2 1 5 Memo.empty).2 (toKey 2 1) = some (memoAck 2 1 5 Memo.empty).1) ∧
    ((2 : Int) ≠ 0 → (memoAck 2 1 5 Memo.empty).2 (toKey 2 1) = none) ∧
    ((2 : Int) ≠ 0 → (1 : Int) = 0 →
      (memoAck 2 1 5 Memo.empty).2 (toKey (2 - 1) 5) = some (memoAck 2 1 5 Memo.empty).1) ∧
    ((2 : Int) ≠ 0 → (1 : Int) ≠ 0 →
      (memoAck 2 1 5 Memo.empty).2 (toKey 2 (1 - 1)) =
        some (memoAck 2 (1 - 1) 5 Memo.empty).1 ∧
      (memoAck 2 1 5 Memo.empty).2 (toKey (2 - 1) (memoAck 2 (1 - 1) 5 Memo.empty).1) =
        some (memoAck 2 1 5 Memo.empty).1)) :=
  ⟨by decide, by decide, by decide, rfl,
    computed_result_entry 2 1 5 Memo.empty (by decide) (by decide) (by decide) rfl⟩

/-- C7. For `r0`, `r1`, `r7` in `[0, 32768)`, calling `memoAck` on an empty table and
then again on the table the first call left returns the same value, and the second
call leaves the table exactly as the first call left it. -/
theorem memoAck_twice (r0 r1 r7 : Int) (_h0 : InRange r0) (_h1 : InRange r1)
    (_h7 : InRange r7) :
    (memoAck r0 r1 r7 (memoAck r0 r1 r7 Memo.empty).2).1 = (memoAck r0 r1 r7 Memo.empty).1 ∧
    (memoAck r0 r1 r7 (memoAck r0 r1 r7 Memo.empty).2).2 = (memoAck r0 r1 r7 Memo.empty).2 := by
  rw [memoAck_again]
  exact ⟨rfl, rfl⟩

theorem memoAck_twice_witness :
    InRange 4 ∧ InRange 1 ∧ InRange 25734 ∧
    ((memoAck 4 1 25734 (memoAck 4 1 25734 Memo.empty).2).1 =
        (memoAck 4 1 25734 Memo.empty).1 ∧
      (memoAck 4 1 25734 (memoAck 4 1 25734 Memo.empty).2).2 =
        (memoAck 4 1 25734 Memo.empty).2) :=
  ⟨by decide, by decide, by decide,
    memoAck_twice 4 1 25734 (by decide) (by decide) (by decide)⟩

/-- C8, as stated, fails: the second call of `memoAck(1, 0, 0, ..)`, on the table the
first call left, has call count `2`: the pair `(1, 0)` is not in the table, so the call
recurses once. -/
theorem second_call_recurses :
    InRange 1 ∧ InRange 0 ∧
      callCount (memoAckI 1 0 0 (memoAckI 1 0 0 Memo.empty).memo).log = 2 ∧
      ¬ (callCount (memoAckI 1 0 0 (memoAckI 1 0 0 Memo.empty).memo).log = 1) := by
  have e : callCount (memoAckI 1 0 0 (memoAckI 1 0 0 Memo.empty).memo).log = 2 := by
    rw [(memoAckI_erase 1 0 0 Memo.empty).2, callCount_again]
    rw [if_neg (by
      rintro (h | h)
      · exact h rfl
      · exact absurd h (by decide)), if_pos rfl]
  refine ⟨by decide, by decide, e, ?_⟩
  rw [e]; decide

/-- C8, amended. For `r0`, `r1`, `r7` in `[0, 32768)` and any table, the second call of
`memoAck`, on the table a first identical call left, makes no recursive call (call count
`1`) when `r0 = 0` or when the table of the first call held an entry for `(r0, r1)`;
otherwise it makes its direct recursive calls only, one when `r1 = 0` and two when
`r1 ≠ 0`, and each of them is answered from the table without a further call (call count
`2`, respectively `3`). -/
theorem again_call_count (r0 r1 r7 : Int) (memo : Memo) (_h0 : InRange r0)
    (_h1 : InRange r1) (_h7 : InRange r7) :
    callCount (memoAckI r0 r1 r7 (memoAckI r0 r1 r7 memo).memo).log =
      if memo (toKey r0 r1) ≠ none ∨ r0 = 0 then 1 else if r1 = 0 then 2 else 3 := by
  rw [(memoAckI_erase r0 r1 r7 memo).2, callCount_again]

theorem again_call_count_witness :
    InRange 2 ∧ InRange 1 ∧ InRange 5 ∧
      callCount (memoAckI 2 1 5 (memoAckI 2 1 5 (Memo.empty.set (toKey 1 0) 6)).memo).log =
        if (Memo.empty.set (toKey 1 0) 6) (toKey 2 1) ≠ none ∨ (2 : Int) = 0 then 1
        else if (1 : Int) = 0 then 2 else 3 :=
  ⟨by decide, by decide, by decide,
    again_call_count 2 1 5 (Memo.empty.set (toKey 1 0) 6) (by decide) (by decide)
      (by decide)⟩

/-- C9. Reusing a table across trials gives a wrong result: with `r0 = 1`, `r1 = 1`,
evaluating for `r7' = 1` on the table left by the evaluation for `r7 = 0` returns `2`,
while on an empty table the evaluation for `r7' = 1` returns `3`. The trial of
`rangeMemoAck` starts from an empty table. -/
theorem stale_table_wrong :
    ∃ r0 r1 r7 r7' : Int, InRange r0 ∧ InRange r1 ∧ InRange r7 ∧ InRange r7' ∧ r7 ≠ r7' ∧
      (memoAck r0 r1 r7' (memoAck r0 r1 r7 Memo.empty).2).1 ≠
        (memoAck r0 r1 r7' Memo.empty).1 := by
  refine ⟨1, 1, 0, 1, by decide, by decide, by decide, by decide, by decide, ?_⟩
  have fresh : (memoAck 1 1 1 Memo.empty).1 = 3 := by
    rw [memoAck_empty_int 1 1 1 (by decide) (by decide) (by decide)]
    have e : (1 : Int).toNat = 1 := rfl
    rw [e, ackRef_one]
    rfl
  rw [run_1_1_1_stale, fresh]
  decide

/-- C10. For `r0`, `r1`, `r7` in `[0, 32768)` and an empty table, the result of
`memoAck`, every value the table holds afterwards, the arguments of every activation,
and the key components and the value of every assignment to the table lie in
`[0, 32768)`; every decrement `(x-1) % MOD` is taken at `x ≠ 0` and yields a
non-negative value. -/
theorem memoAck_in_domain (r0 r1 r7 : Int) (h0 : InRange r0) (h1 : InRange r1)
    (h7 : InRange r7) :
    InRange (memoAck r0 r1 r7 Memo.empty).1 ∧
    ValuesInRange (memoAck r0 r1 r7 Memo.empty).2 ∧
    (∀ e ∈ (memoAckI r0 r1 r7 Memo.empty).log, e.ok) ∧
    (∀ a b, Event.call a b ∈ (memoAckI r0 r1 r7 Memo.empty).log → InRange a ∧ InRange b) ∧
    (∀ a b v, Event.store a b v ∈ (memoAckI r0 r1 r7 Memo.empty).log →
      InRange a ∧ InRange b ∧ InRange v) ∧
    (∀ x, Event.dec x ∈ (memoAckI r0 r1 r7 Memo.empty).log →
      x ≠ 0 ∧ 0 ≤ (x - 1).tmod MOD) := by
  obtain ⟨i1, i2, i3⟩ := memoAckI_range r0 r1 r7 Memo.empty h0 h1 h7 ValuesInRange.of_empty
  rw [(memoAckI_erase r0 r1 r7 Memo.empty).1] at i1
  rw [(memoAckI_erase r0 r1 r7 Memo.empty).2] at i2
  exact ⟨i1, i2, i3, fun a b h => i3 _ h, fun a b v h => i3 _ h, fun x h => i3 _ h⟩

theorem memoAck_in_domain_witness :
    InRange 4 ∧ InRange 1 ∧ InRange 25734 ∧
    (InRange (memoAck 4 1 25734 Memo.empty).1 ∧
    ValuesInRange (memoAck 4 1 25734 Memo.empty).2 ∧
    (∀ e ∈ (memoAckI 4 1 25734 Memo.empty).log, e.ok) ∧
    (∀ a b, Event.call a b ∈ (memoAckI 4 1 25734 Memo.empty).log → InRange a ∧ InRange b) ∧
    (∀ a b v, Event.store a b v ∈ (memoAckI 4 1 25734 Memo.empty).log →
      InRange a ∧ InRange b ∧ InRange v) ∧
    (∀ x, Event.dec x ∈ (memoAckI 4 1 25734 Memo.empty).log →
      x ≠ 0 ∧ 0 ≤ (x - 1).tmod MOD)) :=
  ⟨by decide, by decide, by decide,
    memoAck_in_domain 4 1 25734 (by decide) (by decide) (by decide)⟩

/-! ## The partition of the candidates -/

theorem workerRange_eq (i : Int) : workerRange i = rangeOf MOD GOROUTINES_NUM i := rfl

theorem workerRange_val (i : Int) : workerRange i = (4096 * i, 4096 * (i + 1)) := rfl

theorem assigned_unique (M K i j v : Int) (hi : Assigned M K i v) (hj : Assigned M K j v) :
    i = j := by
  unfold Assigned rangeOf at *
  simp only at hi hj
  by_contra hne
  rcases lt_or_gt_of_ne hne with h | h
  · have h1 : i + 1 ≤ j := h
    have hq : 0 < M.tdiv K := by
      by_contra hq
      have hq' : M.tdiv K ≤ 0 := not_lt.1 hq
      nlinarith [hi.1, hi.2]
    nlinarith [hi.1, hi.2, hj.1, hj.2]
  · have h1 : j + 1 ≤ i := h
    have hq : 0 < M.tdiv K := by
      by_contra hq
      have hq' : M.tdiv K ≤ 0 := not_lt.1 hq
      nlinarith [hi.1, hi.2]
    nlinarith [hi.1, hi.2, hj.1, hj.2]

theorem assigned_exists (M K v : Int) (hM : 1 ≤ M) (hK : 1 ≤ K) (h0 : 0 ≤ v)
    (hv : v < M.tdiv K * K) : ∃ i, 0 ≤ i ∧ i < K ∧ Assigned M K i v := by
  have hq0 : 0 ≤ M.tdiv K := Int.tdiv_nonneg (by omega) (by omega)
  have hq : 0 < M.tdiv K := by
    rcases lt_or_eq_of_le hq0 with h | h
    · exact h
    · rw [← h] at hv; simp at hv; omega
  refine ⟨v / M.tdiv K, Int.ediv_nonneg h0 hq0, ?_, ?_, ?_⟩
  · exact Int.ediv_lt_of_lt_mul hq (by rw [mul_comm]; exact hv)
  · show M.tdiv K * (v / M.tdiv K) ≤ v
    exact Int.mul_ediv_self_le (ne_of_gt hq)
  · show v < M.tdiv K * (v / M.tdiv K + 1)
    have := Int.lt_mul_ediv_self_add hq (x := v)
    linarith

theorem unassigned_tail (M K v i : Int) (hK : 1 ≤ K) (hM : 1 ≤ M) (hi : i < K)
    (hv : M.tdiv K * K ≤ v) : ¬ Assigned M K i v := by
  have hq0 : 0 ≤ M.tdiv K := Int.tdiv_nonneg (by omega) (by omega)
  intro h
  unfold Assigned rangeOf at h
  simp only at h
  have : i + 1 ≤ K := hi
  nlinarith [h.1, h.2]

theorem tdiv_mul_le (M K : Int) (hM : 1 ≤ M) : M.tdiv K * K ≤ M := by
  have e := Int.tmod_add_tdiv M K
  have h := @Int.tmod_nonneg M K (by omega)
  rw [mul_comm]; omega

theorem tdiv_mul_of_dvd (M K : Int) (h : M.tmod K = 0) : M.tdiv K * K = M := by
  have e := Int.tmod_add_tdiv M K
  rw [mul_comm]; omega

/-! ## A worker -/

theorem rangeMemoAck_done (stop : Int → Bool) (r7 end_ : Int) (h : ¬ r7 < end_) :
    rangeMemoAck stop r7 end_ = [] := by
  rw [rangeMemoAck, dif_neg h]

theorem rangeMemoAck_stop (stop : Int → Bool) (r7 end_ : Int) (h : r7 < end_)
    (hs : stop r7 = true) : rangeMemoAck stop r7 end_ = [] := by
  rw [rangeMemoAck, dif_pos h, if_pos hs]

theorem rangeMemoAck_hit (stop : Int → Bool) (r7 end_ : Int) (h : r7 < end_)
    (hs : stop r7 = false) (hq : (memoAck 4 1 r7 Memo.empty).1 = 6) :
    rangeMemoAck stop r7 end_ =
      WEvent.eval r7 (memoAck 4 1 r7 Memo.empty).1 :: WEvent.report r7 ::
        rangeMemoAck stop (r7 + 1) end_ := by
  rw [rangeMemoAck, dif_pos h, if_neg (by simp [hs])]
  simp only [hq, if_true]

theorem rangeMemoAck_miss (stop : Int → Bool) (r7 end_ : Int) (h : r7 < end_)
    (hs : stop r7 = false) (hq : (memoAck 4 1 r7 Memo.empty).1 ≠ 6) :
    rangeMemoAck stop r7 end_ =
      WEvent.eval r7 (memoAck 4 1 r7 Memo.empty).1 :: rangeMemoAck stop (r7 + 1) end_ := by
  rw [rangeMemoAck, dif_pos h, if_neg (by simp [hs])]
  simp only [hq, if_false]

theorem candidates_nil (start end_ : Int) (h : ¬ start < end_) : candidates start end_ = [] := by
  unfold candidates
  have : (end_ - start).toNat = 0 := by omega
  rw [this]; rfl

theorem candidates_cons (start end_ : Int) (h : start < end_) :
    candidates start end_ = start :: candidates (start + 1) end_ := by
  unfold candidates
  have e : (end_ - start).toNat = (end_ - (start + 1)).toNat + 1 := by omega
  rw [e, List.range_succ_eq_map, List.map_cons, List.map_map]
  congr 1
  · simp
  · apply List.map_congr_left
    intro i _
    simp only [Function.comp, Nat.succ_eq_add_one]
    push_cast; ring

theorem mem_candidates (start end_ r : Int) :
    r ∈ candidates start end_ ↔ start ≤ r ∧ r < end_ := by
  unfold candidates
  simp only [List.mem_map, List.mem_range]
  constructor
  · rintro ⟨i, hi, rfl⟩; omega
  · intro h
    exact ⟨(r - start).toNat, by omega, by omega⟩

/-- A worker that does not find the signal raised evaluates the candidates of its range
in increasing order and reports those that qualify, in that order. -/
theorem rangeMemoAck_unstopped (stop : Int → Bool) (end_ : Int) :
    ∀ (n : Nat) (start : Int), (end_ - start).toNat = n →
      (∀ r, start ≤ r → r < end_ → stop r = false) →
      evals (rangeMemoAck stop start end_) = candidates start end_ ∧
      reports (rangeMemoAck stop start end_) =
        (candidates start end_).filter (fun r => decide ((memoAck 4 1 r Memo.empty).1 = 6)) ∧
      ∀ e ∈ rangeMemoAck stop start end_, ∀ r res, e = WEvent.eval r res →
        res = (memoAck 4 1 r Memo.empty).1 := by
  intro n
  induction n with
  | zero =>
    intro start hn _
    have h : ¬ start < end_ := by omega
    rw [rangeMemoAck_done _ _ _ h, candidates_nil _ _ h]
    exact ⟨rfl, rfl, fun e he => absurd he (List.not_mem_nil e)⟩
  | succ n ih =>
    intro start hn hs
    have h : start < end_ := by omega
    obtain ⟨i1, i2, i3⟩ := ih (start + 1) (by omega) (fun r h1 h2 => hs r (by omega) h2)
    rw [candidates_cons _ _ h]
    by_cases hq : (memoAck 4 1 start Memo.empty).1 = 6
    · rw [rangeMemoAck_hit _ _ _ h (hs start (le_refl _) h) hq]
      refine ⟨by simp [evals, i1], by simp [reports, i2, hq], ?_⟩
      intro e he r res hr
      rcases List.mem_cons.1 he with h1 | h1
      · rw [h1] at hr; cases hr; rfl
      · rcases List.mem_cons.1 h1 with h2 | h2
        · rw [h2] at hr; cases hr
        · exact i3 e h2 r res hr
    · rw [rangeMemoAck_miss _ _ _ h (hs start (le_refl _) h) hq]
      refine ⟨by simp [evals, i1], by simp [reports, i2, hq], ?_⟩
      intro e he r res hr
      rcases List.mem_cons.1 he with h1 | h1
      · rw [h1] at hr; cases hr; rfl
      · exact i3 e h1 r res hr

/-- The first value an unstopped worker reports is the smallest qualifying candidate of
its range. -/
theorem first_report_least (stop : Int → Bool) (end_ : Int) :
    ∀ (n : Nat) (start : Int), (end_ - start).toNat = n →
      (∀ r, start ≤ r → r < end_ → stop r = false) →
      ∀ r, (reports (rangeMemoAck stop start end_)).head? = some r →
        start ≤ r ∧ r < end_ ∧ (memoAck 4 1 r Memo.empty).1 = 6 ∧
        ∀ r', start ≤ r' → r' < r → (memoAck 4 1 r' Memo.empty).1 ≠ 6 := by
  intro n
  induction n with
  | zero =>
    intro start hn _ r hr
    have h : ¬ start < end_ := by omega
    rw [rangeMemoAck_done _ _ _ h] at hr
    simp [reports] at hr
  | succ n ih =>
    intro start hn hs r hr
    have h : start < end_ := by omega
    by_cases hq : (memoAck 4 1 start Memo.empty).1 = 6
    · rw [rangeMemoAck_hit _ _ _ h (hs start (le_refl _) h) hq] at hr
      simp only [reports, List.head?_cons, Option.some.injEq] at hr
      subst hr
      exact ⟨le_refl _, h, hq, fun r' h1 h2 => absurd h2 (by omega)⟩
    · rw [rangeMemoAck_miss _ _ _ h (hs start (le_refl _) h) hq] at hr
      simp only [reports] at hr
      obtain ⟨j1, j2, j3, j4⟩ :=
        ih (start + 1) (by omega) (fun r h1 h2 => hs r (by omega) h2) r hr
      refine ⟨by omega, j2, j3, fun r' h1 h2 => ?_⟩
      by_cases e : r' = start
      · rw [e]; exact hq
      · exact j4 r' (by omega) h2

/-- A worker that finds the signal raised at the top of the iteration for `r7` touches
no candidate from `r7` on. -/
theorem rangeMemoAck_cancelled (stop : Int → Bool) (end_ r7 : Int) (hs : stop r7 = true) :
    ∀ (n : Nat) (start : Int), (end_ - start).toNat = n → start ≤ r7 →
      ∀ e ∈ rangeMemoAck stop start end_, e.cand < r7 := by
  intro n
  induction n with
  | zero =>
    intro start hn _ e he
    have h : ¬ start < end_ := by omega
    rw [rangeMemoAck_done _ _ _ h] at he
    exact absurd he (List.not_mem_nil e)
  | succ n ih =>
    intro start hn hle e he
    have h : start < end_ := by omega
    by_cases hst : stop start = true
    · rw [rangeMemoAck_stop _ _ _ h hst] at he
      exact absurd he (List.not_mem_nil e)
    · have hst' : stop start = false := by simpa using hst
      have hlt : start < r7 := by
        rcases lt_or_eq_of_le hle with h1 | h1
        · exact h1
        · rw [h1] at hst; exact absurd hs hst
      have rec_ := ih (start + 1) (by omega) (by omega)
      by_cases hq : (memoAck 4 1 start Memo.empty).1 = 6
      · rw [rangeMemoAck_hit _ _ _ h hst' hq] at he
        rcases List.mem_cons.1 he with h1 | h1
        · rw [h1]; exact hlt
        · rcases List.mem_cons.1 h1 with h2 | h2
          · rw [h2]; exact hlt
          · exact rec_ e h2
      · rw [rangeMemoAck_miss _ _ _ h hst' hq] at he
        rcases List.mem_cons.1 he with h1 | h1
        · rw [h1]; exact hlt
        · exact rec_ e h1

/-- Whatever the signal, a worker reports only qualifying candidates of its range. -/
theorem reports_qualify (stop : Int → Bool) (end_ : Int) :
    ∀ (n : Nat) (start : Int), (end_ - start).toNat = n →
      ∀ r ∈ reports (rangeMemoAck stop start end_),
        start ≤ r ∧ r < end_ ∧ (memoAck 4 1 r Memo.empty).1 = 6 := by
  intro n
  induction n with
  | zero =>
    intro start hn r hr
    have h : ¬ start < end_ := by omega
    rw [rangeMemoAck_done _ _ _ h] at hr
    simp [reports] at hr
  | succ n ih =>
    intro start hn r hr
    have h : start < end_ := by omega
    have rec_ := ih (start + 1) (by omega) r
    by_cases hst : stop start = true
    · rw [rangeMemoAck_stop _ _ _ h hst] at hr
      simp [reports] at hr
    · have hst' : stop start = false := by simpa using hst
      by_cases hq : (memoAck 4 1 start Memo.empty).1 = 6
      · rw [rangeMemoAck_hit _ _ _ h hst' hq] at hr
        simp only [reports, List.mem_cons] at hr
        rcases hr with h1 | h1
        · rw [h1]; exact ⟨le_refl _, h, hq⟩
        · obtain ⟨a, b, c⟩ := rec_ h1
          exact ⟨by omega, b, c⟩
      · rw [rangeMemoAck_miss _ _ _ h hst' hq] at hr
        simp only [reports] at hr
        obtain ⟨a, b, c⟩ := rec_ hr
        exact ⟨by omega, b, c⟩

/-! ## The coordinator and its workers -/

/-- Once every worker has returned while `main` waits, the program has no step left. -/
theorem step_stuck (s : Sys) (hm : s.main = Coord.waiting)
    (hw : ∀ i, s.workers i = Worker.returned) : ∀ s', ¬ Step s s' := by
  intro s' h
  cases h with
  | work i r7 end_ _ h2 => rw [hw i] at h2; cases h2
  | recv i r7 end_ _ h2 => rw [hw i] at h2; cases h2
  | close res h1 => rw [hm] at h1; cases h1

/-- When no candidate qualifies, `main` waits and `stopCh` stays open in every state the
program reaches, and each worker is in its loop, within its range, or has returned. -/
theorem reachable_blocked (K : Nat) (ranges : Nat → Int × Int)
    (hno : ∀ i, i < K → ∀ r7, (ranges i).1 ≤ r7 → r7 < (ranges i).2 →
      (memoAck 4 1 r7 Memo.empty).1 ≠ 6) :
    ∀ s, Reachable (Sys.init K ranges) s →
      s.main = Coord.waiting ∧ s.stopped = false ∧
      ∀ i, s.workers i = Worker.returned ∨
        ∃ r, i < K ∧ (ranges i).1 ≤ r ∧ s.workers i = Worker.atTop r (ranges i).2 := by
  intro s hs
  induction hs with
  | refl =>
    refine ⟨rfl, rfl, fun i => ?_⟩
    by_cases hi : i < K
    · right
      exact ⟨(ranges i).1, hi, le_refl _, by simp [Sys.init, hi]⟩
    · left; simp [Sys.init, hi]
  | tail _ hstep ih =>
    obtain ⟨i1, i2, i3⟩ := ih
    cases hstep with
    | work i r7 end_ _ h2 =>
      refine ⟨i1, i2, fun j => ?_⟩
      by_cases hj : j = i
      · subst hj
        simp only [Function.update_same]
        rcases i3 j with h | ⟨r, hK, hr, h⟩
        · rw [h] at h2; cases h2
        · rw [h] at h2
          obtain ⟨e1, e2⟩ := Worker.atTop.inj h2
          rw [← e1, ← e2]
          simp only [Worker.next, i2]
          by_cases hlt : r < (ranges j).2
          · simp only [hlt, if_true, Bool.false_eq_true, if_false, hno j hK r hr hlt]
            right
            exact ⟨r + 1, hK, by omega, rfl⟩
          · simp only [hlt, if_false]
            left; trivial
      · simp only [Function.update_noteq hj]
        exact i3 j
    | recv i r7 end_ _ h2 =>
      rcases i3 i with h | ⟨r, _, _, h⟩
      · rw [h] at h2; cases h2
      · rw [h] at h2; cases h2
    | close res h1 => rw [i1] at h1; cases h1

/-- A worker whose remaining candidates do not qualify runs to its return while `main`
waits and `stopCh` stays open. -/
theorem worker_runs_out (end_ : Int) (i : Nat) :
    ∀ (n : Nat) (r : Int) (w : Nat → Worker), (end_ - r).toNat = n →
      w i = Worker.atTop r end_ →
      (∀ r7, r ≤ r7 → r7 < end_ → (memoAck 4 1 r7 Memo.empty).1 ≠ 6) →
      Reachable ⟨Coord.waiting, false, w⟩
        ⟨Coord.waiting, false, Function.update w i Worker.returned⟩ := by
  intro n
  induction n with
  | zero =>
    intro r w hn hw _
    have h : ¬ r < end_ := by omega
    have st := Step.work ⟨Coord.waiting, false, w⟩ i r end_
      (fun res hc => Coord.noConfusion hc) hw
    simp only [Worker.next, h, if_false] at st
    exact Relation.ReflTransGen.single st
  | succ n ih =>
    intro r w hn hw hno
    have h : r < end_ := by omega
    have st := Step.work ⟨Coord.waiting, false, w⟩ i r end_
      (fun res hc => Coord.noConfusion hc) hw
    simp only [Worker.next, h, if_true, Bool.false_eq_true, if_false,
      hno r (le_refl _) h] at st
    have rest := ih (r + 1) (Function.update w i (Worker.atTop (r + 1) end_)) (by omega)
      (Function.update_same _ _ _) (fun r7 h1 h2 => hno r7 (by omega) h2)
    rw [Function.update_idem] at rest
    exact Relation.ReflTransGen.head st rest

/-- When no candidate qualifies, the program can run until every worker has returned. -/
theorem reachable_exhausted (K : Nat) (ranges : Nat → Int × Int)
    (hno : ∀ i, i < K → ∀ r7, (ranges i).1 ≤ r7 → r7 < (ranges i).2 →
      (memoAck 4 1 r7 Memo.empty).1 ≠ 6) :
    Reachable (Sys.init K ranges) ⟨Coord.waiting, false, fun _ => Worker.returned⟩ := by
  have key : ∀ k, k ≤ K → Reachable (Sys.init K ranges)
      ⟨Coord.waiting, false, fun i => if i < k then Worker.returned else
        (if i < K then Worker.atTop (ranges i).1 (ranges i).2 else Worker.returned)⟩ := by
    intro k
    induction k with
    | zero =>
      intro _
      have e : (fun i => if i < 0 then Worker.returned else
          (if i < K then Worker.atTop (ranges i).1 (ranges i).2 else Worker.returned)) =
          (Sys.init K ranges).workers := by
        funext i; simp [Sys.init]
      rw [e]
      exact Relation.ReflTransGen.refl
    | succ k ih =>
      intro hk
      have hk' : k < K := hk
      have run := worker_runs_out (ranges k).2 k _ (ranges k).1
        (fun i => if i < k then Worker.returned else
          (if i < K then Worker.atTop (ranges i).1 (ranges i).2 else Worker.returned))
        rfl (by simp [hk']) (fun r7 h1 h2 => hno k hk' r7 h1 h2)
      have e : Function.update (fun i => if i < k then Worker.returned else
          (if i < K then Worker.atTop (ranges i).1 (ranges i).2 else Worker.returned))
          k Worker.returned =
          (fun i => if i < k + 1 then Worker.returned else
          (if i < K then Worker.atTop (ranges i).1 (ranges i).2 else Worker.returned)) := by
        funext i
        by_cases hi : i = k
        · subst hi; simp
        · rw [Function.update_noteq hi]
          by_cases h1 : i < k
          · simp [h1, Nat.lt_succ_of_lt h1]
          · have h2 : ¬ i < k + 1 := by omega
            simp [h1, h2]
      rw [e] at run
      exact Relation.ReflTransGen.trans (ih (Nat.le_of_lt hk')) run
  have fin := key K (le_refl _)
  have e : (fun i => if i < K then Worker.returned else
      (if i < K then Worker.atTop (ranges i).1 (ranges i).2 else Worker.returned)) =
      (fun _ => Worker.returned) := by
    funext i
    by_cases h : i < K <;> simp [h]
  rw [e] at fin
  exact fin

/-! ## The reference recurrence at `r0 = 4`, by powers -/

theorem geom_quot_succ (a k : Nat) (ha : 2 ≤ a) :
    (a ^ (k + 1) - 1) / (a - 1) = a * ((a ^ k - 1) / (a - 1)) + 1 := by
  rw [← Nat.geomSum_eq ha, ← Nat.geomSum_eq ha, geom_sum_succ]

theorem affine_step_mod (a b t : Nat) :
    (a * (t % 32768) + b) % 32768 = (a * t + b) % 32768 := by
  apply (ZMod.natCast_eq_natCast_iff' _ _ 32768).1
  push_cast
  simp only [ZMod.natCast_mod]

theorem iterate_closed (a b x : Nat) (ha : 2 ≤ a) (hx : x < 32768) : ∀ k,
    (fun y => (a * y + b) % 32768)^[k] x =
      (a ^ k * x + b * ((a ^ k - 1) / (a - 1))) % 32768 := by
  intro k
  induction k with
  | zero => simp [Nat.mod_eq_of_lt hx]
  | succ k ih =>
    rw [Function.iterate_succ_apply', ih, affine_step_mod, geom_quot_succ a k ha]
    congr 1
    ring

theorem ack3c_eq (r7 n : Nat) (h : r7 < 32768) : ackRef r7 3 n = ack3c r7 n := by
  rw [ackRef_three, ack3c]
  split_ifs with h0
  · subst h0
    have : ∀ k x, (fun y => ((0 + 1) * y + (2 * 0 + 1)) % 32768)^[k] x % 32768 =
        (x + k) % 32768 := by
      intro k
      induction k with
      | zero => intro x; simp
      | succ k ih =>
        intro x
        rw [Function.iterate_succ_apply, ih]
        simp only [Nat.zero_add, Nat.one_mul, Nat.mul_zero]
        omega
    have e := this (n + 1) 0
    rw [Function.iterate_succ_apply'] at e ⊢
    simp only [Nat.mod_mod] at e
    simpa using e
  · have e := iterate_closed (r7 + 1) (2 * r7 + 1) r7 (by omega) h (n + 1)
    simp only [Nat.add_sub_cancel] at e
    exact e

theorem powMod_eq (a k W : Nat) : powMod a k W = a ^ k % W := by
  unfold powMod
  have e : a ^ k = (a ^ 256) ^ (k / 256) * a ^ (k % 256) := by
    rw [← pow_mul, ← pow_add, Nat.div_add_mod]
  rw [← Nat.pow_mod, ← Nat.mul_mod, ← e]

theorem pred_mod (A W : Nat) (hW : 0 < W) (hA : 1 ≤ A) :
    (A % W + W - 1) % W = (A - 1) % W := by
  have h1 : (A % W + W - 1) + 1 = A % W + W := by omega
  have h2 : (A - 1) + 1 = A := by omega
  have h3 : (A % W + W - 1) + 1 ≡ (A - 1) + 1 [MOD W] := by
    rw [h1, h2]
    unfold Nat.ModEq
    rw [Nat.add_mod_right, Nat.mod_mod]
  exact Nat.ModEq.add_right_cancel' 1 h3

/-- The geometric quotient modulo `32768`, from the power modulo `32768 * r`. -/
theorem quot_mod (r A : Nat) (hr : 0 < r) (hA : 1 ≤ A) (hd : r ∣ A - 1) :
    ((A % (32768 * r) + 32768 * r - 1) % (32768 * r)) / r = ((A - 1) / r) % 32768 := by
  rw [pred_mod A (32768 * r) (by omega) hA]
  obtain ⟨S, hS⟩ := hd
  rw [hS, Nat.mul_div_cancel_left S hr, Nat.mul_comm 32768 r, Nat.mul_mod_mul_left,
    Nat.mul_div_cancel_left _ hr]

theorem ack3m_eq (r7 n : Nat) : ack3m r7 n = ack3c r7 n := by
  unfold ack3m ack3c
  split_ifs with h0
  · rfl
  · have hr : 0 < r7 := Nat.pos_of_ne_zero h0
    have hA : 1 ≤ (r7 + 1) ^ (n + 1) := Nat.one_le_pow _ _ (by omega)
    have hd : r7 ∣ (r7 + 1) ^ (n + 1) - 1 := by
      have := nat_sub_dvd_pow_sub_pow (r7 + 1) 1 (n + 1)
      simpa using this
    rw [powMod_eq, quot_mod r7 _ hr hA hd]
    have hm : (r7 + 1) ^ (n + 1) % (32768 * r7) % 32768 = (r7 + 1) ^ (n + 1) % 32768 :=
      Nat.mod_mod_of_dvd _ (Dvd.intro _ rfl)
    rw [Nat.add_mod, Nat.mul_mod, hm, Nat.mul_mod (2 * r7 + 1), Nat.mod_mod]
    conv_rhs => rw [Nat.add_mod, Nat.mul_mod, Nat.mul_mod (2 * r7 + 1)]

theorem ack41c_eq (r7 : Nat) (h : r7 < 32768) : ackRef r7 4 1 = ack41c r7 := by
  rw [ackRef, ackRef, ack3c_eq r7 r7 h, ack3c_eq _ _ h, ack41c, ack3m_eq, ack3m_eq]

/-- The trial of a candidate of the domain yields the closed form `ack41c`. -/
theorem trial_eq_ack41c (r7 : Int) (h : InRange r7) :
    (memoAck 4 1 r7 Memo.empty).1 = (ack41c r7.toNat : Int) := by
  have e := memoAck_empty_int 4 1 r7 (by decide) (by decide) h
  have e4 : (4 : Int).toNat = 4 := rfl
  have e1 : (1 : Int).toNat = 1 := rfl
  rw [e4, e1, ack41c_eq _ (by unfold InRange MOD at h; omega)] at e
  exact e

theorem noHit_sound : ∀ (d lo len : Nat), noHit d lo len = true →
    ∀ n, lo ≤ n → n < lo + len → ack41c n ≠ 6 := by
  intro d
  induction d with
  | zero =>
    intro lo len h n h1 h2
    simp only [noHit, Bool.or_eq_true, Bool.and_eq_true, decide_eq_true_eq] at h
    rcases h with h | ⟨h, h'⟩
    · omega
    · have : n = lo := by omega
      rw [this]; exact h'
  | succ d ih =>
    intro lo len h n h1 h2
    rw [noHit] at h
    split_ifs at h with hl
    · simp only [Bool.or_eq_true, decide_eq_true_eq] at h
      rcases h with h | h
      · omega
      · have : n = lo := by omega
        rw [this]; exact h
    · simp only [Bool.and_eq_true] at h
      by_cases hn : n < lo + len / 2
      · exact ih _ _ h.1 n h1 hn
      · exact ih _ _ h.2 n (by omega) (by omega)

theorem noHit_chunk00 : noHit 11 0 2048 = true := by decide
theorem noHit_chunk01 : noHit 11 2048 2048 = true := by decide
theorem noHit_chunk02 : noHit 11 4096 2048 = true := by decide
theorem noHit_chunk03 : noHit 11 6144 2048 = true := by decide
theorem noHit_chunk04 : noHit 11 8192 2048 = true := by decide
theorem noHit_chunk05 : noHit 11 10240 2048 = true := by decide
theorem noHit_chunk06 : noHit 11 12288 2048 = true := by decide
theorem noHit_chunk07 : noHit 11 14336 2048 = true := by decide
theorem noHit_chunk08 : noHit 11 16384 2048 = true := by decide
theorem noHit_chunk09 : noHit 11 18432 2048 = true := by decide
theorem noHit_chunk10 : noHit 11 20480 2048 = true := by decide
theorem noHit_chunk11 : noHit 11 22528 2048 = true := by decide
theorem noHit_chunk12 : noHit 11 24576 1158 = true := by decide
theorem noHit_chunk13 : noHit 11 25735 889 = true := by decide
theorem noHit_chunk14 : noHit 11 26624 2048 = true := by decide
theorem noHit_chunk15 : noHit 11 28672 2048 = true := by decide
theorem noHit_chunk16 : noHit 11 30720 2048 = true := by decide

theorem ack41c_25735 : ack41c 25735 = 24263 := by decide

/-- No candidate of the domain other than `25734` has `A(4, 1) = 6`. -/
theorem ack41c_ne (n : Nat) (h : n < 32768) (hne : n ≠ 25734) : ack41c n ≠ 6 := by
  by_cases h00 : n < 2048
  · exact noHit_sound 11 0 2048 noHit_chunk00 n (by omega) (by omega)
  by_cases h01 : n < 4096
  · exact noHit_sound 11 2048 2048 noHit_chunk01 n (by omega) (by omega)
  by_cases h02 : n < 6144
  · exact noHit_sound 11 4096 2048 noHit_chunk02 n (by omega) (by omega)
  by_cases h03 : n < 8192
  · exact noHit_sound 11 6144 2048 noHit_chunk03 n (by omega) (by omega)
  by_cases h04 : n < 10240
  · exact noHit_sound 11 8192 2048 noHit_chunk04 n (by omega) (by omega)
  by_cases h05 : n < 12288
  · exact noHit_sound 11 10240 2048 noHit_chunk05 n (by omega) (by omega)
  by_cases h06 : n < 14336
  · exact noHit_sound 11 12288 2048 noHit_chunk06 n (by omega) (by omega)
  by_cases h07 : n < 16384
  · exact noHit_sound 11 14336 2048 noHit_chunk07 n (by omega) (by omega)
  by_cases h08 : n < 18432
  · exact noHit_sound 11 16384 2048 noHit_chunk08 n (by omega) (by omega)
  by_cases h09 : n < 20480
  · exact noHit_sound 11 18432 2048 noHit_chunk09 n (by omega) (by omega)
  by_cases h10 : n < 22528
  · exact noHit_sound 11 20480 2048 noHit_chunk10 n (by omega) (by omega)
  by_cases h11 : n < 24576
  · exact noHit_sound 11 22528 2048 noHit_chunk11 n (by omega) (by omega)
  by_cases h12 : n < 25734
  · exact noHit_sound 11 24576 1158 noHit_chunk12 n (by omega) (by omega)
  by_cases h13 : n < 26624
  · exact noHit_sound 11 25735 889 noHit_chunk13 n (by omega) (by omega)
  by_cases h14 : n < 28672
  · exact noHit_sound 11 26624 2048 noHit_chunk14 n (by omega) (by omega)
  by_cases h15 : n < 30720
  · exact noHit_sound 11 28672 2048 noHit_chunk15 n (by omega) (by omega)
  by_cases h16 : n < 32768
  · exact noHit_sound 11 30720 2048 noHit_chunk16 n (by omega) (by omega)
  omega

/-- Among the candidates of the domain only `25734` yields `6`. -/
theorem trial_unique (r7 : Int) (h : InRange r7) (hq : (memoAck 4 1 r7 Memo.empty).1 = 6) :
    r7 = 25734 := by
  rw [trial_eq_ack41c r7 h] at hq
  have hq' : ack41c r7.toNat = 6 := by exact_mod_cast hq
  unfold InRange MOD at h
  by_contra hne
  exact ack41c_ne r7.toNat (by omega) (by omega) hq'

/-! ## The recursion of the evaluator ends -/

/-- With enough fuel the bounded evaluator returns what `memoAck` returns, for all
arguments and every table. -/
theorem memoAckF_total (r0 r1 r7 : Int) (memo : Memo) :
    ∃ N, ∀ fuel, N ≤ fuel → memoAckF fuel r0 r1 r7 memo = some (memoAck r0 r1 r7 memo) := by
  induction r0, r1, r7, memo using memoAck.induct with
  | case1 r0 r1 r7 memo res h =>
    refine ⟨1, fun fuel hf => ?_⟩
    obtain ⟨f, rfl⟩ : ∃ f, fuel = f + 1 := ⟨fuel - 1, by omega⟩
    rw [memoAckF, h, memoAck_hit _ _ _ _ _ h]
  | case2 r1 r7 memo h =>
    refine ⟨1, fun fuel hf => ?_⟩
    obtain ⟨f, rfl⟩ : ∃ f, fuel = f + 1 := ⟨fuel - 1, by omega⟩
    rw [memoAckF, h, memoAck_base _ _ _ h]
    simp
  | case3 r0 r7 memo h0 h ih =>
    obtain ⟨N, hN⟩ := ih
    refine ⟨N + 1, fun fuel hf => ?_⟩
    obtain ⟨f, rfl⟩ : ∃ f, fuel = f + 1 := ⟨fuel - 1, by omega⟩
    rw [memoAckF, h, memoAck_left _ _ _ h h0 _ rfl]
    simp only [h0, if_false, if_true, hN f (by omega)]
  | case4 r0 r1 r7 memo h h0 h1 p m1 ihp ihq =>
    obtain ⟨N1, hN1⟩ := ihp
    obtain ⟨N2, hN2⟩ := ihq
    refine ⟨max N1 N2 + 1, fun fuel hf => ?_⟩
    obtain ⟨f, rfl⟩ : ∃ f, fuel = f + 1 := ⟨fuel - 1, by omega⟩
    have f1 : N1 ≤ f := by have := le_max_left N1 N2; omega
    have f2 : N2 ≤ f := by have := le_max_right N1 N2; omega
    rw [memoAckF, h, memoAck_both _ _ _ _ h h0 h1 _ _ rfl rfl]
    simp only [h0, h1, if_false, hN1 f f1]
    simp only [p, m1] at hN2
    simp only [hN2 f f2]

/-! ## Existing entries keep their value -/

theorem Sound.set_keeps {r7 : Nat} {m : Memo} (hs : Sound r7 m) (a b : Nat)
    (k : String) (v : Int) (h : m k = some v) :
    (m.set (toKey a b) (ackRef r7 a b)) k = some v := by
  by_cases e : k = toKey a b
  · rw [e] at h ⊢
    rw [Memo.set_self, hs a b v h]
  · rw [Memo.set_other _ _ _ _ e]; exact h

/-- On a sound table, a call on a pair of the domain leaves every entry that was there
with the value it had. -/
theorem memoAck_keeps_entries (r7 : Nat) (hr7 : r7 < 32768) :
    ∀ (a b : Nat) (memo : Memo), a < 32768 → b < 32768 → Sound r7 memo →
      ∀ k v, memo k = some v → (memoAck a b r7 memo).2 k = some v := by
  intro a
  induction a with
  | zero =>
    intro b memo _ hb hs k v hk
    cases hm : memo (toKey ((0 : Nat) : Int) b) with
    | some w =>
      rw [memoAck_hit _ _ _ _ _ hm]; exact hk
    | none =>
      have hv : ((b : Int) + 1).tmod MOD = (ackRef r7 0 b : Int) := by
        rw [succ_tmod _ (by omega), ackRef]; push_cast; rfl
      have e := memoAck_base (b : Int) r7 memo hm
      simp only [Nat.cast_zero] at e ⊢
      rw [e, hv]
      simpa using hs.set_keeps 0 b k v hk
  | succ a iha =>
    intro b
    induction b with
    | zero =>
      intro memo ha _ hs k v hk
      cases hm : memo (toKey ((a + 1 : Nat) : Int) ((0 : Nat) : Int)) with
      | some w =>
        rw [memoAck_hit _ _ _ _ _ hm]; exact hk
      | none =>
        have h0 : ((a + 1 : Nat) : Int) ≠ 0 := by push_cast; omega
        have e := memoAck_left _ (r7 : Int) memo hm h0 _ rfl
        rw [cast_pred a ha] at e
        obtain ⟨i1, i2⟩ := memoAck_sound r7 hr7 a r7 memo (by omega) hr7 hs
        have i3 := iha r7 memo (by omega) hr7 hs k v hk
        simp only [Nat.cast_zero] at e ⊢
        rw [e, i1]
        exact i2.set_keeps a r7 k v i3
    | succ b ihb =>
      intro memo ha hb hs k v hk
      cases hm : memo (toKey ((a + 1 : Nat) : Int) ((b + 1 : Nat) : Int)) with
      | some w =>
        rw [memoAck_hit _ _ _ _ _ hm]; exact hk
      | none =>
        have h0 : ((a + 1 : Nat) : Int) ≠ 0 := by push_cast; omega
        have h1 : ((b + 1 : Nat) : Int) ≠ 0 := by push_cast; omega
        have e := memoAck_both _ _ (r7 : Int) memo hm h0 h1 _ _ rfl rfl
        rw [cast_pred a ha, cast_pred b hb] at e
        obtain ⟨i1, i2⟩ := memoAck_sound r7 hr7 (a + 1) b memo ha (by omega) hs
        have i3 := ihb memo ha (by omega) hs k v hk
        rw [i1] at e
        have i4 := i2.set_keeps (a + 1) b k v i3
        obtain ⟨j1, j2⟩ := memoAck_sound r7 hr7 a (ackRef r7 (a + 1) b) _ (by omega)
          (ackRef_lt _ _ _) (i2.after_set (a + 1) b)
        have j3 := iha (ackRef r7 (a + 1) b) _ (by omega) (ackRef_lt _ _ _)
          (i2.after_set (a + 1) b) k v i4
        rw [j1] at e
        rw [e]
        exact j2.set_keeps a _ k v j3

/-- The invariant of the table, for integer arguments of the domain. -/
theorem memoAck_invariant_int (r0 r1 r7 : Int) (memo : Memo) (h0 : InRange r0)
    (h1 : InRange r1) (h7 : InRange r7) (hs : Sound r7.toNat memo) :
    (memoAck r0 r1 r7 memo).1 = (ackRef r7.toNat r0.toNat r1.toNat : Int) ∧
    Sound r7.toNat (memoAck r0 r1 r7 memo).2 ∧
    ∀ k v, memo k = some v → (memoAck r0 r1 r7 memo).2 k = some v := by
  unfold InRange MOD at *
  have a := memoAck_sound r7.toNat (by omega) r0.toNat r1.toNat memo (by omega) (by omega) hs
  have b := memoAck_keeps_entries r7.toNat (by omega) r0.toNat r1.toNat memo (by omega)
    (by omega) hs
  rw [Int.toNat_of_nonneg h0.1, Int.toNat_of_nonneg h1.1, Int.toNat_of_nonneg h7.1] at a b
  exact ⟨a.1, a.2, b⟩

/-! ## The run of `main` -/

/-- A strictly increasing list whose members are exactly `a` is `[a]`. -/
theorem eq_singleton_of_pairwise (l : List Int) (a : Int)
    (hp : l.Pairwise (fun x y => x < y)) (hm : ∀ x, x ∈ l ↔ x = a) : l = [a] := by
  cases l with
  | nil => exact absurd ((hm a).2 rfl) (List.not_mem_nil a)
  | cons x t =>
    have hx : x = a := (hm x).1 (List.mem_cons_self _ _)
    cases t with
    | nil => rw [hx]
    | cons y u =>
      have hy : y = a := (hm y).1 (List.mem_cons_of_mem _ (List.mem_cons_self _ _))
      have hlt := (List.pairwise_cons.1 hp).1 y (List.mem_cons_self _ _)
      omega

theorem trial_25734_eq : (memoAck 4 1 25734 Memo.empty).1 = 6 := by
  have h := trial_eq_ack41 25734 (by decide)
  have e : (25734 : Int).toNat = 25734 := rfl
  rw [e, ack41_25734, trial] at h
  exact h

/-- An unstopped worker on a range within `[0, 32768)` that holds `25734` reports
`25734` and nothing else. -/
theorem reports_of_range (stop : Int → Bool) (start end_ : Int) (h0 : 0 ≤ start)
    (h1 : end_ ≤ 32768) (hin : start ≤ 25734 ∧ 25734 < end_)
    (hs : ∀ r, start ≤ r → r < end_ → stop r = false) :
    reports (rangeMemoAck stop start end_) = [25734] := by
  obtain ⟨i1, i2, _⟩ := rangeMemoAck_unstopped stop end_ _ start rfl hs
  apply eq_singleton_of_pairwise
  · rw [i2]
    apply List.Pairwise.filter
    unfold candidates
    rw [List.pairwise_map]
    exact (List.pairwise_lt_range _).imp (fun h => by omega)
  · intro x
    rw [i2, List.mem_filter, mem_candidates]
    simp only [decide_eq_true_eq]
    constructor
    · rintro ⟨⟨a, b⟩, c⟩
      exact trial_unique x ⟨by omega, by unfold MOD; omega⟩ c
    · intro e
      rw [e]
      exact ⟨hin, trial_25734_eq⟩

/-- A worker whose candidates below `t` do not qualify runs up to the top of the iteration
for `t` while `main` waits and `stopCh` stays open. -/
theorem worker_runs_to (end_ t : Int) (i : Nat) (ht : t ≤ end_) :
    ∀ (n : Nat) (r : Int) (w : Nat → Worker), (t - r).toNat = n → r ≤ t →
      w i = Worker.atTop r end_ →
      (∀ r7, r ≤ r7 → r7 < t → (memoAck 4 1 r7 Memo.empty).1 ≠ 6) →
      Reachable ⟨Coord.waiting, false, w⟩
        ⟨Coord.waiting, false, Function.update w i (Worker.atTop t end_)⟩ := by
  intro n
  induction n with
  | zero =>
    intro r w hn hle hw _
    have e : r = t := by omega
    rw [← e, ← hw, Function.update_eq_self]
    exact Relation.ReflTransGen.refl
  | succ n ih =>
    intro r w hn hle hw hno
    have h : r < end_ := by omega
    have st := Step.work ⟨Coord.waiting, false, w⟩ i r end_
      (fun res hc => Coord.noConfusion hc) hw
    simp only [Worker.next, h, if_true, Bool.false_eq_true, if_false,
      hno r (le_refl _) (by omega)] at st
    have rest := ih (r + 1) (Function.update w i (Worker.atTop (r + 1) end_)) (by omega)
      (by omega) (Function.update_same _ _ _) (fun r7 h1 h2 => hno r7 (by omega) h2)
    rw [Function.update_idem] at rest
    exact Relation.ReflTransGen.head st rest

/-- The program `main` can run until `main` has received `25734` and returned. -/
theorem main_can_return :
    ∃ s, Reachable mainSys s ∧ s.main = Coord.exited 25734 ∧ s.stopped = true := by
  have hw : mainSys.workers 6 = Worker.atTop 24576 28672 := rfl
  have run := worker_runs_to 28672 25734 6 (by decide) _ 24576 mainSys.workers rfl
    (by decide) hw (fun r7 h1 h2 hq => by
      have := trial_unique r7 ⟨by omega, by unfold MOD; omega⟩ hq
      omega)
  have st1 := Step.work ⟨Coord.waiting, false,
      Function.update mainSys.workers 6 (Worker.atTop 25734 28672)⟩ 6 25734 28672
    (fun res hc => Coord.noConfusion hc)
    (Function.update_same 6 (Worker.atTop 25734 28672) mainSys.workers)
  simp only [Worker.next, show (25734 : Int) < 28672 by decide, if_true,
    Bool.false_eq_true, if_false, trial_25734_eq, Function.update_idem] at st1
  have st2 := Step.recv ⟨Coord.waiting, false,
      Function.update mainSys.workers 6 (Worker.sending 25734 28672)⟩ 6 25734 28672
    rfl (Function.update_same 6 (Worker.sending 25734 28672) mainSys.workers)
  simp only [Function.update_idem] at st2
  have st3 := Step.close ⟨Coord.received 25734, false,
      Function.update mainSys.workers 6 (Worker.atTop (25734 + 1) 28672)⟩ 25734 rfl
  exact ⟨_, ((run.tail st1).tail st2).tail st3, rfl, rfl⟩

/-- Whatever the program does, a value a worker sends, and so a value `main` receives, is
a qualifying candidate of that worker's range. -/
theorem reachable_sound (K : Nat) (ranges : Nat → Int × Int) :
    ∀ s, Reachable (Sys.init K ranges) s →
      (∀ i, s.workers i = Worker.returned ∨
        (∃ r, i < K ∧ (ranges i).1 ≤ r ∧ s.workers i = Worker.atTop r (ranges i).2) ∨
        (∃ r, i < K ∧ (ranges i).1 ≤ r ∧ r < (ranges i).2 ∧
          (memoAck 4 1 r Memo.empty).1 = 6 ∧ s.workers i = Worker.sending r (ranges i).2)) ∧
      (∀ res, s.main = Coord.received res ∨ s.main = Coord.exited res →
        ∃ i, i < K ∧ (ranges i).1 ≤ res ∧ res < (ranges i).2 ∧
          (memoAck 4 1 res Memo.empty).1 = 6) := by
  intro s hs
  induction hs with
  | refl =>
    refine ⟨fun i => ?_, fun res h => ?_⟩
    · by_cases hi : i < K
      · right; left
        exact ⟨(ranges i).1, hi, le_refl _, by simp [Sys.init, hi]⟩
      · left; simp [Sys.init, hi]
    · rcases h with h | h <;> simp [Sys.init] at h
  | tail _ hstep ih =>
    obtain ⟨i1, i2⟩ := ih
    cases hstep with
    | work i r7 end_ _ h2 =>
      refine ⟨fun j => ?_, i2⟩
      by_cases hj : j = i
      · subst hj
        simp only [Function.update_same]
        rcases i1 j with h | ⟨r, hK, hr, h⟩ | ⟨r, _, _, _, _, h⟩
        · rw [h] at h2; cases h2
        · rw [h] at h2
          obtain ⟨e1, e2⟩ := Worker.atTop.inj h2
          rw [← e1, ← e2]
          simp only [Worker.next]
          by_cases hlt : r < (ranges j).2
          · simp only [hlt, if_true]
            split_ifs with hst hq
            · left; trivial
            · right; right
              exact ⟨r, hK, hr, hlt, hq, rfl⟩
            · right; left
              exact ⟨r + 1, hK, by omega, rfl⟩
          · simp only [hlt, if_false]
            left; trivial
        · rw [h] at h2; cases h2
      · simp only [Function.update_noteq hj]
        exact i1 j
    | recv i r7 end_ _ h2 =>
      refine ⟨fun j => ?_, fun res h => ?_⟩
      · by_cases hj : j = i
        · subst hj
          simp only [Function.update_same]
          rcases i1 j with h | ⟨r, _, _, h⟩ | ⟨r, hK, hr, _, _, h⟩
          · rw [h] at h2; cases h2
          · rw [h] at h2; cases h2
          · rw [h] at h2
            obtain ⟨e1, e2⟩ := Worker.sending.inj h2
            rw [← e1, ← e2]
            right; left
            exact ⟨r + 1, hK, by omega, rfl⟩
        · simp only [Function.update_noteq hj]
          exact i1 j
      · have e : res = r7 := by
          rcases h with h | h
          · exact (Coord.received.inj h).symm
          · cases h
        rcases i1 i with h | ⟨r, _, _, h⟩ | ⟨r, hK, hr, hlt, hq, h⟩
        · rw [h] at h2; cases h2
        · rw [h] at h2; cases h2
        · rw [h] at h2
          obtain ⟨e1, _⟩ := Worker.sending.inj h2
          rw [e, ← e1]
          exact ⟨i, hK, hr, hlt, hq⟩
    | close res h1 =>
      refine ⟨i1, fun res' h => ?_⟩
      have e : res' = res := by
        rcases h with h | h
        · cases h
        · exact (Coord.exited.inj h).symm
      rw [e]
      exact i2 res (Or.inl h1)

/-- Every value `main` receives is `25734`. -/
theorem main_result (s : Sys) (res : Int) (hs : Reachable mainSys s)
    (h : s.main = Coord.received res ∨ s.main = Coord.exited res) : res = 25734 := by
  obtain ⟨i, hi, a, b, c⟩ := (reachable_sound _ _ s hs).2 res h
  have hi8 : i < 8 := hi
  rw [workerRange_val] at a b
  simp only at a b
  exact trial_unique res ⟨by omega, by unfold MOD; omega⟩ c


/-- While `main` waits, `stopCh` is open and the worker of `25734` has not gone past it. -/
theorem reachable_waiting :
    ∀ s, Reachable mainSys s → (∀ res, s.main ≠ Coord.exited res) →
      s.stopped = false ∧ (s.main = Coord.waiting →
        (∃ r, 24576 ≤ r ∧ r ≤ 25734 ∧ s.workers 6 = Worker.atTop r 28672) ∨
          s.workers 6 = Worker.sending 25734 28672) := by
  intro s hs
  induction hs with
  | refl =>
    intro _
    exact ⟨rfl, fun _ => Or.inl ⟨24576, le_refl _, by decide, rfl⟩⟩
  | tail _ hstep ih =>
    cases hstep with
    | work i r7 end_ h1 h2 =>
      intro hne
      obtain ⟨i1, i2⟩ := ih hne
      refine ⟨i1, fun hm => ?_⟩
      by_cases hj : i = 6
      · subst hj
        simp only [Function.update_same]
        rcases i2 hm with ⟨r, a, b, h⟩ | h
        · rw [h] at h2
          obtain ⟨e1, e2⟩ := Worker.atTop.inj h2
          rw [← e1, ← e2, i1]
          simp only [Worker.next, show r < 28672 by omega, if_true, Bool.false_eq_true,
            if_false]
          by_cases hq : (memoAck 4 1 r Memo.empty).1 = 6
          · have e := trial_unique r ⟨by omega, by unfold MOD; omega⟩ hq
            rw [if_pos hq, e]
            exact Or.inr rfl
          · rw [if_neg hq]
            have hr : r ≠ 25734 := fun e => hq (e ▸ trial_25734_eq)
            exact Or.inl ⟨r + 1, by omega, by omega, rfl⟩
        · rw [h] at h2; cases h2
      · have hj' : (6 : Nat) ≠ i := fun e => hj e.symm
        simp only [Function.update_noteq hj']
        exact i2 hm
    | recv i r7 end_ h1 h2 =>
      intro hne
      exact ⟨(ih (fun res hc => by rw [h1] at hc; cases hc)).1, fun hm => by cases hm⟩
    | close res h1 =>
      intro hne
      exact absurd rfl (hne res)

/-- The program does not stop before `main` has returned: in every state it reaches, a
step is enabled or `main` has returned `25734`. -/
theorem stuck_exited (s : Sys) (hs : Reachable mainSys s) (hstuck : ∀ t, ¬ Step s t) :
    s.main = Coord.exited 25734 := by
  cases hm : s.main with
  | waiting =>
    exfalso
    have hne : ∀ res, s.main ≠ Coord.exited res := fun res hc => by rw [hm] at hc; cases hc
    rcases (reachable_waiting s hs hne).2 hm with ⟨r, _, _, h⟩ | h
    · exact hstuck _ (Step.work s 6 r 28672 hne h)
    · exact hstuck _ (Step.recv s 6 25734 28672 hm h)
  | received res => exact absurd (Step.close s res hm) (hstuck _)
  | exited res => rw [main_result s res hs (Or.inr hm)]

/-- Every step of the program uses up some of what is left. -/
theorem step_left (K : Nat) (s t : Sys) (hK : ∀ i, K ≤ i → s.workers i = Worker.returned)
    (h : Step s t) : Sys.left K t < Sys.left K s := by
  have upd : ∀ (w : Nat → Worker) (i : Nat) (x : Worker), i < K → x.left < (w i).left →
      ∑ j in Finset.range K, (Function.update w i x j).left <
        ∑ j in Finset.range K, (w j).left := by
    intro w i x hi hx
    have hmem : i ∈ Finset.range K := Finset.mem_range.2 hi
    rw [← Finset.add_sum_erase _ _ hmem,
      ← Finset.add_sum_erase _ (fun j => (w j).left) hmem]
    have e : ∑ j in (Finset.range K).erase i, (Function.update w i x j).left =
        ∑ j in (Finset.range K).erase i, (w j).left :=
      Finset.sum_congr rfl (fun j hj => by
        rw [Function.update_noteq (Finset.ne_of_mem_erase hj)])
    rw [e, Function.update_same]
    exact Nat.add_lt_add_right hx _
  have lt : ∀ i, s.workers i ≠ Worker.returned → i < K := fun i hne => by
    by_contra hc
    exact hne (hK i (by omega))
  cases h with
  | work i r7 end_ h1 h2 =>
    have hi := lt i (by rw [h2]; exact fun hc => Worker.noConfusion hc)
    unfold Sys.left
    apply Nat.add_lt_add_left
    apply upd _ _ _ hi
    rw [h2]
    simp only [Worker.next]
    split_ifs <;> simp only [Worker.left] <;> omega
  | recv i r7 end_ h1 h2 =>
    have hi := lt i (by rw [h2]; exact fun hc => Worker.noConfusion hc)
    unfold Sys.left
    have := upd s.workers i (Worker.atTop (r7 + 1) end_) hi (by
      rw [h2]; simp only [Worker.left]
      have : end_ - (r7 + 1) = end_ - r7 - 1 := by omega
      rw [this]; omega)
    rw [h1]
    simp only [Coord.left]
    omega
  | close res h1 =>
    unfold Sys.left
    rw [h1]
    simp only [Coord.left]
    omega

/-- The program cannot run forever. -/
theorem no_infinite_run (f : Nat → Sys) (h0 : f 0 = mainSys)
    (hstep : ∀ n, Step (f n) (f (n + 1))) : False := by
  have hr : ∀ n, Reachable mainSys (f n) := by
    intro n
    induction n with
    | zero => rw [h0]; exact Relation.ReflTransGen.refl
    | succ n ih => exact ih.tail (hstep n)
  have hK : ∀ n i, 8 ≤ i → (f n).workers i = Worker.returned := by
    intro n i hi
    rcases (reachable_sound _ _ (f n) (hr n)).1 i with h | ⟨_, hlt, _⟩ | ⟨_, hlt, _⟩
    · exact h
    · have : i < 8 := hlt
      omega
    · have : i < 8 := hlt
      omega
  have hd : ∀ n, Sys.left 8 (f n) + n ≤ Sys.left 8 (f 0) := by
    intro n
    induction n with
    | zero => exact le_refl _
    | succ n ih =>
      have := step_left 8 _ _ (hK n) (hstep n)
      omega
  have := hd (Sys.left 8 (f 0) + 1)
  omega

/-! # Properties of the search -/

/-- C2. On an empty table `memoAck(4, 1, 25734, memo)` returns 6, so the trial of 25734
qualifies; 25734 lies in the range `[24576, 28672)` of worker 6; that worker, run without
being stopped, reports 25734 and nothing else; and the program of `main` with its eight
workers can only receive and return 25734, can do so, cannot stop before it has, and
cannot run forever. -/
theorem search_returns_25734 :
    (memoAck 4 1 25734 Memo.empty).1 = 6 ∧ trial 25734 = 6 ∧
      workerRange 6 = (24576, 28672) ∧
      (workerRange 6).1 ≤ 25734 ∧ 25734 < (workerRange 6).2 ∧
      (∀ stop : Int → Bool,
        (∀ r, (workerRange 6).1 ≤ r → r < (workerRange 6).2 → stop r = false) →
        reports (rangeMemoAck stop (workerRange 6).1 (workerRange 6).2) = [25734]) ∧
      (∀ s res, Reachable mainSys s →
        s.main = Coord.received res ∨ s.main = Coord.exited res → res = 25734) ∧
      (∃ s, Reachable mainSys s ∧ s.main = Coord.exited 25734 ∧ s.stopped = true) ∧
      (∀ s, Reachable mainSys s → (∀ t, ¬ Step s t) → s.main = Coord.exited 25734) ∧
      ¬ ∃ f : Nat → Sys, f 0 = mainSys ∧ ∀ n, Step (f n) (f (n + 1)) := by
  have h6 : trial 25734 = 6 := by rw [trial]; exact trial_25734_eq
  have hr : workerRange 6 = (24576, 28672) := by rw [workerRange_val]; rfl
  refine ⟨trial_25734_eq, h6, hr, by decide, by decide, ?_,
    fun s res hs h => main_result s res hs h, main_can_return, stuck_exited, ?_⟩
  · rw [hr]
    intro stop hs
    exact reports_of_range stop 24576 28672 (by decide) (by decide)
      ⟨by decide, by decide⟩ hs
  · rintro ⟨f, h0, hstep⟩
    exact no_infinite_run f h0 hstep

/-- The witness of C2: worker 6, never stopped, reports exactly 25734. -/
theorem search_returns_25734_witness :
    reports (rangeMemoAck (fun _ => false) (workerRange 6).1 (workerRange 6).2) =
      [25734] :=
  search_returns_25734.2.2.2.2.2.1 (fun _ => false) (fun _ _ _ => rfl)

/-- C11. With `MOD = 32768` and `GOROUTINES_NUM = 8`, a value lies in `[0, 32768)` exactly
when it lies in the range `[MOD/8*i, MOD/8*(i+1))` of some worker `i` of `0..7`, and no
value lies in the ranges of two workers: the ranges are pairwise disjoint and their union
is `[0, 32768)`. -/
theorem worker_ranges_partition (v : Int) :
    (InRange v ↔ ∃ i, 0 ≤ i ∧ i < GOROUTINES_NUM ∧
      (workerRange i).1 ≤ v ∧ v < (workerRange i).2) ∧
    (∀ i j, 0 ≤ i → i < GOROUTINES_NUM → 0 ≤ j → j < GOROUTINES_NUM →
      (workerRange i).1 ≤ v → v < (workerRange i).2 →
      (workerRange j).1 ≤ v → v < (workerRange j).2 → i = j) := by
  refine ⟨⟨fun h => ?_, fun h => ?_⟩, ?_⟩
  · unfold InRange MOD at h
    refine ⟨v / 4096, ?_, ?_, ?_, ?_⟩
    · omega
    · unfold GOROUTINES_NUM; omega
    · rw [workerRange_val]; show 4096 * (v / 4096) ≤ v; omega
    · rw [workerRange_val]; show v < 4096 * (v / 4096 + 1); omega
  · obtain ⟨i, h0, h1, h2, h3⟩ := h
    rw [workerRange_val] at h2 h3
    unfold GOROUTINES_NUM at h1
    unfold InRange MOD
    simp only at h2 h3
    omega
  · intro i j _ _ _ _ a1 a2 b1 b2
    rw [workerRange_val] at a1 a2 b1 b2
    simp only at a1 a2 b1 b2
    omega

/-- C12, as stated, fails: with `M = 10` and `K = 3` the ranges are `[0,3)`, `[3,6)` and
`[6,9)`, and the value `9` of `[0, 10)` is assigned to no worker. -/
theorem partition_gap :
    (1 : Int) ≤ 3 ∧ (1 : Int) ≤ 10 ∧ (0 : Int) ≤ 9 ∧ (9 : Int) < 10 ∧
      ∀ i : Int, 0 ≤ i → i < 3 → ¬ Assigned 10 3 i 9 := by
  refine ⟨by decide, by decide, by decide, by decide, ?_⟩
  intro i _ h3
  exact unassigned_tail 10 3 9 i (by decide) (by decide) h3 (by decide)

/-- C12, amended. For `K ≥ 1` workers and a bound `M ≥ 1`, the ranges
`[M/K*i, M/K*(i+1))` of the workers `i = 0..K-1` assign no value to more than one worker
and assign every value of `[0, M/K*K)` to exactly one worker; the values of
`[M/K*K, M)` are assigned to no worker. When `K` divides `M`, every value of `[0, M)`
is assigned to exactly one worker. -/
theorem partition_general (M K : Int) (hM : 1 ≤ M) (hK : 1 ≤ K) :
    (∀ v i j, Assigned M K i v → Assigned M K j v → i = j) ∧
    (∀ v, 0 ≤ v → v < M.tdiv K * K →
      ∃ i, 0 ≤ i ∧ i < K ∧ Assigned M K i v ∧ ∀ j, Assigned M K j v → j = i) ∧
    (∀ v i, M.tdiv K * K ≤ v → 0 ≤ i → i < K → ¬ Assigned M K i v) ∧
    M.tdiv K * K ≤ M ∧
    (M.tmod K = 0 → ∀ v, 0 ≤ v → v < M →
      ∃ i, 0 ≤ i ∧ i < K ∧ Assigned M K i v ∧ ∀ j, Assigned M K j v → j = i) := by
  have ex : ∀ v, 0 ≤ v → v < M.tdiv K * K →
      ∃ i, 0 ≤ i ∧ i < K ∧ Assigned M K i v ∧ ∀ j, Assigned M K j v → j = i := by
    intro v h0 hv
    obtain ⟨i, i0, i1, i2⟩ := assigned_exists M K v hM hK h0 hv
    exact ⟨i, i0, i1, i2, fun j hj => assigned_unique M K j i v hj i2⟩
  refine ⟨fun v i j hi hj => assigned_unique M K i j v hi hj, ex,
    fun v i hv _ hi => unassigned_tail M K v i hK hM hi hv, tdiv_mul_le M K hM, ?_⟩
  intro hd v h0 hv
  exact ex v h0 (by rw [tdiv_mul_of_dvd M K hd]; exact hv)

theorem partition_general_witness :
    (1 : Int) ≤ 10 ∧ (1 : Int) ≤ 3 ∧
    ((∀ v i j, Assigned 10 3 i v → Assigned 10 3 j v → i = j) ∧
    (∀ v, 0 ≤ v → v < (10 : Int).tdiv 3 * 3 →
      ∃ i, 0 ≤ i ∧ i < 3 ∧ Assigned 10 3 i v ∧ ∀ j, Assigned 10 3 j v → j = i) ∧
    (∀ v i, (10 : Int).tdiv 3 * 3 ≤ v → 0 ≤ i → i < 3 → ¬ Assigned 10 3 i v) ∧
    (10 : Int).tdiv 3 * 3 ≤ 10 ∧
    ((10 : Int).tmod 3 = 0 → ∀ v, 0 ≤ v → v < 10 →
      ∃ i, 0 ≤ i ∧ i < 3 ∧ Assigned 10 3 i v ∧ ∀ j, Assigned 10 3 j v → j = i)) :=
  ⟨by decide, by decide, partition_general 10 3 (by decide) (by decide)⟩

/-- C13. A worker on a range `0 ≤ start ≤ end ≤ 32768` that never finds the cancellation
signal raised evaluates the candidates of `[start, end)` in increasing order, each on a
fresh empty table; every value it reports is an `r7` of `[start, end)` with
`memoAck(4, 1, r7, {}) = 6`; the first value it reports is the smallest such `r7`; and it
reports nothing when no candidate of the range qualifies. -/
theorem worker_unstopped (stop : Int → Bool) (start end_ : Int) (_h0 : 0 ≤ start)
    (_h1 : start ≤ end_) (_h2 : end_ ≤ 32768)
    (hs : ∀ r, start ≤ r → r < end_ → stop r = false) :
    evals (rangeMemoAck stop start end_) = candidates start end_ ∧
    (evals (rangeMemoAck stop start end_)).Pairwise (fun a b => a < b) ∧
    (∀ e ∈ rangeMemoAck stop start end_, ∀ r res, e = WEvent.eval r res →
      res = (memoAck 4 1 r Memo.empty).1) ∧
    (∀ r ∈ reports (rangeMemoAck stop start end_),
      start ≤ r ∧ r < end_ ∧ (memoAck 4 1 r Memo.empty).1 = 6) ∧
    (∀ r, start ≤ r → r < end_ → (memoAck 4 1 r Memo.empty).1 = 6 →
      r ∈ reports (rangeMemoAck stop start end_)) ∧
    (∀ r, (reports (rangeMemoAck stop start end_)).head? = some r →
      ∀ r', start ≤ r' → r' < r → (memoAck 4 1 r' Memo.empty).1 ≠ 6) ∧
    ((∀ r, start ≤ r → r < end_ → (memoAck 4 1 r Memo.empty).1 ≠ 6) →
      reports (rangeMemoAck stop start end_) = []) := by
  obtain ⟨i1, i2, i3⟩ := rangeMemoAck_unstopped stop end_ _ start rfl hs
  have mem : ∀ r, r ∈ reports (rangeMemoAck stop start end_) ↔
      (start ≤ r ∧ r < end_) ∧ (memoAck 4 1 r Memo.empty).1 = 6 := by
    intro r
    rw [i2, List.mem_filter, mem_candidates]
    simp
  refine ⟨i1, ?_, i3, fun r hr => ?_, fun r a b c => (mem r).2 ⟨⟨a, b⟩, c⟩,
    fun r hr => (first_report_least stop end_ _ start rfl hs r hr).2.2.2, fun hno => ?_⟩
  · rw [i1]
    unfold candidates
    rw [List.pairwise_map]
    exact (List.pairwise_lt_range _).imp (fun h => by omega)
  · obtain ⟨⟨a, b⟩, c⟩ := (mem r).1 hr
    exact ⟨a, b, c⟩
  · rw [List.eq_nil_iff_forall_not_mem]
    intro r hr
    obtain ⟨⟨a, b⟩, c⟩ := (mem r).1 hr
    exact hno r a b c

theorem worker_unstopped_witness :
    (0 : Int) ≤ 24576 ∧ (24576 : Int) ≤ 28672 ∧ (28672 : Int) ≤ 32768 ∧
    (∀ r : Int, 24576 ≤ r → r < 28672 → (fun _ => false) r = false) ∧
    (evals (rangeMemoAck (fun _ => false) 24576 28672) = candidates 24576 28672 ∧
    (evals (rangeMemoAck (fun _ => false) 24576 28672)).Pairwise (fun a b => a < b) ∧
    (∀ e ∈ rangeMemoAck (fun _ => false) 24576 28672, ∀ r res, e = WEvent.eval r res →
      res = (memoAck 4 1 r Memo.empty).1) ∧
    (∀ r ∈ reports (rangeMemoAck (fun _ => false) 24576 28672),
      24576 ≤ r ∧ r < 28672 ∧ (memoAck 4 1 r Memo.empty).1 = 6) ∧
    (∀ r, 24576 ≤ r → r < 28672 → (memoAck 4 1 r Memo.empty).1 = 6 →
      r ∈ reports (rangeMemoAck (fun _ => false) 24576 28672)) ∧
    (∀ r, (reports (rangeMemoAck (fun _ => false) 24576 28672)).head? = some r →
      ∀ r', 24576 ≤ r' → r' < r → (memoAck 4 1 r' Memo.empty).1 ≠ 6) ∧
    ((∀ r, 24576 ≤ r → r < 28672 → (memoAck 4 1 r Memo.empty).1 ≠ 6) →
      reports (rangeMemoAck (fun _ => false) 24576 28672) = [])) :=
  ⟨by decide, by decide, by decide, fun _ _ _ => rfl,
    worker_unstopped (fun _ => false) 24576 28672 (by decide) (by decide) (by decide)
      (fun _ _ _ => rfl)⟩

/-- C14, as stated, fails: a worker on `[25734, 25736)` that does not find the signal
raised reports `25734` and then goes on to evaluate the candidate `25735`. -/
theorem worker_goes_on :
    rangeMemoAck (fun _ => false) 25734 25736 =
      [WEvent.eval 25734 6, WEvent.report 25734, WEvent.eval 25735 24263] := by
  have q0 : (memoAck 4 1 25734 Memo.empty).1 = 6 := by
    have h := trial_eq_ack41 25734 (by decide)
    have e : (25734 : Int).toNat = 25734 := rfl
    rw [e, ack41_25734, trial] at h
    exact h
  have q1 : (memoAck 4 1 25735 Memo.empty).1 = 24263 := by
    have h := trial_eq_ack41c 25735 (by decide)
    have e : (25735 : Int).toNat = 25735 := rfl
    rw [e, ack41c_25735] at h
    exact h
  have a1 : (25734 : Int) + 1 = 25735 := by decide
  have a2 : (25735 : Int) + 1 = 25736 := by decide
  rw [rangeMemoAck_hit _ _ _ (by decide) rfl q0, a1,
    rangeMemoAck_miss _ _ _ (by decide) rfl (by rw [q1]; decide), a2,
    rangeMemoAck_done _ _ _ (by decide), q0, q1]

/-- C14, amended. Once a worker has found a qualifying `r7` and its report has been
delivered, it goes on with the iteration for `r7 + 1`: it returns there, without
evaluating a further candidate, when its range is exhausted or it finds the cancellation
signal raised, and otherwise it evaluates `r7 + 1`. On a range within `[0, 32768)` it
reports at most one value all the same, `25734` being the only candidate that
qualifies. -/
theorem worker_after_report (stop : Int → Bool) (r7 end_ : Int) (h : r7 < end_)
    (hs : stop r7 = false) (hq : (memoAck 4 1 r7 Memo.empty).1 = 6) :
    rangeMemoAck stop r7 end_ =
      WEvent.eval r7 6 :: WEvent.report r7 :: rangeMemoAck stop (r7 + 1) end_ ∧
    ((end_ ≤ r7 + 1 ∨ stop (r7 + 1) = true) → rangeMemoAck stop (r7 + 1) end_ = []) ∧
    (r7 + 1 < end_ → stop (r7 + 1) = false →
      ∃ t, rangeMemoAck stop (r7 + 1) end_ =
        WEvent.eval (r7 + 1) (memoAck 4 1 (r7 + 1) Memo.empty).1 :: t) ∧
    (0 ≤ r7 → end_ ≤ 32768 → reports (rangeMemoAck stop (r7 + 1) end_) = []) := by
  refine ⟨?_, ?_, ?_, ?_⟩
  · rw [rangeMemoAck_hit _ _ _ h hs hq, hq]
  · intro hc
    by_cases hlt : r7 + 1 < end_
    · rcases hc with hc | hc
      · omega
      · exact rangeMemoAck_stop _ _ _ hlt hc
    · exact rangeMemoAck_done _ _ _ hlt
  · intro hlt hs'
    by_cases hq' : (memoAck 4 1 (r7 + 1) Memo.empty).1 = 6
    · exact ⟨_, rangeMemoAck_hit _ _ _ hlt hs' hq'⟩
    · exact ⟨_, rangeMemoAck_miss _ _ _ hlt hs' hq'⟩
  · intro h0 he
    have e7 : r7 = 25734 := trial_unique r7 ⟨h0, by unfold MOD; omega⟩ hq
    rw [List.eq_nil_iff_forall_not_mem]
    intro r hr
    obtain ⟨a, b, c⟩ := reports_qualify stop end_ _ (r7 + 1) rfl r hr
    have := trial_unique r ⟨by omega, by unfold MOD; omega⟩ c
    omega

theorem worker_after_report_witness :
    (25734 : Int) < 28672 ∧ (fun (_ : Int) => false) 25734 = false ∧
    (memoAck 4 1 25734 Memo.empty).1 = 6 ∧
    (rangeMemoAck (fun _ => false) 25734 28672 =
      WEvent.eval 25734 6 :: WEvent.report 25734 ::
        rangeMemoAck (fun _ => false) (25734 + 1) 28672 ∧
    (((28672 : Int) ≤ 25734 + 1 ∨ (fun (_ : Int) => false) (25734 + 1) = true) →
      rangeMemoAck (fun _ => false) (25734 + 1) 28672 = []) ∧
    ((25734 : Int) + 1 < 28672 → (fun (_ : Int) => false) (25734 + 1) = false →
      ∃ t, rangeMemoAck (fun _ => false) (25734 + 1) 28672 =
        WEvent.eval (25734 + 1) (memoAck 4 1 (25734 + 1) Memo.empty).1 :: t) ∧
    ((0 : Int) ≤ 25734 → (28672 : Int) ≤ 32768 →
      reports (rangeMemoAck (fun _ => false) (25734 + 1) 28672) = [])) :=
  have q0 : (memoAck 4 1 25734 Memo.empty).1 = 6 := by
    have h := trial_eq_ack41 25734 (by decide)
    have e : (25734 : Int).toNat = 25734 := rfl
    rw [e, ack41_25734, trial] at h
    exact h
  ⟨by decide, rfl, q0, worker_after_report (fun _ => false) 25734 28672 (by decide) rfl q0⟩

/-- C15. A worker that finds the cancellation signal raised at the top of the iteration
for `r7` returns at once: it neither evaluates nor reports that candidate or a later one.
In particular a worker started after the cancellation evaluates no candidate. -/
theorem worker_cancelled (stop : Int → Bool) (start end_ r7 : Int) (h : start ≤ r7)
    (hs : stop r7 = true) :
    rangeMemoAck stop r7 end_ = [] ∧
    (∀ e ∈ rangeMemoAck stop start end_, e.cand < r7) ∧
    (r7 = start → evals (rangeMemoAck stop start end_) = [] ∧
      reports (rangeMemoAck stop start end_) = []) := by
  have e0 : rangeMemoAck stop r7 end_ = [] := by
    by_cases hlt : r7 < end_
    · exact rangeMemoAck_stop _ _ _ hlt hs
    · exact rangeMemoAck_done _ _ _ hlt
  refine ⟨e0, rangeMemoAck_cancelled stop end_ r7 hs _ start rfl h, fun e => ?_⟩
  rw [← e, e0]
  exact ⟨rfl, rfl⟩

theorem worker_cancelled_witness :
    (0 : Int) ≤ 100 ∧ (fun (r : Int) => decide (100 ≤ r)) 100 = true ∧
    (rangeMemoAck (fun r => decide (100 ≤ r)) 100 4096 = [] ∧
    (∀ e ∈ rangeMemoAck (fun r => decide (100 ≤ r)) 0 4096, e.cand < 100) ∧
    ((100 : Int) = 0 → evals (rangeMemoAck (fun r => decide (100 ≤ r)) 0 4096) = [] ∧
      reports (rangeMemoAck (fun r => decide (100 ≤ r)) 0 4096) = [])) :=
  ⟨by decide, by decide,
    worker_cancelled (fun r => decide (100 ≤ r)) 0 4096 100 (by decide) (by decide)⟩

/-- C16, as stated, fails: with one worker on the range `[0, 1)`, whose only candidate
does not qualify, the program reaches a state in which the worker has returned without
reporting, `main` is still blocked in its receive and no step is left: `main` never
produces an outcome, and no "not found" in particular. -/
theorem main_blocks_forever :
    (memoAck 4 1 0 Memo.empty).1 ≠ 6 ∧
    ∃ s, Reachable (Sys.init 1 (fun _ => (0, 1))) s ∧
      (∀ i, s.workers i = Worker.returned) ∧ s.main = Coord.waiting ∧
      s.stopped = false ∧ ∀ s', ¬ Step s s' := by
  have q0 : (memoAck 4 1 0 Memo.empty).1 ≠ 6 := by
    rw [trial_eq_ack41c 0 (by decide)]
    have e : (0 : Int).toNat = 0 := rfl
    rw [e]
    decide
  have hno : ∀ i, i < 1 → ∀ r7 : Int, ((fun _ => ((0 : Int), (1 : Int))) i).1 ≤ r7 →
      r7 < ((fun _ => ((0 : Int), (1 : Int))) i).2 → (memoAck 4 1 r7 Memo.empty).1 ≠ 6 := by
    intro i _ r7 h1 h2
    have e : r7 = 0 := by simp only at h1 h2; omega
    rw [e]; exact q0
  exact ⟨q0, ⟨Coord.waiting, false, fun _ => Worker.returned⟩,
    reachable_exhausted 1 _ hno, fun _ => rfl, rfl, rfl,
    step_stuck _ rfl (fun _ => rfl)⟩

/-- C16, amended. If no candidate of the workers' ranges yields the target value, every
worker can exhaust its range without reporting, and `main` produces no outcome: in every
state the program reaches `main` is blocked in its receive on the result channel with
`stopCh` open, and once all workers have returned no step of the program is left. -/
theorem coordinator_blocked (K : Nat) (ranges : Nat → Int × Int)
    (hno : ∀ i, i < K → ∀ r7, (ranges i).1 ≤ r7 → r7 < (ranges i).2 →
      (memoAck 4 1 r7 Memo.empty).1 ≠ 6) :
    Reachable (Sys.init K ranges) ⟨Coord.waiting, false, fun _ => Worker.returned⟩ ∧
    (∀ s, Reachable (Sys.init K ranges) s → s.main = Coord.waiting ∧ s.stopped = false) ∧
    (∀ s, Reachable (Sys.init K ranges) s → (∀ i, s.workers i = Worker.returned) →
      ∀ s', ¬ Step s s') := by
  refine ⟨reachable_exhausted K ranges hno, fun s hs => ?_, fun s hs hw => ?_⟩
  · obtain ⟨a, b, _⟩ := reachable_blocked K ranges hno s hs
    exact ⟨a, b⟩
  · exact step_stuck s (reachable_blocked K ranges hno s hs).1 hw

theorem coordinator_blocked_witness :
    (∀ i, i < 6 → ∀ r7, (workerRange (i : Nat)).1 ≤ r7 → r7 < (workerRange (i : Nat)).2 →
      (memoAck 4 1 r7 Memo.empty).1 ≠ 6) ∧
    (Reachable (Sys.init 6 (fun i => workerRange i))
      ⟨Coord.waiting, false, fun _ => Worker.returned⟩ ∧
    (∀ s, Reachable (Sys.init 6 (fun i => workerRange i)) s →
      s.main = Coord.waiting ∧ s.stopped = false) ∧
    (∀ s, Reachable (Sys.init 6 (fun i => workerRange i)) s →
      (∀ i, s.workers i = Worker.returned) → ∀ s', ¬ Step s s')) :=
  have hno : ∀ i, i < 6 → ∀ r7, (workerRange (i : Nat)).1 ≤ r7 →
      r7 < (workerRange (i : Nat)).2 → (memoAck 4 1 r7 Memo.empty).1 ≠ 6 := by
    intro i hi r7 h1 h2 hq
    rw [workerRange_val] at h1 h2
    simp only at h1 h2
    have := trial_unique r7 ⟨by omega, by unfold MOD; omega⟩ hq
    omega
  ⟨hno, coordinator_blocked 6 (fun i => workerRange i) hno⟩

/-- C17. No candidate `r7` of `[0, 25734)` yields the target: `memoAck(4, 1, r7, {})` is
different from `6`. -/
theorem no_smaller_candidate (r7 : Int) (h0 : 0 ≤ r7) (h1 : r7 < 25734) :
    (memoAck 4 1 r7 Memo.empty).1 ≠ 6 ∧ trial r7 ≠ 6 := by
  have key : (memoAck 4 1 r7 Memo.empty).1 ≠ 6 := by
    rw [trial_eq_ack41c r7 ⟨h0, by unfold MOD; omega⟩]
    intro hq
    have hq' : ack41c r7.toNat = 6 := by exact_mod_cast hq
    exact ack41c_ne r7.toNat (by omega) (by omega) hq'
  refine ⟨key, ?_⟩
  rw [trial]; exact key

theorem no_smaller_candidate_witness :
    (0 : Int) ≤ 25733 ∧ (25733 : Int) < 25734 ∧
      ((memoAck 4 1 25733 Memo.empty).1 ≠ 6 ∧ trial 25733 ≠ 6) :=
  ⟨by decide, by decide, no_smaller_candidate 25733 (by decide) (by decide)⟩

/-- C18. For `r0`, `r1`, `r7` in `[0, 32768)` and a table whose values lie in
`[0, 32768)`, the empty table included, the recursion of `memoAck` ends: a bound on the
depth of the recursion exists from which on the bounded evaluator returns the result of
`memoAck`; each recursive call is on a pair whose measure is smaller, the decrements of
`r0` and `r1` lowering the rank. -/
theorem memoAck_terminates (r0 r1 r7 : Int) (memo : Memo) (_h0 : InRange r0)
    (_h1 : InRange r1) (_h7 : InRange r7) (_hm : ValuesInRange memo) :
    (∃ N, ∀ fuel, N ≤ fuel → memoAckF fuel r0 r1 r7 memo = some (memoAck r0 r1 r7 memo)) ∧
    (∃ N, ∀ fuel, N ≤ fuel →
      memoAckF fuel r0 r1 r7 Memo.empty = some (memoAck r0 r1 r7 Memo.empty)) ∧
    (r0 ≠ 0 → rank ((r0 - 1).tmod MOD) < rank r0) ∧
    (r1 ≠ 0 → rank ((r1 - 1).tmod MOD) < rank r1) :=
  ⟨memoAckF_total r0 r1 r7 memo, memoAckF_total r0 r1 r7 Memo.empty,
    rank_dec r0, rank_dec r1⟩

theorem memoAck_terminates_witness :
    InRange 4 ∧ InRange 1 ∧ InRange 25734 ∧ ValuesInRange (Memo.empty.set (toKey 3 0) 7) ∧
    ((∃ N, ∀ fuel, N ≤ fuel → memoAckF fuel 4 1 25734 (Memo.empty.set (toKey 3 0) 7) =
      some (memoAck 4 1 25734 (Memo.empty.set (toKey 3 0) 7))) ∧
    (∃ N, ∀ fuel, N ≤ fuel →
      memoAckF fuel 4 1 25734 Memo.empty = some (memoAck 4 1 25734 Memo.empty)) ∧
    ((4 : Int) ≠ 0 → rank (((4 : Int) - 1).tmod MOD) < rank 4) ∧
    ((1 : Int) ≠ 0 → rank (((1 : Int) - 1).tmod MOD) < rank 1)) :=
  ⟨by decide, by decide, by decide, ValuesInRange.of_empty.of_set _ (by decide),
    memoAck_terminates 4 1 25734 _ (by decide) (by decide) (by decide)
      (ValuesInRange.of_empty.of_set _ (by decide))⟩

/-- The table that holds the one entry `(1, 0) ↦ 6` is sound for `r7 = 5`: the reference
value of the pair `(1, 0)` is `6`. -/
theorem sound_one_entry : Sound (5 : Int).toNat (Memo.empty.set (toKey 1 0) 6) := by
  have h := (Sound.at_empty 5).after_set 1 0
  have e : ((ackRef 5 1 0 : Nat) : Int) = 6 := by rw [ackRef_one]; rfl
  rw [e] at h
  exact h

/-- C19. Soundness of the table is an invariant of `memoAck`: for `r0`, `r1`, `r7` in
`[0, 32768)`, if every entry under the key of a pair holds the reference value of that
pair for this `r7`, then the call returns the reference value of `(r0, r1)`, every entry
of the table it leaves holds the reference value of its pair, and every entry that was
there is still there with the value it had. -/
theorem memo_soundness_invariant (r0 r1 r7 : Int) (memo : Memo) (h0 : InRange r0)
    (h1 : InRange r1) (h7 : InRange r7) (hs : Sound r7.toNat memo) :
    (memoAck r0 r1 r7 memo).1 = (ackRef r7.toNat r0.toNat r1.toNat : Int) ∧
    Sound r7.toNat (memoAck r0 r1 r7 memo).2 ∧
    ∀ k v, memo k = some v → (memoAck r0 r1 r7 memo).2 k = some v :=
  memoAck_invariant_int r0 r1 r7 memo h0 h1 h7 hs

theorem memo_soundness_invariant_witness :
    InRange 1 ∧ InRange 1 ∧ InRange 5 ∧
    Sound (5 : Int).toNat (Memo.empty.set (toKey 1 0) 6) ∧
    ((memoAck 1 1 5 (Memo.empty.set (toKey 1 0) 6)).1 =
      (ackRef (5 : Int).toNat (1 : Int).toNat (1 : Int).toNat : Int) ∧
    Sound (5 : Int).toNat (memoAck 1 1 5 (Memo.empty.set (toKey 1 0) 6)).2 ∧
    ∀ k v, (Memo.empty.set (toKey 1 0) 6) k = some v →
      (memoAck 1 1 5 (Memo.empty.set (toKey 1 0) 6)).2 k = some v) :=
  ⟨by decide, by decide, by decide, sound_one_entry,
    memo_soundness_invariant 1 1 5 _ (by decide) (by decide) (by decide) sound_one_entry⟩

end Teleporter

namespace Maze

/-! ## The queue -/

theorem dequeue_cons {T : Type} (q : Queue T) (el : T) (rest : List T)
    (h : q.q = el :: rest) : q.Dequeue = some (el, ⟨rest, q.size - 1⟩) := by
  unfold Queue.Dequeue
  rw [h]

theorem nonempty_of_not_isEmpty {T : Type} (q : Queue T) (hs : q.size = q.q.length)
    (h : q.IsEmpty = false) : ∃ el rest, q.q = el :: rest := by
  cases hq : q.q with
  | nil =>
    rw [hq] at hs
    simp [Queue.IsEmpty, hs] at h
  | cons el rest => exact ⟨el, rest, rfl⟩

/-- A block "try to walk" appends at most one step to the queue, one level above the
dequeued step and with one more entry in its path. -/
theorem walk_spec (maze : List (List String)) (curr : Step) (nv : Int) (op dir : String)
    (nx ny : Int) (q q' : Queue Step)
    (h : walk maze curr nv op dir nx ny q = some q') :
    ∃ cs, q'.q = q.q ++ cs ∧ q'.size = q.size + cs.length ∧
      ∀ c ∈ cs, c.lvl = curr.lvl + 1 ∧ (c.path.length : Int) = curr.path.length + 1 ∧
        isValid c.x c.y = true ∧ c.value = nv := by
  unfold walk at h
  split_ifs at h with hv
  · cases ht : tileAt maze nx ny with
    | none => rw [ht] at h; cases h
    | some t =>
      rw [ht] at h
      simp only [Option.some.injEq] at h
      refine ⟨[⟨nv, nx, ny, op, curr.path ++ [fmtStep dir nx ny t nv], curr.lvl + 1⟩], ?_, ?_, ?_⟩
      · rw [← h]; rfl
      · rw [← h]; simp [Queue.Enqueue]
      · intro c hc
        simp only [List.mem_singleton] at hc
        rw [hc]
        simp [hv]
  · simp only [Option.some.injEq] at h
    exact ⟨[], by rw [← h]; simp, by rw [← h]; simp, fun c hc => absurd hc (List.not_mem_nil c)⟩

/-! ## The invariant of the loop -/

theorem wrap64_range (x : Int) : InInt64 (wrap64 x) := by
  unfold InInt64 wrap64
  omega

/-- A value of 64 bits that no operation takes out of its range is left as it is. -/
theorem wrap64_id (x : Int) (h : InInt64 x) : wrap64 x = x := by
  unfold InInt64 at h
  unfold wrap64
  omega

/-- The value that `findPath` computes on a tile is a value of 64 bits. -/
theorem evalTile_range (atoi : String → Option Int) (maze : List (List String))
    (curr : Step) (nv : Int) (op : String) (hv : InInt64 curr.value)
    (he : evalTile atoi maze curr = some (nv, op)) : InInt64 nv := by
  unfold evalTile at he
  cases ht : tileAt maze curr.x curr.y with
  | none => rw [ht] at he; cases he
  | some t =>
    rw [ht] at he
    simp only at he
    by_cases ho : isOperand t = true
    · rw [if_pos ho] at he
      cases he
      exact hv
    · rw [if_neg ho] at he
      cases ha : atoi t with
      | none => rw [ha] at he; cases he
      | some n =>
        rw [ha] at he
        simp only at he
        split_ifs at he <;> cases he <;> exact wrap64_range _

theorem inv_step (atoi : String → Option Int) (maze : List (List String)) (goal : Int)
    (st : St) (hits : List Step) (curr : Step) (rest : List Step)
    (hI : Inv atoi maze goal st hits) (hq : st.q.q = curr :: rest)
    (q' : Queue Step) (cs : List Step) (hq' : q'.q = rest ++ cs)
    (hs' : q'.size = st.q.size - 1 + cs.length)
    (hcs : ∀ c ∈ cs, c.lvl = curr.lvl + 1 ∧ (c.path.length : Int) = curr.path.length + 1)
    (hcb : ∀ c ∈ cs, (0 ≤ c.lvl ∧ c.lvl ≤ 1000) ∧ isValid c.x c.y = true ∧ InInt64 c.value)
    (extra : List Step) (hex : ∀ h ∈ extra, h = curr ∧ isHit atoi maze goal h = true)
    (minLvl' : Int) (b : Bool) (paths' : List (List String))
    (hmin' : ∀ h ∈ hits ++ extra, minLvl' ≤ h.lvl)
    (hret' : ∀ p ∈ paths', ∃ h ∈ hits ++ extra, h.path = p ∧ h.lvl = minLvl')
    (hminb : minLvl' ≤ 999) :
    Inv atoi maze goal ⟨q', minLvl', b, paths'⟩ (hits ++ extra) := by
  have hsorted := hI.sorted
  rw [hq, List.pairwise_cons] at hsorted
  have hcurr : curr ∈ st.q.q := by rw [hq]; exact List.mem_cons_self _ _
  have hrest : ∀ s ∈ rest, s ∈ st.q.q := fun s hs => by
    rw [hq]; exact List.mem_cons_of_mem _ hs
  have hclen := hI.plen curr hcurr
  have hmem : ∀ s ∈ q'.q, s ∈ rest ∨ s ∈ cs := fun s hs =>
    List.mem_append.1 (by rw [← hq']; exact hs)
  refine ⟨?_, ?_, ?_, ?_, ?_, ?_, hmin', hret', ?_, hminb,
    fun s hs => (hmem s hs).elim (fun h => hI.lvlb s (hrest s h)) (fun h => (hcb s h).1),
    fun s hs => (hmem s hs).elim (fun h => hI.pos s (hrest s h)) (fun h => (hcb s h).2.1),
    fun s hs => (hmem s hs).elim (fun h => hI.valb s (hrest s h)) (fun h => (hcb s h).2.2)⟩
  · show q'.size = q'.q.length
    rw [hs', hq', hI.size, hq]
    simp only [List.length_cons, List.length_append]
    push_cast; omega
  · show q'.q.Pairwise _
    rw [hq', List.pairwise_append]
    refine ⟨hsorted.2, ?_, ?_⟩
    · rw [List.pairwise_iff_forall_sublist]
      intro a b hab
      have ha := (hcs a (hab.subset (List.mem_cons_self _ _))).1
      have hb := (hcs b (hab.subset (List.mem_cons_of_mem _ (List.mem_singleton_self _)))).1
      omega
    · intro a ha c hc
      have h1 := hsorted.1 a ha
      have h2 := (hcs c hc).1
      omega
  · intro s hs
    show (s.path.length : Int) = s.lvl + 1
    have hs2 : s ∈ rest ++ cs := by rw [← hq']; exact hs
    rcases List.mem_append.1 hs2 with h | h
    · exact hI.plen s (hrest s h)
    · have := hcs s h
      omega
  · intro h hh s hs
    have hs2 : s ∈ rest ++ cs := by rw [← hq']; exact hs
    have hcl : h.lvl ≤ curr.lvl := by
      rcases List.mem_append.1 hh with h1 | h1
      · exact hI.order h h1 curr hcurr
      · rw [(hex h h1).1]
    rcases List.mem_append.1 hs2 with h1 | h1
    · have := hsorted.1 s h1
      omega
    · have := (hcs s h1).1
      omega
  · rw [List.pairwise_append]
    refine ⟨hI.hord, ?_, ?_⟩
    · rw [List.pairwise_iff_forall_sublist]
      intro a b hab
      rw [(hex a (hab.subset (List.mem_cons_self _ _))).1,
        (hex b (hab.subset (List.mem_cons_of_mem _ (List.mem_singleton_self _)))).1]
    · intro a ha b hb
      rw [(hex b hb).1]
      exact hI.order a ha curr hcurr
  · intro h hh
    rcases List.mem_append.1 hh with h1 | h1
    · exact hI.hlen h h1
    · rw [(hex h h1).1]; exact hclen
  · intro h hh
    rcases List.mem_append.1 hh with h1 | h1
    · exact hI.ishit h h1
    · exact (hex h h1).2

theorem hitOf_cons (atoi : String → Option Int) (maze : List (List String)) (goal : Int)
    (st : St) (curr : Step) (rest : List Step) (hq : st.q.q = curr :: rest) :
    hitOf atoi maze goal st = if isHit atoi maze goal curr then [curr] else [] := by
  unfold hitOf
  rw [hq]

theorem isHit_eval (atoi : String → Option Int) (maze : List (List String)) (goal : Int)
    (curr : Step) (nv : Int) (op : String) (he : evalTile atoi maze curr = some (nv, op)) :
    isHit atoi maze goal curr = decide (curr.x = 3 ∧ curr.y = 0 ∧ nv = goal) := by
  unfold isHit
  rw [he]

/-- One iteration of the loop keeps the invariant. -/
theorem inv_body (atoi : String → Option Int) (maze : List (List String)) (goal : Int)
    (st st' : St) (hits : List Step) (hI : Inv atoi maze goal st hits)
    (hne : st.q.IsEmpty = false) (hb : body atoi maze goal st = some st') :
    Inv atoi maze goal st' (hits ++ hitOf atoi maze goal st) := by
  obtain ⟨curr, rest, hq⟩ := nonempty_of_not_isEmpty st.q hI.size hne
  have hcurr : curr ∈ st.q.q := by rw [hq]; exact List.mem_cons_self _ _
  rw [hitOf_cons atoi maze goal st curr rest hq]
  unfold body at hb
  rw [dequeue_cons st.q curr rest hq] at hb
  simp only at hb
  cases he : evalTile atoi maze curr with
  | none => rw [he] at hb; cases hb
  | some r =>
    obtain ⟨nv, op⟩ := r
    rw [he] at hb
    simp only at hb
    rw [isHit_eval atoi maze goal curr nv op he]
    have nohit : ∀ h ∈ ([] : List Step), h = curr ∧ isHit atoi maze goal h = true :=
      fun h hh => absurd hh (List.not_mem_nil h)
    have keepmin : ∀ h ∈ hits ++ ([] : List Step), st.minLvl ≤ h.lvl := fun h hh => by
      rw [List.append_nil] at hh; exact hI.hmin h hh
    have keepret : ∀ p ∈ st.paths, ∃ h ∈ hits ++ ([] : List Step),
        h.path = p ∧ h.lvl = st.minLvl := fun p hp => by
      rw [List.append_nil]; exact hI.ret p hp
    have nochild : ∀ c ∈ ([] : List Step),
        c.lvl = curr.lvl + 1 ∧ (c.path.length : Int) = curr.path.length + 1 :=
      fun c hc => absurd hc (List.not_mem_nil c)
    have nochildb : ∀ c ∈ ([] : List Step),
        (0 ≤ c.lvl ∧ c.lvl ≤ 1000) ∧ isValid c.x c.y = true ∧ InInt64 c.value :=
      fun c hc => absurd hc (List.not_mem_nil c)
    by_cases hend : curr.x = 3 ∧ curr.y = 0
    · rw [if_pos hend] at hb
      by_cases hg : nv = goal
      · have hit : (decide (curr.x = 3 ∧ curr.y = 0 ∧ nv = goal)) = true := by
          simp [hend.1, hend.2, hg]
        rw [hit, if_pos rfl]
        have hex : ∀ h ∈ [curr], h = curr ∧ isHit atoi maze goal h = true := by
          intro h hh
          simp only [List.mem_singleton] at hh
          rw [hh, isHit_eval atoi maze goal curr nv op he]
          exact ⟨rfl, hit⟩
        by_cases hl : curr.lvl ≤ st.minLvl
        · rw [if_pos ⟨hg, hl⟩] at hb
          simp only [Option.some.injEq] at hb
          rw [← hb]
          refine inv_step atoi maze goal st hits curr rest hI hq _ [] (by simp)
            (by simp) nochild nochildb [curr] hex _ _ _ ?_ ?_
            (le_trans hl hI.minb)
          · intro h hh
            rcases List.mem_append.1 hh with h1 | h1
            · have := hI.hmin h h1; omega
            · simp only [List.mem_singleton] at h1; rw [h1]
          · intro p hp
            rcases List.mem_append.1 hp with h1 | h1
            · obtain ⟨h, hh, e1, e2⟩ := hI.ret p h1
              refine ⟨h, List.mem_append_left _ hh, e1, ?_⟩
              have := hI.order h hh curr hcurr
              omega
            · simp only [List.mem_singleton] at h1
              exact ⟨curr, List.mem_append_right _ (List.mem_singleton_self _), h1.symm, rfl⟩
        · rw [if_neg (fun hc => hl hc.2)] at hb
          simp only [Option.some.injEq] at hb
          rw [← hb]
          refine inv_step atoi maze goal st hits curr rest hI hq _ [] (by simp)
            (by simp) nochild nochildb [curr] hex _ _ _ ?_ ?_ hI.minb
          · intro h hh
            rcases List.mem_append.1 hh with h1 | h1
            · exact hI.hmin h h1
            · simp only [List.mem_singleton] at h1; rw [h1]; omega
          · intro p hp
            obtain ⟨h, hh, e1, e2⟩ := hI.ret p hp
            exact ⟨h, List.mem_append_left _ hh, e1, e2⟩
      · have hit : (decide (curr.x = 3 ∧ curr.y = 0 ∧ nv = goal)) = false := by
          simp [hg]
        rw [hit, if_neg (by simp)]
        rw [if_neg (fun hc => hg hc.1)] at hb
        simp only [Option.some.injEq] at hb
        rw [← hb]
        exact inv_step atoi maze goal st hits curr rest hI hq _ [] (by simp)
          (by simp) nochild nochildb [] nohit _ _ _ keepmin keepret hI.minb
    · have hit : (decide (curr.x = 3 ∧ curr.y = 0 ∧ nv = goal)) = false := by
        simp only [decide_eq_false_iff_not]
        exact fun hc => hend ⟨hc.1, hc.2.1⟩
      rw [hit, if_neg (by simp)]
      rw [if_neg hend] at hb
      by_cases h1 : curr.lvl > st.minLvl
      · rw [if_pos h1] at hb
        simp only [Option.some.injEq] at hb
        rw [← hb]
        exact inv_step atoi maze goal st hits curr rest hI hq _ [] (by simp)
          (by simp) nochild nochildb [] nohit _ _ _ keepmin keepret hI.minb
      · rw [if_neg h1] at hb
        by_cases h2 : curr.value > THRESHOLD ∨ curr.value < 0
        · rw [if_pos h2] at hb
          simp only [Option.some.injEq] at hb
          rw [← hb]
          exact inv_step atoi maze goal st hits curr rest hI hq _ [] (by simp)
            (by simp) nochild nochildb [] nohit _ _ _ keepmin keepret hI.minb
        · rw [if_neg h2] at hb
          by_cases h3 : st.hitStart = true ∧ curr.x = 0 ∧ curr.y = 3
          · rw [if_pos h3] at hb
            simp only [Option.some.injEq] at hb
            rw [← hb]
            exact inv_step atoi maze goal st hits curr rest hI hq _ [] (by simp)
              (by simp) nochild nochildb [] nohit _ _ _ keepmin keepret hI.minb
          · rw [if_neg h3] at hb
            cases w1 : walk maze curr nv op "east" (curr.x + 1) curr.y
                ⟨rest, st.q.size - 1⟩ with
            | none => rw [w1] at hb; cases hb
            | some q1 =>
              rw [w1] at hb
              simp only at hb
              cases w2 : walk maze curr nv op "west" (curr.x - 1) curr.y q1 with
              | none => rw [w2] at hb; cases hb
              | some q2 =>
                rw [w2] at hb
                simp only at hb
                cases w3 : walk maze curr nv op "south" curr.x (curr.y + 1) q2 with
                | none => rw [w3] at hb; cases hb
                | some q3 =>
                  rw [w3] at hb
                  simp only at hb
                  cases w4 : walk maze curr nv op "north" curr.x (curr.y - 1) q3 with
                  | none => rw [w4] at hb; cases hb
                  | some q4 =>
                    rw [w4] at hb
                    simp only [Option.some.injEq] at hb
                    rw [← hb]
                    obtain ⟨c1, a1, b1, d1⟩ := walk_spec _ _ _ _ _ _ _ _ _ w1
                    obtain ⟨c2, a2, b2, d2⟩ := walk_spec _ _ _ _ _ _ _ _ _ w2
                    obtain ⟨c3, a3, b3, d3⟩ := walk_spec _ _ _ _ _ _ _ _ _ w3
                    obtain ⟨c4, a4, b4, d4⟩ := walk_spec _ _ _ _ _ _ _ _ _ w4
                    refine inv_step atoi maze goal st hits curr rest hI hq q4
                      (c1 ++ c2 ++ c3 ++ c4) ?_ ?_ ?_ ?_ [] nohit _ _ _ keepmin keepret hI.minb
                    · rw [a4, a3, a2, a1]; simp
                    · rw [b4, b3, b2, b1]
                      simp only [List.length_append]
                      push_cast; ring
                    · intro c hc
                      simp only [List.mem_append] at hc
                      rcases hc with ((hc | hc) | hc) | hc
                      · exact ⟨(d1 c hc).1, (d1 c hc).2.1⟩
                      · exact ⟨(d2 c hc).1, (d2 c hc).2.1⟩
                      · exact ⟨(d3 c hc).1, (d3 c hc).2.1⟩
                      · exact ⟨(d4 c hc).1, (d4 c hc).2.1⟩
                    · intro c hc
                      have hlb := hI.lvlb curr hcurr
                      have hmb := hI.minb
                      have hv := evalTile_range atoi maze curr nv op (hI.valb curr hcurr) he
                      have hd : ∀ d : Step, d.lvl = curr.lvl + 1 ∧
                          (d.path.length : Int) = curr.path.length + 1 ∧
                          isValid d.x d.y = true ∧ d.value = nv →
                          (0 ≤ d.lvl ∧ d.lvl ≤ 1000) ∧ isValid d.x d.y = true ∧
                            InInt64 d.value :=
                        fun d hd => ⟨⟨by omega, by omega⟩, hd.2.2.1, by rw [hd.2.2.2]; exact hv⟩
                      simp only [List.mem_append] at hc
                      rcases hc with ((hc | hc) | hc) | hc
                      · exact hd c (d1 c hc)
                      · exact hd c (d2 c hc)
                      · exact hd c (d3 c hc)
                      · exact hd c (d4 c hc)

/-- The invariant holds when `findPath` enters its loop. -/
theorem inv_start (atoi : String → Option Int) (maze : List (List String)) (goal : Int) :
    Inv atoi maze goal start [] := by
  have hq : ∀ s ∈ start.q.q, s = ⟨0, 0, 3, "+", ["take orb (0,3) [22]"], 0⟩ := by
    intro s hs
    simp only [start, NewQueue, Queue.Enqueue, List.nil_append, List.mem_singleton] at hs
    exact hs
  refine ⟨rfl, ?_, ?_, ?_, List.Pairwise.nil, ?_, ?_, ?_, ?_, by decide,
    fun s hs => by rw [hq s hs]; decide, fun s hs => by rw [hq s hs]; decide,
    fun s hs => by rw [hq s hs]; decide⟩
  · simp [start, NewQueue, Queue.Enqueue]
  · intro s hs
    rw [hq s hs]; rfl
  all_goals intro h hh; exact absurd hh (List.not_mem_nil h)

/-- What the invariant gives when the loop ends. -/
theorem loopI_post (atoi : String → Option Int) (maze : List (List String)) (goal : Int) :
    ∀ (fuel : Nat) (st : St) (hits : List Step) (paths : List (List String))
      (hs : List Step), Inv atoi maze goal st hits →
      loopI atoi maze goal fuel st hits = some (paths, hs) →
      ∃ m : Int, (∀ p ∈ paths, ∃ h ∈ hs, h.path = p ∧ h.lvl = m) ∧
        (∀ h ∈ hs, m ≤ h.lvl) ∧ (∀ h ∈ hs, (h.path.length : Int) = h.lvl + 1) ∧
        (∀ h ∈ hs, isHit atoi maze goal h = true) ∧
        hs.Pairwise (fun a b => a.lvl ≤ b.lvl) := by
  intro fuel
  induction fuel with
  | zero => intro st hits paths hs _ h; simp [loopI] at h
  | succ fuel ih =>
    intro st hits paths hs hI h
    rw [loopI] at h
    by_cases he : st.q.IsEmpty = true
    · rw [if_pos he] at h
      simp only [Option.some.injEq, Prod.mk.injEq] at h
      rw [← h.1, ← h.2]
      exact ⟨st.minLvl, hI.ret, hI.hmin, hI.hlen, hI.ishit, hI.hord⟩
    · rw [if_neg he] at h
      cases hb : body atoi maze goal st with
      | none => rw [hb] at h; cases h
      | some st' =>
        rw [hb] at h
        exact ih st' _ paths hs
          (inv_body atoi maze goal st st' hits hI (by simpa using he) hb) h

/-- The record of `loopI` does not change what the loop returns. -/
theorem loopI_erase (atoi : String → Option Int) (maze : List (List String)) (goal : Int) :
    ∀ (fuel : Nat) (st : St) (hits : List Step),
      (loopI atoi maze goal fuel st hits).map Prod.fst = loop atoi maze goal fuel st := by
  intro fuel
  induction fuel with
  | zero => intro st hits; rfl
  | succ fuel ih =>
    intro st hits
    rw [loopI, loop]
    by_cases he : st.q.IsEmpty = true
    · rw [if_pos he, if_pos he]; rfl
    · rw [if_neg he, if_neg he]
      cases hb : body atoi maze goal st with
      | none => rfl
      | some st' => exact ih st' _

/-- The run of `findPath` on `smallMaze` with the goal `4`: two paths of seven entries. -/
theorem findPath_smallMaze :
    findPath atoiDec 300 smallMaze 4 =
      some [["take orb (0,3) [22]", "east (1,3) [+] \x7b1\x7d", "east (2,3) [1] \x7b1\x7d",
          "east (3,3) [+] \x7b2\x7d", "north (3,2) [1] \x7b2\x7d", "north (3,1) [+] \x7b3\x7d",
          "north (3,0) [1] \x7b3\x7d"],
        ["take orb (0,3) [22]", "east (1,3) [+] \x7b1\x7d", "east (2,3) [1] \x7b1\x7d",
          "north (2,2) [+] \x7b2\x7d", "east (3,2) [1] \x7b2\x7d", "north (3,1) [+] \x7b3\x7d",
          "north (3,0) [1] \x7b3\x7d"]] := by
  set_option maxRecDepth 1000000 in decide

/-- On the end tile of `wrapMaze` the product wraps around: the step arrives with the value
`2` and the operation `*`, the tile holds `9223372036854775807`, and the value computed
is `-2`. -/
theorem evalTile_wraps :
    evalTile atoiDec wrapMaze ⟨2, 3, 0, "*", [], 6⟩ = some (-2, "") ∧
      wrap64 (2 * 9223372036854775807) = -2 ∧ wrap64 (-9223372036854775808 - 1) =
        9223372036854775807 := by
  decide

/-! # Properties of the search of the grid -/

/-- C20. When `findPath(maze, goal)` returns normally, every returned path is the path of
a dequeued step that stands on the end tile `(3,0)` with accumulated value equal to
`goal`, and its number of entries is one more than the level of that step, which is the
smallest level of all such steps: all returned paths have the same number of entries, and
the path of a step that reaches the goal at a greater level is not returned. Such steps
are dequeued in non-decreasing order of their level. -/
theorem findPath_paths_minimal (atoi : String → Option Int) (fuel : Nat)
    (maze : List (List String)) (goal : Int) (paths : List (List String))
    (h : findPath atoi fuel maze goal = some paths) :
    ∃ hits, findPathI atoi fuel maze goal = some (paths, hits) ∧
      (∀ s ∈ hits, isHit atoi maze goal s = true) ∧
      hits.Pairwise (fun a b => a.lvl ≤ b.lvl) ∧
      (∀ p ∈ paths, ∃ s ∈ hits, s.path = p ∧ (p.length : Int) = s.lvl + 1) ∧
      (∀ p ∈ paths, ∀ s ∈ hits, (p.length : Int) ≤ s.lvl + 1) ∧
      (∀ p ∈ paths, ∀ p' ∈ paths, p.length = p'.length) ∧
      (∀ s ∈ hits, ∀ s' ∈ hits, s'.lvl < s.lvl → s.path ∉ paths) := by
  have er := loopI_erase atoi maze goal fuel start []
  unfold findPath at h
  rw [h] at er
  cases hr : loopI atoi maze goal fuel start [] with
  | none => rw [hr] at er; cases er
  | some r =>
    obtain ⟨ps, hits⟩ := r
    rw [hr] at er
    simp only [Option.map_some', Option.some.injEq] at er
    subst er
    obtain ⟨m, p1, p2, p3, p4, p5⟩ :=
      loopI_post atoi maze goal fuel start [] ps hits (inv_start atoi maze goal) hr
    have plen : ∀ p ∈ ps, (p.length : Int) = m + 1 := by
      intro p hp
      obtain ⟨s, hs, e1, e2⟩ := p1 p hp
      rw [← e1, ← e2]; exact p3 s hs
    refine ⟨hits, hr, p4, p5, ?_, ?_, ?_, ?_⟩
    · intro p hp
      obtain ⟨s, hs, e1, e2⟩ := p1 p hp
      exact ⟨s, hs, e1, by rw [plen p hp, e2]⟩
    · intro p hp s hs
      have := p2 s hs
      rw [plen p hp]; omega
    · intro p hp p' hp'
      have a := plen p hp
      have b := plen p' hp'
      omega
    · intro s hs s' hs' hlt hmem
      have a := plen s.path hmem
      have b := p3 s hs
      have c := p2 s' hs'
      omega

theorem findPath_paths_minimal_witness :
    findPath atoiDec 300 wrapMaze (-2) =
      some [["take orb (0,3) [22]", "east (1,3) [*] \x7b2\x7d", "east (2,3) [1] \x7b2\x7d",
          "east (3,3) [*] \x7b2\x7d", "north (3,2) [1] \x7b2\x7d", "north (3,1) [*] \x7b2\x7d",
          "north (3,0) [9223372036854775807] \x7b2\x7d"],
        ["take orb (0,3) [22]", "east (1,3) [*] \x7b2\x7d", "east (2,3) [1] \x7b2\x7d",
          "north (2,2) [*] \x7b2\x7d", "east (3,2) [1] \x7b2\x7d", "north (3,1) [*] \x7b2\x7d",
          "north (3,0) [9223372036854775807] \x7b2\x7d"]] ∧
    ∃ hits, findPathI atoiDec 300 wrapMaze (-2) =
      some ([["take orb (0,3) [22]", "east (1,3) [*] \x7b2\x7d", "east (2,3) [1] \x7b2\x7d",
          "east (3,3) [*] \x7b2\x7d", "north (3,2) [1] \x7b2\x7d", "north (3,1) [*] \x7b2\x7d",
          "north (3,0) [9223372036854775807] \x7b2\x7d"],
        ["take orb (0,3) [22]", "east (1,3) [*] \x7b2\x7d", "east (2,3) [1] \x7b2\x7d",
          "north (2,2) [*] \x7b2\x7d", "east (3,2) [1] \x7b2\x7d", "north (3,1) [*] \x7b2\x7d",
          "north (3,0) [9223372036854775807] \x7b2\x7d"]], hits) ∧
      (∀ s ∈ hits, isHit atoiDec wrapMaze (-2) s = true) ∧
      hits.Pairwise (fun a b => a.lvl ≤ b.lvl) ∧
      (∀ p ∈ [["take orb (0,3) [22]", "east (1,3) [*] \x7b2\x7d", "east (2,3) [1] \x7b2\x7d",
          "east (3,3) [*] \x7b2\x7d", "north (3,2) [1] \x7b2\x7d", "north (3,1) [*] \x7b2\x7d",
          "north (3,0) [9223372036854775807] \x7b2\x7d"],
        ["take orb (0,3) [22]", "east (1,3) [*] \x7b2\x7d", "east (2,3) [1] \x7b2\x7d",
          "north (2,2) [*] \x7b2\x7d", "east (3,2) [1] \x7b2\x7d", "north (3,1) [*] \x7b2\x7d",
          "north (3,0) [9223372036854775807] \x7b2\x7d"]],
        ∃ s ∈ hits, s.path = p ∧ (p.length : Int) = s.lvl + 1) :=
  have e : findPath atoiDec 300 wrapMaze (-2) =
      some [["take orb (0,3) [22]", "east (1,3) [*] \x7b2\x7d", "east (2,3) [1] \x7b2\x7d",
          "east (3,3) [*] \x7b2\x7d", "north (3,2) [1] \x7b2\x7d", "north (3,1) [*] \x7b2\x7d",
          "north (3,0) [9223372036854775807] \x7b2\x7d"],
        ["take orb (0,3) [22]", "east (1,3) [*] \x7b2\x7d", "east (2,3) [1] \x7b2\x7d",
          "north (2,2) [*] \x7b2\x7d", "east (3,2) [1] \x7b2\x7d", "north (3,1) [*] \x7b2\x7d",
          "north (3,0) [9223372036854775807] \x7b2\x7d"]] := by set_option maxRecDepth 1000000 in decide
  ⟨e, (findPath_paths_minimal atoiDec 300 wrapMaze (-2) _ e).imp
    (fun _ hh => ⟨hh.1, hh.2.1, hh.2.2.1, hh.2.2.2.1⟩)⟩

end Maze
